import Mathlib

set_option linter.unusedVariables false

/-!
Shallow embedding of the casing/normalization/diff core of
`app_validators/validator.py` (class `AEMBriefReviewer`).

Strings are modelled as lists of characters.  Python `str` methods and the
`re` patterns used by the source are modelled on ASCII data, matching the
spec's single-locale, ASCII-oriented scope: `\w` is `[A-Za-z0-9_]`, case
conversion is ASCII case conversion.
-/

/-- Python `\w` word character (ASCII model): letters, digits, underscore. -/
def wch (c : Char) : Bool := c.isAlphanum || c = '_'

/-- A character matched by the regex class `[a-zA-Z\-]` (letter or hyphen). -/
def lhch (c : Char) : Bool := c.isAlpha || c = '-'

/-- Word-ness of an optional character; `none` (outside the string) counts as
    non-word, which is how Python's `\b` behaves at the string edges. -/
def wchOpt : Option Char → Bool
  | none => false
  | some c => wch c

/-- Python `str.lower()` (ASCII model). -/
def pyLower (l : List Char) : List Char := l.map Char.toLower

/-- Python `str.upper()` (ASCII model). -/
def pyUpper (l : List Char) : List Char := l.map Char.toUpper

/-- Python `str.isupper()`: at least one cased character and no cased character
    is lowercase (ASCII model: cased = letter). -/
def pyIsUpper (l : List Char) : Bool :=
  l.any (·.isAlpha) && l.all (fun c => !c.isAlpha || c.isUpper)

/-- Python `str.isspace()`-style whitespace for `split()`/`strip()` (ASCII model). -/
def pyIsSpace (c : Char) : Bool :=
  c = ' ' || c = '\t' || c = '\n' || c = '\x0d' || c = '\x0b' || c = '\x0c'

/-- Strip characters satisfying `p` from the right end. -/
def pyRStripBy (p : Char → Bool) (l : List Char) : List Char :=
  (l.reverse.dropWhile p).reverse

/-- Python `str.strip()` (no argument): trim whitespace from both ends. -/
def pyStripL (l : List Char) : List Char :=
  pyRStripBy pyIsSpace (l.dropWhile pyIsSpace)

/-- Python `str.strip(q)` for a single character `q`. -/
def pyStripChar (q : Char) (l : List Char) : List Char :=
  pyRStripBy (· = q) (l.dropWhile (· = q))

/-- Helper for `pySplitL`: `acc` holds the current word reversed. -/
def pySplitAux : List Char → List Char → List (List Char)
  | acc, [] => if acc = [] then [] else [acc.reverse]
  | acc, c :: t =>
    if pyIsSpace c then (if acc = [] then [] else [acc.reverse]) ++ pySplitAux [] t
    else pySplitAux (c :: acc) t

/-- Python `str.split()` with no argument: split on whitespace runs, dropping
    empty pieces. -/
def pySplitL (l : List Char) : List (List Char) := pySplitAux [] l

/-- Python `' '.join(words)`. -/
def joinSpace : List (List Char) → List Char
  | [] => []
  | [w] => w
  | w :: ws => w ++ ' ' :: joinSpace ws

/-- Helper for `mapRuns`: `acc` holds the current word-character run reversed. -/
def mapRunsAux (f : List Char → List Char) : List Char → List Char → List Char
  | acc, [] => if acc = [] then [] else f acc.reverse
  | acc, c :: t =>
    if wch c then mapRunsAux f (c :: acc) t
    else (if acc = [] then [] else f acc.reverse) ++ c :: mapRunsAux f [] t

/-- Apply `f` to each maximal run of `\w` characters, leaving every other
    character in place.  For an all-word-character literal `P`, Python's
    `re.sub(r'\bP\b', R, s)` rewrites exactly the maximal word runs equal to
    `P` (the two `\b`s force the occurrence to span a whole run), which is how
    the acronym-plural pass below is modelled. -/
def mapRuns (f : List Char → List Char) (l : List Char) : List Char := mapRunsAux f [] l

/-- `AEMBriefReviewer.FORTINET_SHORTHANDS`, in source order; the commented-out
    entries (`forticnapp`, `vpns`, `casb`) are omitted exactly as in the source. -/
def FORTINET_SHORTHANDS : List (String × String) := [
  ("appsec", "AppSec"), ("devsecops", "DevSecOps"), ("forticspm", "FortiCSPM"),
  ("fortiweb", "FortiWeb"), ("fortiapisec", "FortiAPISec"),
  ("fortiapimanagement", "FortiAPIManagement"), ("fortiapigateway", "FortiAPIGateway"),
  ("fortidevops", "FortiDevOps"),
  ("forticode", "FortiCode"), ("fortipentest", "FortiPentest"),
  ("zero trust", "Zero Trust"), ("ztna", "ZTNA"), ("sase", "SASE"),
  ("sd-wan", "SD-WAN"), ("fortiguard", "FortiGuard"), ("fim", "FIM"),
  ("zam", "ZAM"), ("fabric", "Fabric"),
  ("xdr", "XDR"), ("ndr", "NDR"), ("edr", "EDR"), ("mdr", "MDR"),
  ("siem", "SIEM"), ("soar", "SOAR"), ("ueba", "UEBA"),
  ("fortixdr", "FortiXDR"), ("fortisiem", "FortiSIEM"), ("fortisoc", "FortiSOC"),
  ("ddos", "DDoS"), ("apt", "APT"), ("ips", "IPS"), ("ids", "IDS"),
  ("waf", "WAF"),
  ("dlp", "DLP"), ("deception", "Deception"), ("rtbh", "RTBH"),
  ("fortigate", "FortiGate"), ("fortiproxy", "FortiProxy"),
  ("fortiswitch", "FortiSwitch"), ("fortiap", "FortiAP"),
  ("forticlient", "FortiClient"), ("fortiauthenticator", "FortiAuthenticator"),
  ("fortitoken", "FortiToken"), ("fortinac", "FortiNAC"),
  ("fortianalyzer", "FortiAnalyzer"), ("fortimanager", "FortiManager"),
  ("fortimail", "FortiMail"), ("fortisandbox", "FortiSandbox"),
  ("fortiddos", "FortiDDoS"),
  ("cspm", "CSPM"), ("cwpp", "CWPP"), ("iac", "IaC"), ("it-ot", "IT-OT"),
  ("vpc", "VPC"), ("ec2", "EC2"), ("s3", "S3"), ("vm", "VM"), ("vms", "VMs"),
  ("vmware", "VMware"), ("hyper-v", "Hyper-V"), ("azure", "Azure"),
  ("aws", "AWS"), ("gcp", "GCP"), ("kubernetes", "Kubernetes"),
  ("containers", "Containers"), ("docker", "Docker"),
  ("ot", "OT"), ("iot", "IoT"), ("ics", "ICS"), ("scada", "SCADA"),
  ("fortiot", "FortiOT"),
  ("ai", "AI"), ("ml", "ML"), ("rpa", "RPA"), ("aops", "AIOps"),
  ("fortiai", "FortiAI"),
  ("api", "API"), ("apis", "APIs")]

/-- Dictionary lookup `FORTINET_SHORTHANDS.get(key)` on a character-list key. -/
def lookupShorthand (k : List Char) : Option (List Char) :=
  (FORTINET_SHORTHANDS.find? (fun p => decide (p.1.data = k))).map (fun p => p.2.data)

/-- `core.lower().startswith('forti')`. -/
def lowersToForti (core : List Char) : Bool :=
  "forti".data.isPrefixOf (pyLower core)

/-- The `acronym_fixes` table of `_fix_acronym_plurals_rule_based`, in source order. -/
def acronym_fixes : List (String × String) := [
  ("Vpns", "VPNs"), ("Apis", "APIs"), ("Urls", "URLs"), ("Sdks", "SDKs"),
  ("Vms", "VMs"), ("Ips", "IPs"), ("Ids", "IDs"), ("Faqs", "FAQs"),
  ("Pdfs", "PDFs"), ("Csvs", "CSVs"), ("Slas", "SLAs"), ("Kpis", "KPIs")]

/-- `_fix_acronym_plurals_rule_based`: sequentially apply
    `re.sub(r'\bP\b', R, text)` for each pair; each such sub rewrites the
    maximal word runs equal to `P` (see `mapRuns`). -/
def fixAcronymPluralsL (l : List Char) : List Char :=
  acronym_fixes.foldl
    (fun t pr => mapRuns (fun run => if run = pr.1.data then pr.2.data else run) t) l

/-- The combined effect of the twelve sequential substitutions on one maximal
    word run: at most one pattern can equal the run, so the fold reduces to a
    single per-run replacement function (see `fix_eq_mapRuns`). -/
def acrRun (r : List Char) : List Char :=
  acronym_fixes.foldl (fun t pr => if t = pr.1.data then pr.2.data else t) r

/-! ## The shorthand normalizer `_normalize_fortinet_shorthands`

`re.sub(r'(\()?(\b[a-zA-Z\-]+\b)(\)?\??)', replace, text)` is modelled as a
left-to-right scanner.  `pw` is always the word-ness of the character just
before the current position (`false` at the start of the string). -/

/-- `\b` test between a previous character of word-ness `pw` and the head of `l`. -/
def bAt (pw : Bool) (l : List Char) : Bool := pw != wchOpt l.head?

/-- `\b` test inside `l`, between positions `k-1` and `k` (`k ≥ 1`). -/
def bAtPos (l : List Char) (k : Nat) : Bool :=
  wchOpt (l.get? (k - 1)) != wchOpt (l.get? k)

/-- Greedy-with-backtracking core length: the largest `n` with `1 ≤ n ≤ bound`
    such that `\b` holds after the first `n` characters of `l`. -/
def findLen (l : List Char) : Nat → Option Nat
  | 0 => none
  | n + 1 => if bAtPos l (n + 1) then some (n + 1) else findLen l n

/-- Match `\b[a-zA-Z\-]+\b` at the start of `l` (`pw` = word-ness of the
    preceding character); returns the core and the remainder. -/
def coreAt (pw : Bool) (l : List Char) : Option (List Char × List Char) :=
  if bAt pw l then
    match findLen l (l.takeWhile lhch).length with
    | some n => some (l.take n, l.drop n)
    | none => none
  else none

/-- Match the trailing group `(\)?\??)` greedily. -/
def g3At : List Char → List Char × List Char
  | ')' :: '?' :: t => ([')', '?'], t)
  | ')' :: t => ([')'], t)
  | '?' :: t => (['?'], t)
  | t => ([], t)

/-- One match of `(\()?(\b[a-zA-Z\-]+\b)(\)?\??)`. -/
structure TokenMatch where
  g1 : List Char
  core : List Char
  g3 : List Char
  rest : List Char
deriving Repr, DecidableEq

/-- Try to match the token pattern at the current position.  When the leading
    `(` is consumed, the `\b` before the core sees the non-word `(`; trying the
    empty first group instead can never succeed because the core class does not
    contain `(`. -/
def matchAt (pw : Bool) (l : List Char) : Option TokenMatch :=
  match l with
  | '(' :: t =>
    match coreAt false t with
    | some (core, r) => some ⟨['('], core, (g3At r).1, (g3At r).2⟩
    | none => none
  | _ =>
    match coreAt pw l with
    | some (core, r) => some ⟨[], core, (g3At r).1, (g3At r).2⟩
    | none => none

/-- The `replace(match)` callback of `_normalize_fortinet_shorthands` applied to
    the core: Forti*-prefixed cores are returned unchanged (the whole match
    `group(0)` is reproduced), otherwise the lowercased core is looked up in
    the vocabulary table, defaulting to the core itself. -/
def tokenMap (core : List Char) : List Char :=
  if lowersToForti core then core
  else
    match lookupShorthand (pyLower core) with
    | some v => v
    | none => core

/-- The text the scanner emits for one match. -/
def replTok (m : TokenMatch) : List Char := m.g1 ++ tokenMap m.core ++ m.g3

/-- Word-ness of the last character of the matched span of the *input*: the
    regex engine keeps matching against the input text, so this is the `\b`
    context for the continuation. -/
def spanEndW (m : TokenMatch) : Bool := wchOpt (m.g1 ++ m.core ++ m.g3).getLast?

/-- Fueled scanner for the `re.sub`: leftmost, non-overlapping matches; a failed
    position is copied and scanning resumes one character later. -/
def subScanF : Nat → Bool → List Char → List Char
  | 0, _, l => l
  | _ + 1, _, [] => []
  | f + 1, pw, c :: t =>
    match matchAt pw (c :: t) with
    | some m => replTok m ++ subScanF f (spanEndW m) m.rest
    | none => c :: subScanF f (wch c) t

/-- The `re.sub` scan of a whole string (fuel = length suffices: every step
    consumes at least one character). -/
def subScan (pw : Bool) (l : List Char) : List Char := subScanF l.length pw l

/-- `_normalize_fortinet_shorthands` (the `if not text` guard returns the text
    unchanged). -/
def normalize_fortinet_shorthands (s : String) : String :=
  if s = "" then s else String.mk (subScan false s.data)

/-! ## The three case transformers -/

/-- `re.sub(r'[^\w\-]', '', word)`. -/
def cleanWord (w : List Char) : List Char := w.filter (fun c => wch c || c = '-')

/-- `word[0].upper() + word[1:].lower() if len(word) > 1 else word.upper()`. -/
def capitalizeWord (w : List Char) : List Char :=
  if 1 < w.length then
    match w with
    | c :: t => Char.toUpper c :: pyLower t
    | [] => []
  else pyUpper w

/-- One word of `_validate_capital_case`. -/
def capWord (w : List Char) : List Char :=
  if lowersToForti (cleanWord w) then w
  else if pyIsUpper w && decide (1 < w.length) then w
  else if pyLower w = "faqs".data then "FAQs".data
  else if pyLower w = "vs".data then "Vs".data
  else capitalizeWord w

/-- `_validate_capital_case`. -/
def validate_capital_case (s : String) : Bool × String :=
  if s = "" then (true, "")
  else
    let corrected := fixAcronymPluralsL (joinSpace ((pySplitL s.data).map capWord))
    (decide (s.data = corrected), String.mk corrected)

/-- The closed set of lowercase function words of `_validate_title_case`. -/
def lowercase_words : List String :=
  ["a", "an", "the", "and", "but", "or", "nor", "in", "of", "to",
   "for", "at", "by", "on", "with", "from", "into"]

/-- The anchored pattern `^([(\[]?)([\w\-]+)([)\]?,?\?]*)$` of
    `_validate_title_case`.  The character classes of the three groups are
    pairwise disjoint, so a match exists exactly when the word decomposes as
    optional bracket + nonempty word-hyphen run + trailing-class run. -/
def titleShMatch (w : List Char) : Option (List Char × List Char × List Char) :=
  let p : List Char × List Char :=
    match w with
    | '(' :: t => (['('], t)
    | '[' :: t => (['['], t)
    | t => ([], t)
  let core := p.2.takeWhile (fun c => wch c || c = '-')
  let sfx := p.2.drop core.length
  if core ≠ [] ∧ sfx.all (fun c => c = ')' || c = ']' || c = '?' || c = ',') then
    some (p.1, core, sfx)
  else none

/-- One word of `_validate_title_case` (`first`/`last` from `enumerate`). -/
def titleWord (first last : Bool) (w : List Char) : List Char :=
  let viaShorthand : Option (List Char) :=
    match titleShMatch w with
    | some (g1, core, sfx) =>
      if lowersToForti core then some w
      else
        match lookupShorthand (pyLower core) with
        | some v => some (g1 ++ v ++ sfx)
        | none => none
    | none => none
  match viaShorthand with
  | some r => r
  | none =>
    if pyIsUpper w && decide (1 < w.length) then w
    else if pyLower w = "faqs".data then "FAQs".data
    else if pyLower w = "vs".data then (if first || last then "Vs".data else "vs".data)
    else
      let wl := (pyLower w).filter (fun c => !(c = '.' || c = '!' || c = '?' || c = ';' || c = ':'))
      if lowercase_words.any (fun x => decide (x.data = wl)) && !first && !last then wl
      else capitalizeWord w

/-- The `enumerate(words)` loop of `_validate_title_case`. -/
def titleWords (ws : List (List Char)) : List (List Char) :=
  ws.enum.map (fun p => titleWord (decide (p.1 = 0)) (decide (p.1 = ws.length - 1)) p.2)

/-- `_validate_title_case`. -/
def validate_title_case (s : String) : Bool × String :=
  if s = "" then (true, "")
  else
    let corrected := fixAcronymPluralsL (joinSpace (titleWords (pySplitL s.data)))
    (decide (s.data = corrected), String.mk corrected)

/-- Python `word.rstrip().endswith(('.', '!', '?'))`. -/
def endsSentencePunct (w : List Char) : Bool :=
  match (pyRStripBy pyIsSpace w).getLast? with
  | some c => c = '.' || c = '!' || c = '?'
  | none => false

/-- One iteration of the `_validate_sentence_case` loop: from the sentence-start
    flag and the raw word, produce the corrected word and the new flag.
    `none` marks the only operations at which the Python code could raise: the
    unguarded `clean_word[0]` / `clean_word[-1]` of the dictionary branch. -/
def sentStep (sentence_start : Bool) (w : List Char) : Option (List Char × Bool) :=
  let clean := cleanWord w
  if lowersToForti clean then
    some (w, endsSentencePunct w)
  else
    match lookupShorthand (pyLower clean) with
    | some v =>
      if w ≠ clean then
        match clean.head?, clean.getLast? with
        | some c0, some cl =>
          let pfx := if w.contains c0 then w.take (w.findIdx (· == c0)) else []
          let sfx := if w.contains cl && decide (w.findIdx (· == cl) < w.length - 1)
                     then w.drop (w.findIdx (· == cl) + 1) else []
          some (pfx ++ v ++ sfx, endsSentencePunct w)
        | _, _ => none
      else some (v, endsSentencePunct w)
    | none =>
      if pyIsUpper clean && decide (1 < clean.length) then
        some (w, false)
      else if sentence_start then
        let out := if decide (0 < w.length) && (match w.head? with
                     | some c => c.isLower
                     | none => false) then
            match w with
            | c :: t => Char.toUpper c :: t
            | [] => []
          else w
        some (out, endsSentencePunct w)
      else
        let has_caps := clean.any (·.isUpper)
        let out :=
          if has_caps then
            -- `word != clean_word` picks apart `word` around the first/last
            -- clean character (`find`/`rfind`); `has_caps` forces `clean ≠ []`,
            -- so the source's `if clean_word else` fallbacks are unreachable.
            let pcs : List Char × List Char × List Char :=
              if w ≠ clean then
                match clean.head?, clean.getLast? with
                | some c0, some cl =>
                  let si := w.findIdx (· == c0)
                  let ei := w.length - 1 - w.reverse.findIdx (· == cl)
                  (w.take si, (w.drop si).take (ei + 1 - si), w.drop (ei + 1))
                | _, _ => ([], clean, [])
              else ([], clean, [])
            pcs.1 ++ pyLower pcs.2.1 ++ pcs.2.2
          else w
        some (out, endsSentencePunct w)

/-- The word loop of `_validate_sentence_case`, threading the flag. -/
def processWords : Bool → List (List Char) → Option (List (List Char))
  | _, [] => some []
  | flag, w :: ws =>
    match sentStep flag w with
    | some (o, flag2) =>
      match processWords flag2 ws with
      | some os => some (o :: os)
      | none => none
    | none => none

/-- `_validate_sentence_case`; `none` if the Python code would raise. -/
def validate_sentence_case (s : String) : Option (Bool × String) :=
  if s = "" then some (true, "")
  else
    match processWords true (pySplitL s.data) with
    | some os =>
      let corrected := fixAcronymPluralsL (joinSpace os)
      some (decide (s.data = corrected), String.mk corrected)
    | none => none

/-! ## Orchestrator pieces (per-field validators and verdict status) -/

/-- Verdict status (`Status.ACCEPTED` renders "✓ PASS", `REJECTED` "✗ REJECTED"). -/
inductive VStatus
  | ACCEPTED
  | REJECTED
deriving DecidableEq, Repr

/-- The record returned by the external hybrid (OpenAI) collaborator. -/
structure Opinion where
  ai_valid : Bool
  ai_corrected : String
  final_recommendation : String
  unknown_terms : List String

/-- Python `x.strip().strip('"').strip("'")`. -/
def stripWsQuotes (l : List Char) : List Char :=
  pyStripChar '\'' (pyStripChar '"' (pyStripL l))

/-- `_validate_meta_title` without a hybrid validator (rule-based fallback):
    the override compares `text.strip()` with `rule_corrected.strip()`. -/
def validate_meta_title_rule (raw : String) : VStatus × String :=
  let text := normalize_fortinet_shorthands raw
  let rc := validate_title_case text
  let rule_valid := if pyStripL text.data = pyStripL rc.2.data then true else rc.1
  (if rule_valid then .ACCEPTED else .REJECTED, rc.2)

/-- `_validate_meta_title` when the hybrid collaborator returns `op`: the
    override compares `text.strip()` with
    `final_corrected.strip().strip('"').strip("'")`. -/
def validate_meta_title_hybrid (raw : String) (op : Opinion) : VStatus × String :=
  let text := normalize_fortinet_shorthands raw
  let fv := if pyStripL text.data = stripWsQuotes op.final_recommendation.data
            then true else op.ai_valid
  (if fv then .ACCEPTED else .REJECTED, op.final_recommendation)

/-- `_validate_meta_description` when the hybrid collaborator returns `op`:
    `final_valid = ai_valid`, with no equality override. -/
def validate_meta_description_hybrid (raw : String) (op : Opinion) :
    Option (VStatus × String) :=
  let text := normalize_fortinet_shorthands raw
  match validate_sentence_case text with
  | some _ => some (if op.ai_valid then .ACCEPTED else .REJECTED, op.final_recommendation)
  | none => none

/-- `_validate_h1`: normalize, Capital Case, status straight from the
    transformer's boolean (no equality override). -/
def validate_h1 (raw : String) : VStatus × String :=
  let text := normalize_fortinet_shorthands raw
  let rc := validate_capital_case text
  (if rc.1 then .ACCEPTED else .REJECTED, rc.2)

/-! ## The diff synthesizer `_extract_fix_detail` -/

/-- The edit emitted for position `i` of the positional walk, if any. -/
def changeAt (c r : List Char) : Option (List Char) :=
  if c ≠ r then
    if c ≠ [] ∧ r ≠ [] then some (c ++ " → ".data ++ r)
    else if c ≠ [] then some ("Remove: ".data ++ c)
    else if r ≠ [] then some ("Add: ".data ++ r)
    else none
  else none

/-- The `changes` list of `_extract_fix_detail`: positional walk up to the
    longer of the two word lists, missing positions read as `""`. -/
def diffChanges (cws rws : List (List Char)) : List (List Char) :=
  (List.range (max cws.length rws.length)).filterMap
    (fun i => changeAt ((cws.get? i).getD []) ((rws.get? i).getD []))

/-- Two consecutive space characters somewhere in the list. -/
def hasDoubleSpace : List Char → Bool
  | [] => false
  | [_] => false
  | a :: b :: t => (a = ' ' && b = ' ') || hasDoubleSpace (b :: t)

/-- Leading or trailing whitespace, or two consecutive internal spaces. -/
def hasWsArtifact (l : List Char) : Bool :=
  (match l.head? with | some c => pyIsSpace c | none => false) ||
  (match l.getLast? with | some c => pyIsSpace c | none => false) ||
  hasDoubleSpace l

/-- `word[0].upper() + word[1:]` (sentence-start capitalization). -/
def upperFirstChar : List Char → List Char
  | [] => []
  | c :: t => Char.toUpper c :: t

/-- `_extract_fix_detail` on `(result.location, result.details)`. -/
def extract_fix_detail (location details : String) : String :=
  let cur := pyStripL location.data
  let recd := stripWsQuotes details.data
  if cur = recd then "No change needed"
  else
    let chs := diffChanges (pySplitL cur) (pySplitL recd)
    if chs ≠ [] then
      if 3 < chs.length then String.mk (List.intercalate ", ".data (chs.take 3) ++ "...".data)
      else String.mk (List.intercalate ", ".data chs)
    else "No changes detected"

/-! # Lemmas and theorems

## Character-level bridge lemmas (ASCII case arithmetic) -/

theorem charEq_iff {a b : Char} : a = b ↔ a.toNat = b.toNat := by
  constructor
  · intro h; rw [h]
  · intro h
    apply Char.ext
    apply BitVec.toNat_injective at h
    exact congrArg UInt32.mk h

theorem isUpper_iff {c : Char} : c.isUpper = true ↔ 65 ≤ c.toNat ∧ c.toNat ≤ 90 := by
  simp [Char.isUpper, UInt32.le_def, BitVec.le_def, Char.toNat, UInt32.toNat]

theorem isLower_iff {c : Char} : c.isLower = true ↔ 97 ≤ c.toNat ∧ c.toNat ≤ 122 := by
  simp [Char.isLower, UInt32.le_def, BitVec.le_def, Char.toNat, UInt32.toNat]

theorem isDigit_iff {c : Char} : c.isDigit = true ↔ 48 ≤ c.toNat ∧ c.toNat ≤ 57 := by
  simp [Char.isDigit, UInt32.le_def, BitVec.le_def, Char.toNat, UInt32.toNat]

theorem isAlpha_iff {c : Char} :
    c.isAlpha = true ↔ (65 ≤ c.toNat ∧ c.toNat ≤ 90) ∨ (97 ≤ c.toNat ∧ c.toNat ≤ 122) := by
  simp [Char.isAlpha, isUpper_iff, isLower_iff]

theorem toNat_ofNat_small {n : Nat} (h : n < 55296) : (Char.ofNat n).toNat = n := by
  rw [Char.ofNat, dif_pos (Or.inl (by omega : n < 55296))]
  simp [Char.ofNatAux, Char.toNat, UInt32.toNat]

theorem toNat_toLower (c : Char) :
    c.toLower.toNat = if 65 ≤ c.toNat ∧ c.toNat ≤ 90 then c.toNat + 32 else c.toNat := by
  rw [Char.toLower]
  split
  · next h => exact toNat_ofNat_small (by omega)
  · rfl

theorem toNat_toUpper (c : Char) :
    c.toUpper.toNat = if 97 ≤ c.toNat ∧ c.toNat ≤ 122 then c.toNat - 32 else c.toNat := by
  rw [Char.toUpper]
  split
  · next h => exact toNat_ofNat_small (by omega)
  · rfl

theorem wch_iff {c : Char} :
    wch c = true ↔ (65 ≤ c.toNat ∧ c.toNat ≤ 90) ∨ (97 ≤ c.toNat ∧ c.toNat ≤ 122) ∨
      (48 ≤ c.toNat ∧ c.toNat ≤ 57) ∨ c.toNat = 95 := by
  have h95 : ('_' : Char).toNat = 95 := by decide
  simp [wch, Char.isAlphanum, isAlpha_iff, isDigit_iff, charEq_iff, h95]
  tauto

theorem lhch_iff {c : Char} :
    lhch c = true ↔ (65 ≤ c.toNat ∧ c.toNat ≤ 90) ∨ (97 ≤ c.toNat ∧ c.toNat ≤ 122) ∨
      c.toNat = 45 := by
  have h45 : ('-' : Char).toNat = 45 := by decide
  simp [lhch, isAlpha_iff, charEq_iff, h45]
  tauto

theorem pyIsSpace_iff {c : Char} :
    pyIsSpace c = true ↔ c.toNat = 32 ∨ c.toNat = 9 ∨ c.toNat = 10 ∨ c.toNat = 13 ∨
      c.toNat = 11 ∨ c.toNat = 12 := by
  have h1 : (' ' : Char).toNat = 32 := by decide
  have h2 : ('\t' : Char).toNat = 9 := by decide
  have h3 : ('\n' : Char).toNat = 10 := by decide
  have h4 : ('\x0d' : Char).toNat = 13 := by decide
  have h5 : ('\x0b' : Char).toNat = 11 := by decide
  have h6 : ('\x0c' : Char).toNat = 12 := by decide
  simp [pyIsSpace, charEq_iff, h1, h2, h3, h4, h5, h6]
  tauto

theorem bool_eq_of_iff {a b : Bool} (h : (a = true) ↔ (b = true)) : a = b := by
  cases a <;> cases b <;> simp_all

theorem pyIsSpace_toLower (c : Char) : pyIsSpace c.toLower = pyIsSpace c := by
  apply bool_eq_of_iff
  rw [pyIsSpace_iff, pyIsSpace_iff]
  have h := toNat_toLower c
  split at h <;> omega

theorem pyIsSpace_toUpper (c : Char) : pyIsSpace c.toUpper = pyIsSpace c := by
  apply bool_eq_of_iff
  rw [pyIsSpace_iff, pyIsSpace_iff]
  have h := toNat_toUpper c
  split at h <;> omega

theorem wch_toLower (c : Char) : wch c.toLower = wch c := by
  apply bool_eq_of_iff
  rw [wch_iff, wch_iff]
  have h := toNat_toLower c
  split at h <;> omega

theorem wch_toUpper (c : Char) : wch c.toUpper = wch c := by
  apply bool_eq_of_iff
  rw [wch_iff, wch_iff]
  have h := toNat_toUpper c
  split at h <;> omega

theorem lhch_toLower (c : Char) : lhch c.toLower = lhch c := by
  apply bool_eq_of_iff
  rw [lhch_iff, lhch_iff]
  have h := toNat_toLower c
  split at h <;> omega

theorem lhch_toUpper (c : Char) : lhch c.toUpper = lhch c := by
  apply bool_eq_of_iff
  rw [lhch_iff, lhch_iff]
  have h := toNat_toUpper c
  split at h <;> omega

theorem isAlpha_toLower (c : Char) : c.toLower.isAlpha = c.isAlpha := by
  apply bool_eq_of_iff
  rw [isAlpha_iff, isAlpha_iff]
  have h := toNat_toLower c
  split at h <;> omega

theorem isAlpha_toUpper (c : Char) : c.toUpper.isAlpha = c.isAlpha := by
  apply bool_eq_of_iff
  rw [isAlpha_iff, isAlpha_iff]
  have h := toNat_toUpper c
  split at h <;> omega

theorem toLower_toLower (c : Char) : c.toLower.toLower = c.toLower := by
  rw [charEq_iff]
  have h1 := toNat_toLower c
  have h2 := toNat_toLower c.toLower
  split at h1 <;> split at h2 <;> omega

theorem toLower_toUpper (c : Char) : c.toUpper.toLower = c.toLower := by
  rw [charEq_iff]
  have h1 := toNat_toUpper c
  have h2 := toNat_toLower c.toUpper
  have h3 := toNat_toLower c
  split at h1 <;> split at h2 <;> split at h3 <;> omega

theorem toUpper_toUpper (c : Char) : c.toUpper.toUpper = c.toUpper := by
  rw [charEq_iff]
  have h1 := toNat_toUpper c
  have h2 := toNat_toUpper c.toUpper
  split at h1 <;> split at h2 <;> omega

/-! ## List-level utility lemmas -/

theorem pySplitAux_words : ∀ (l acc : List Char), (∀ c ∈ acc, pyIsSpace c = false) →
    ∀ w ∈ pySplitAux acc l, w ≠ [] ∧ ∀ c ∈ w, pyIsSpace c = false := by
  intro l
  induction l with
  | nil =>
    intro acc hacc w hw
    unfold pySplitAux at hw
    split at hw
    · simp at hw
    · next hne =>
      simp only [List.mem_singleton] at hw
      subst hw
      refine ⟨by simp [hne], ?_⟩
      intro c hc
      exact hacc c (List.mem_reverse.mp hc)
  | cons c t ih =>
    intro acc hacc w hw
    unfold pySplitAux at hw
    by_cases hc : pyIsSpace c = true
    · rw [if_pos hc] at hw
      rcases List.mem_append.mp hw with h1 | h1
      · split at h1
        · simp at h1
        · next hne =>
          simp only [List.mem_singleton] at h1
          subst h1
          refine ⟨by simp [hne], ?_⟩
          intro x hx
          exact hacc x (List.mem_reverse.mp hx)
      · exact ih [] (by simp) w h1
    · rw [if_neg hc] at hw
      refine ih (c :: acc) ?_ w hw
      intro x hx
      rcases List.mem_cons.mp hx with h1 | h1
      · subst h1; simpa using hc
      · exact hacc x h1

/-- Words produced by `split()` are nonempty and whitespace-free. -/
theorem pySplit_words {l : List Char} :
    ∀ w ∈ pySplitL l, w ≠ [] ∧ ∀ c ∈ w, pyIsSpace c = false :=
  pySplitAux_words l [] (by simp)

theorem changeAt_eq_none {a b : List Char} : changeAt a b = none ↔ a = b := by
  unfold changeAt
  by_cases h : a = b
  · simp [h]
  · rcases eq_or_ne a [] with ha | ha <;> rcases eq_or_ne b [] with hb | hb <;> simp_all

/-- The positional diff emits at least one edit whenever the two word lists
    differ, provided (as for `split()` output) all words are nonempty. -/
theorem diffChanges_ne_nil {as bs : List (List Char)}
    (ha : ∀ a ∈ as, a ≠ []) (hb : ∀ b ∈ bs, b ≠ []) (hne : as ≠ bs) :
    diffChanges as bs ≠ [] := by
  intro hnil
  unfold diffChanges at hnil
  rw [List.filterMap_eq_nil_iff] at hnil
  apply hne
  have hgd : ∀ i, ((as.get? i).getD []) = ((bs.get? i).getD []) := by
    intro i
    by_cases hi : i < max as.length bs.length
    · exact changeAt_eq_none.mp (hnil i (List.mem_range.mpr hi))
    · have h1 : as.get? i = none := by
        apply List.get?_eq_none.mpr
        omega
      have h2 : bs.get? i = none := by
        apply List.get?_eq_none.mpr
        omega
      rw [h1, h2]
  apply List.ext_get?
  intro i
  have h := hgd i
  cases hA : as.get? i with
  | none =>
    cases hB : bs.get? i with
    | none => rfl
    | some b =>
      rw [hA, hB] at h
      simp only [Option.getD_none, Option.getD_some] at h
      exact absurd h.symm (hb b (List.get?_mem hB))
  | some a =>
    cases hB : bs.get? i with
    | none =>
      rw [hA, hB] at h
      simp only [Option.getD_none, Option.getD_some] at h
      exact absurd h (ha a (List.get?_mem hA))
    | some b =>
      rw [hA, hB] at h
      simp only [Option.getD_some] at h
      rw [h]

/-! ## Concrete claim theorems -/

/-- C9: the vocabulary entries whose key contains a digit or a space (`ec2`,
    `s3`, `zero trust`) are present in the table but unreachable by the
    shorthand normalizer, whose token core regex `[a-zA-Z\-]+` (with `\b`
    anchors) never matches them: the inputs are returned unchanged. -/
theorem C9_digit_space_keys_unreachable :
    normalize_fortinet_shorthands "ec2" = "ec2" ∧
    normalize_fortinet_shorthands "s3" = "s3" ∧
    normalize_fortinet_shorthands "zero trust" = "zero trust" ∧
    lookupShorthand "ec2".data = some "EC2".data ∧
    lookupShorthand "s3".data = some "S3".data ∧
    lookupShorthand "zero trust".data = some "Zero Trust".data := by
  decide

/-- C2 counterexample: on `"fortinet offers edr. it also offers xdr."` the
    normalizer + sentence-case pipeline does NOT produce the claimed
    `"Fortinet offers EDR. It also offers XDR."`: the brand token `fortinet`
    is preserved verbatim in lowercase (the Forti* check fires before any
    capitalization), so the corrected string starts with `"fortinet"`. -/
theorem C2_counterexample :
    (validate_sentence_case
        (normalize_fortinet_shorthands "fortinet offers edr. it also offers xdr.")).map
      Prod.snd = some "fortinet offers EDR. It also offers XDR." ∧
    ("fortinet offers EDR. It also offers XDR." : String) ≠
      "Fortinet offers EDR. It also offers XDR." := by
  decide

/-- C2 (amended): applying the shorthand normalizer followed by the
    sentence-case transformer to `"fortinet offers edr. it also offers xdr."`
    produces `(false, "fortinet offers EDR. It also offers XDR.")`: acronyms
    are uppercased from the vocabulary table and the word after each
    period-terminated word is capitalized, but the brand-prefixed token
    `fortinet` is preserved verbatim (lowercase), not capitalized. -/
theorem C2_sentence_pipeline :
    validate_sentence_case
        (normalize_fortinet_shorthands "fortinet offers edr. it also offers xdr.") =
      some (false, "fortinet offers EDR. It also offers XDR.") := by
  decide

/-- C4 counterexample: the title-case and sentence-case transformers are not
    idempotent.  Title case maps `"aops"` to `(false, "AIOps")` but then maps
    `"AIOps"` to `(false, "Aiops")`; sentence case maps `"a aops"` to
    `(false, "A AIOps")` but then maps `"A AIOps"` to `(false, "A aiops")`. -/
theorem C4_counterexample :
    validate_title_case "aops" = (false, "AIOps") ∧
    validate_title_case "AIOps" = (false, "Aiops") ∧
    validate_sentence_case "a aops" = some (false, "A AIOps") ∧
    validate_sentence_case "A AIOps" = some (false, "A aiops") := by
  decide

/-- C7 counterexample: after the all-uppercase abbreviation `"ABC."` -- which
    ends in a period -- the sentence-start flag is cleared, not set, so the
    following lowercase word `"next"` is NOT capitalized. -/
theorem C7_counterexample :
    validate_sentence_case "see ABC. next" = some (false, "See ABC. next") ∧
    ("See ABC. next" : String) ≠ "See ABC. Next" := by
  decide

/-- C1 counterexample: `"?FortiGate"` is a brand-prefixed token carrying
    leading punctuation (its cleaned lowercase form starts with `forti`), yet
    the title-case transformer rewrites it to `"?fortigate"`: its word regex
    only admits `(` or `[` as leading punctuation, so the Forti* check is
    skipped and the general lowercasing rule applies. -/
theorem C1_counterexample :
    lowersToForti (cleanWord "?FortiGate".data) = true ∧
    validate_title_case "?FortiGate" = (false, "?fortigate") ∧
    ("?fortigate" : String) ≠ "?FortiGate" := by
  decide

/-- C6 counterexample: `diff("a b", "a  b")` walks identical word lists and
    yields no edits ("No changes detected") although the trimmed strings
    differ, refuting the non-emptiness half; and for `x = "\"a\""` the
    quote-stripping of the recommended side makes `diff(x, x)` emit an edit,
    refuting the emptiness half. -/
theorem C6_counterexample :
    extract_fix_detail "a b" "a  b" = "No changes detected" ∧
    diffChanges (pySplitL (pyStripL "a b".data)) (pySplitL (stripWsQuotes "a  b".data)) = [] ∧
    pyStripL "a b".data ≠ pyStripL "a  b".data ∧
    extract_fix_detail "\"a\"" "\"a\"" ≠ "No change needed" := by
  decide

/-- C3 counterexample: the pass-forcing equality override exists only in the
    meta-title validator.  `_validate_h1` on `"Hello "` rejects although the
    corrected text equals the original after trimming and quote-stripping; and
    the hybrid meta-description validator rejects whenever the external
    opinion says invalid, even when its final recommendation equals the
    trimmed original text. -/
theorem C3_counterexample :
    validate_h1 "Hello " = (VStatus.REJECTED, "Hello") ∧
    stripWsQuotes "Hello".data = pyStripL "Hello ".data ∧
    validate_meta_description_hybrid "Good sentence here."
        ⟨false, "x", "Good sentence here.", []⟩ =
      some (VStatus.REJECTED, "Good sentence here.") ∧
    stripWsQuotes "Good sentence here.".data = pyStripL "Good sentence here.".data := by
  refine ⟨by decide, by decide, by decide, by decide⟩

/-- C3 (amended): the equality override applies only in the meta-title
    validator.  In its rule-based fallback path the verdict is forced to pass
    whenever the trimmed normalized text equals the trimmed rule correction;
    in its hybrid path, whenever the trimmed normalized text equals the
    trimmed, quote-stripped final recommendation of the external opinion
    (regardless of what the transformer or the opinion concluded).  Other
    field validators emit the transformer's or the opinion's verdict directly
    (see the counterexample). -/
theorem C3_meta_title_equality_override (raw : String) (op : Opinion)
    (h1 : pyStripL (normalize_fortinet_shorthands raw).data
        = pyStripL (validate_title_case (normalize_fortinet_shorthands raw)).2.data)
    (h2 : pyStripL (normalize_fortinet_shorthands raw).data
        = stripWsQuotes op.final_recommendation.data) :
    (validate_meta_title_rule raw).1 = VStatus.ACCEPTED ∧
    (validate_meta_title_hybrid raw op).1 = VStatus.ACCEPTED := by
  constructor
  · simp [validate_meta_title_rule, h1]
  · simp [validate_meta_title_hybrid, h2]

/-- C3 witness: the override theorem applied at `"Hello "` with an external
    opinion that says invalid but recommends the trimmed original. -/
theorem C3_meta_title_equality_override_witness :
    (validate_meta_title_rule "Hello ").1 = VStatus.ACCEPTED ∧
    (validate_meta_title_hybrid "Hello " ⟨false, "x", "Hello", []⟩).1 = VStatus.ACCEPTED :=
  C3_meta_title_equality_override "Hello " ⟨false, "x", "Hello", []⟩ (by decide) (by decide)

/-- C6 (amended): the diff synthesizer satisfies: `diff(x, x)` yields no edits
    (the "No change needed" signal) for every `x` whose trimmed form is
    unchanged by stripping surrounding quote characters; and `diff(x, y)`
    yields at least one edit whenever the whitespace word lists of the
    processed sides (trimmed `x`, trimmed quote-stripped `y`) differ.  Strings
    that differ only in whitespace - which the claim's `x.strip() != y.strip()`
    admits - produce an empty edit list rendered "No changes detected". -/
theorem C6_diff_laws (x y z : String) :
    (stripWsQuotes x.data = pyStripL x.data → extract_fix_detail x x = "No change needed") ∧
    (pySplitL (pyStripL y.data) ≠ pySplitL (stripWsQuotes z.data) →
      diffChanges (pySplitL (pyStripL y.data)) (pySplitL (stripWsQuotes z.data)) ≠ []) := by
  constructor
  · intro h
    unfold extract_fix_detail
    rw [h, if_pos rfl]
  · intro h
    apply diffChanges_ne_nil
    · intro a ha
      exact (pySplit_words a ha).1
    · intro b hb
      exact (pySplit_words b hb).1
    · exact h

/-- C6 witness: both halves of the diff law at concrete inputs
    (`diff("a b c", "a b c")` and `diff("a b", "a c")`). -/
theorem C6_diff_laws_witness :
    extract_fix_detail "a b c" "a b c" = "No change needed" ∧
    diffChanges (pySplitL (pyStripL "a b".data)) (pySplitL (stripWsQuotes "a c".data)) ≠ [] :=
  ⟨(C6_diff_laws "a b c" "a b" "a c").1 (by decide),
   (C6_diff_laws "a b c" "a b" "a c").2 (by decide)⟩


/-! ## Sentence-case step lemmas (claims C7 and C8) -/
/-- Any branch of `sentStep` other than the all-uppercase-abbreviation branch
    sets the outgoing flag from the raw word's trailing punctuation. -/
theorem sentStep_snd {flag : Bool} {w : List Char}
    (hbr : lowersToForti (cleanWord w) = true ∨
           (lookupShorthand (pyLower (cleanWord w))).isSome = true ∨
           ¬(pyIsUpper (cleanWord w) = true ∧ 1 < (cleanWord w).length)) :
    ∀ r, sentStep flag w = some r → r.2 = endsSentencePunct w := by
  intro r hr
  simp only [sentStep] at hr
  by_cases hf : lowersToForti (cleanWord w) = true
  · rw [if_pos hf] at hr
    have h := Option.some.inj hr
    subst h
    rfl
  · rw [if_neg hf] at hr
    cases hlk : lookupShorthand (pyLower (cleanWord w)) with
    | some v =>
      rw [hlk] at hr
      dsimp only at hr
      by_cases hwc : w ≠ cleanWord w
      · rw [if_pos hwc] at hr
        cases hh : (cleanWord w).head? with
        | none =>
          rw [hh] at hr
          dsimp only at hr
          exact absurd hr (by simp)
        | some c0 =>
          rw [hh] at hr
          cases hl : (cleanWord w).getLast? with
          | none =>
            rw [hl] at hr
            dsimp only at hr
            exact absurd hr (by simp)
          | some cl =>
            rw [hl] at hr
            dsimp only at hr
            have h := Option.some.inj hr
            subst h
            rfl
      · rw [if_neg hwc] at hr
        have h := Option.some.inj hr
        subst h
        rfl
    | none =>
      rw [hlk] at hr
      dsimp only at hr
      have habb : ¬((pyIsUpper (cleanWord w) && decide (1 < (cleanWord w).length)) = true) := by
        rcases hbr with h | h | h
        · exact absurd h hf
        · rw [hlk] at h
          simp at h
        · simpa using h
      rw [if_neg habb] at hr
      by_cases hfl : flag = true
      · rw [if_pos hfl] at hr
        have h := Option.some.inj hr
        subst h
        rfl
      · rw [if_neg hfl] at hr
        have h := Option.some.inj hr
        subst h
        rfl

/-- At sentence start, a lowercase-initial word matching no exception gets its
    first character uppercased and the rest untouched. -/
theorem sentStep_capitalize {w : List Char} {c2 : Char} {t2 : List Char}
    (hw : w = c2 :: t2) (hlow : c2.isLower = true)
    (hnf : lowersToForti (cleanWord w) = false)
    (hnd : lookupShorthand (pyLower (cleanWord w)) = none)
    (hnab : ¬(pyIsUpper (cleanWord w) = true ∧ 1 < (cleanWord w).length)) :
    sentStep true w = some (Char.toUpper c2 :: t2, endsSentencePunct w) := by
  simp only [sentStep]
  rw [if_neg (by simp [hnf]), hnd]
  dsimp only
  rw [if_neg (by simpa using hnab), if_pos trivial]
  subst hw
  simp [hlow]

theorem shorthand_keys_ne_nil : ∀ p ∈ FORTINET_SHORTHANDS, p.1.data ≠ [] := by decide

theorem lookup_clean_ne_nil {k : List Char} {v : List Char}
    (h : lookupShorthand k = some v) : k ≠ [] := by
  unfold lookupShorthand at h
  cases hf : FORTINET_SHORTHANDS.find? (fun p => decide (p.1.data = k)) with
  | none => rw [hf] at h; simp at h
  | some p =>
    have hm := List.mem_of_find?_eq_some hf
    have hp := List.find?_some hf
    simp only [decide_eq_true_eq] at hp
    have := shorthand_keys_ne_nil p hm
    rw [← hp]
    exact this

/-- `sentStep` never hits the modelled raise: the dictionary branch's
    `clean_word[0]`/`clean_word[-1]` accesses are reachable only with a
    nonempty clean word, because every vocabulary key is nonempty. -/
theorem sentStep_isSome (flag : Bool) (w : List Char) : (sentStep flag w).isSome = true := by
  simp only [sentStep]
  by_cases hf : lowersToForti (cleanWord w) = true
  · rw [if_pos hf]; rfl
  · rw [if_neg hf]
    cases hlk : lookupShorthand (pyLower (cleanWord w)) with
    | some v =>
      dsimp only
      by_cases hwc : w ≠ cleanWord w
      · rw [if_pos hwc]
        have hne : cleanWord w ≠ [] := by
          have := lookup_clean_ne_nil hlk
          intro hc
          apply this
          rw [hc]
          rfl
        cases hcw : cleanWord w with
        | nil => exact absurd hcw hne
        | cons c0 ct => simp [List.getLast?]
      · rw [if_neg hwc]; rfl
    | none =>
      dsimp only
      by_cases hab : (pyIsUpper (cleanWord w) && decide (1 < (cleanWord w).length)) = true
      · rw [if_pos hab]; rfl
      · rw [if_neg hab]
        by_cases hfl : flag = true
        · rw [if_pos hfl]; rfl
        · rw [if_neg hfl]; rfl

theorem processWords_isSome (flag : Bool) (ws : List (List Char)) :
    (processWords flag ws).isSome = true := by
  induction ws generalizing flag with
  | nil => rfl
  | cons w ws ih =>
    simp only [processWords]
    cases hs : sentStep flag w with
    | none =>
      have := sentStep_isSome flag w
      rw [hs] at this
      simp at this
    | some p =>
      obtain ⟨o, f2⟩ := p
      dsimp only
      cases hp : processWords f2 ws with
      | none =>
        have := ih f2
        rw [hp] at this
        simp at this
      | some os => rfl

/-- C7 (amended): in the sentence-case transformer, after processing a word
    that ends in `.`, `!` or `?` through the brand, dictionary, sentence-start
    or general branch (i.e. any branch except the all-uppercase-abbreviation
    branch, which clears the flag unconditionally), the sentence-start flag is
    set, so an immediately following word that begins with a lowercase letter
    and matches no exception (brand prefix, dictionary, all-uppercase) has its
    first character uppercased in the output word list. -/
theorem C7_sentence_rearm (flag : Bool) (ws : List (List Char)) (i : Nat)
    (w1 : List Char) (c2 : Char) (t2 : List Char) (os : List (List Char))
    (h1 : ws.get? i = some w1) (h2 : ws.get? (i + 1) = some (c2 :: t2))
    (hp : endsSentencePunct w1 = true)
    (hbr : lowersToForti (cleanWord w1) = true ∨
           (lookupShorthand (pyLower (cleanWord w1))).isSome = true ∨
           ¬(pyIsUpper (cleanWord w1) = true ∧ 1 < (cleanWord w1).length))
    (hlow : c2.isLower = true)
    (hnf2 : lowersToForti (cleanWord (c2 :: t2)) = false)
    (hnd2 : lookupShorthand (pyLower (cleanWord (c2 :: t2))) = none)
    (hnab2 : ¬(pyIsUpper (cleanWord (c2 :: t2)) = true ∧ 1 < (cleanWord (c2 :: t2)).length))
    (hos : processWords flag ws = some os) :
    os.get? (i + 1) = some (Char.toUpper c2 :: t2) := by
  induction i generalizing ws flag os with
  | zero =>
    cases ws with
    | nil => simp at h1
    | cons a tail =>
      cases tail with
      | nil => simp at h2
      | cons b rest =>
        simp only [List.get?] at h1 h2
        obtain rfl := Option.some.inj h1
        obtain rfl := Option.some.inj h2
        simp only [processWords] at hos
        cases hs : sentStep flag a with
        | none => rw [hs] at hos; simp at hos
        | some p =>
          rw [hs] at hos
          obtain ⟨o1, f2⟩ := p
          have hf2 : f2 = true := (sentStep_snd hbr (o1, f2) hs).trans hp
          subst hf2
          dsimp only at hos
          rw [sentStep_capitalize rfl hlow hnf2 hnd2 hnab2] at hos
          dsimp only at hos
          cases hrest : processWords (endsSentencePunct (c2 :: t2)) rest with
          | none => rw [hrest] at hos; simp at hos
          | some os2 =>
            rw [hrest] at hos
            dsimp only at hos
            obtain rfl := Option.some.inj hos
            rfl
  | succ i ih =>
    cases ws with
    | nil => simp at h1
    | cons a tail =>
      simp only [List.get?] at h1 h2
      simp only [processWords] at hos
      cases hs : sentStep flag a with
      | none => rw [hs] at hos; simp at hos
      | some p =>
        rw [hs] at hos
        obtain ⟨o1, f2⟩ := p
        dsimp only at hos
        cases ht : processWords f2 tail with
        | none => rw [ht] at hos; simp at hos
        | some os2 =>
          rw [ht] at hos
          obtain rfl := Option.some.inj hos
          have := ih f2 tail os2 h1 h2 ht
          simpa using this

/-- C7 witness: in `["hi.", "there"]` the word after the period-ended `"hi."`
    is capitalized to `"There"`. -/
theorem C7_sentence_rearm_witness :
    processWords true ["hi.".data, "there".data] = some ["Hi.".data, "There".data] ∧
    ["Hi.".data, "There".data].get? 1 = some (Char.toUpper 't' :: "here".data) :=
  ⟨by decide,
   C7_sentence_rearm true ["hi.".data, "there".data] 0 "hi.".data 't' "here".data
     ["Hi.".data, "There".data] (by decide) (by decide) (by decide) (by decide)
     (by decide) (by decide) (by decide) (by decide) (by decide)⟩

/-- C8: the embedded core functions return normally on every input string.
    The shorthand normalizer, the capital- and title-case transformers, the
    acronym-plural repair and the diff synthesizer are total functions of this
    embedding (every partial Python operation they perform is syntactically
    guarded in the source).  The sentence-case transformer contains the only
    unguarded partial operations (`clean_word[0]` / `clean_word[-1]` in its
    dictionary branch, modelled as `none`); it nevertheless returns a value
    for every input, because dictionary hits force a nonempty clean word. -/
theorem C8_no_exceptions (s : String) : (validate_sentence_case s).isSome = true := by
  unfold validate_sentence_case
  by_cases h : s = ""
  · rw [if_pos h]
    rfl
  · rw [if_neg h]
    cases hp : processWords true (pySplitL s.data) with
    | none =>
      have := processWords_isSome true (pySplitL s.data)
      rw [hp] at this
      simp at this
    | some os => rfl


/-! ## Word-structure lemmas: split/join round trips and whitespace artifacts
    (claim C10, reused for C4) -/

theorem mapRunsAux_sep (f : List Char → List Char) (c0 : Char) (hc : wch c0 = false) :
    ∀ (xs : List Char) (acc ys : List Char),
      mapRunsAux f acc (xs ++ c0 :: ys) =
        mapRunsAux f acc xs ++ c0 :: mapRunsAux f [] ys := by
  intro xs
  induction xs with
  | nil =>
    intro acc ys
    simp only [List.nil_append, mapRunsAux, hc]
    rw [if_neg (by simp)]
  | cons c t ih =>
    intro acc ys
    simp only [List.cons_append, mapRunsAux]
    by_cases hw : wch c = true
    · rw [if_pos hw, if_pos hw]
      exact ih (c :: acc) ys
    · rw [if_neg hw, if_neg hw]
      simp only [List.append_eq]
      rw [ih [] ys]
      simp [List.append_assoc]

theorem mapRuns_joinSpace (f : List Char → List Char) :
    ∀ ws : List (List Char), mapRuns f (joinSpace ws) = joinSpace (ws.map (mapRuns f)) := by
  intro ws
  induction ws with
  | nil => rfl
  | cons w ws ih =>
    cases ws with
    | nil => rfl
    | cons w2 ws2 =>
      show mapRuns f (w ++ ' ' :: joinSpace (w2 :: ws2)) = _
      unfold mapRuns
      rw [mapRunsAux_sep f ' ' (by decide) w [] (joinSpace (w2 :: ws2))]
      show mapRuns f w ++ ' ' :: mapRuns f (joinSpace (w2 :: ws2)) = _
      rw [ih]
      rfl

theorem fixAcronym_joinSpace :
    ∀ ws : List (List Char),
      fixAcronymPluralsL (joinSpace ws) = joinSpace (ws.map fixAcronymPluralsL) := by
  have key : ∀ (ps : List (String × String)) (ws : List (List Char)),
      ps.foldl (fun t pr => mapRuns (fun run => if run = pr.1.data then pr.2.data else run) t)
          (joinSpace ws) =
        joinSpace (ws.map (fun w => ps.foldl
          (fun t pr => mapRuns (fun run => if run = pr.1.data then pr.2.data else run) t) w)) := by
    intro ps
    induction ps with
    | nil => intro ws; simp
    | cons p ps ih =>
      intro ws
      simp only [List.foldl_cons]
      rw [mapRuns_joinSpace, ih]
      rw [List.map_map]
      rfl
  intro ws
  exact key acronym_fixes ws

theorem pySplitAux_word (w : List Char) (hw : ∀ c ∈ w, pyIsSpace c = false) :
    ∀ acc l, pySplitAux acc (w ++ l) = pySplitAux (w.reverse ++ acc) l := by
  induction w with
  | nil => intro acc l; simp
  | cons c t ih =>
    intro acc l
    have hc : pyIsSpace c = false := hw c (by simp)
    simp only [List.cons_append, pySplitAux, hc]
    rw [if_neg (by simp)]
    simp only [List.append_eq]
    rw [ih (fun x hx => hw x (by simp [hx])) (c :: acc) l]
    simp

theorem pySplit_joinSpace :
    ∀ ws : List (List Char), (∀ w ∈ ws, w ≠ [] ∧ ∀ c ∈ w, pyIsSpace c = false) →
      pySplitL (joinSpace ws) = ws := by
  intro ws
  induction ws with
  | nil => intro _; rfl
  | cons w ws ih =>
    intro hws
    obtain ⟨hne, hsf⟩ := hws w (by simp)
    cases ws with
    | nil =>
      show pySplitAux [] w = [w]
      have h0 := pySplitAux_word w hsf [] []
      rw [List.append_nil] at h0
      rw [h0]
      simp only [pySplitAux, List.append_nil]
      rw [if_neg (by simp [hne])]
      simp
    | cons w2 ws2 =>
      show pySplitAux [] (w ++ ' ' :: joinSpace (w2 :: ws2)) = w :: w2 :: ws2
      rw [pySplitAux_word w hsf [] (' ' :: joinSpace (w2 :: ws2))]
      simp only [pySplitAux]
      rw [if_pos (by decide)]
      rw [if_neg (by simp [hne])]
      have := ih (fun x hx => hws x (by simp [hx]))
      unfold pySplitL at this
      rw [List.append_nil, List.reverse_reverse, this]
      simp

theorem mapRunsAux_chars {f : List Char → List Char} {P : Char → Prop}
    (hf : ∀ r, r ≠ [] → (∀ c ∈ r, P c) → ∀ c ∈ f r, P c) :
    ∀ l acc, (∀ c ∈ acc, P c) → (∀ c ∈ l, P c) → ∀ c ∈ mapRunsAux f acc l, P c := by
  intro l
  induction l with
  | nil =>
    intro acc hacc _ c hc
    unfold mapRunsAux at hc
    split at hc
    · simp at hc
    · next hne =>
      refine hf acc.reverse (by simpa using hne) ?_ c hc
      intro x hx
      exact hacc x (List.mem_reverse.mp hx)
  | cons a t ih =>
    intro acc hacc hl c hc
    unfold mapRunsAux at hc
    split at hc
    · refine ih (a :: acc) ?_ (fun x hx => hl x (by simp [hx])) c hc
      intro x hx
      rcases List.mem_cons.mp hx with h | h
      · subst h; exact hl x (by simp)
      · exact hacc x h
    · rcases List.mem_append.mp hc with h | h
      · split at h
        · simp at h
        · next hne =>
          refine hf acc.reverse (by simpa using hne) ?_ c h
          intro x hx
          exact hacc x (List.mem_reverse.mp hx)
      · rcases List.mem_cons.mp h with h2 | h2
        · subst h2; exact hl c (by simp)
        · exact ih [] (by simp) (fun x hx => hl x (by simp [hx])) c h2

theorem mapRuns_chars {f : List Char → List Char} {P : Char → Prop}
    (hf : ∀ r, r ≠ [] → (∀ c ∈ r, P c) → ∀ c ∈ f r, P c)
    {l : List Char} (hl : ∀ c ∈ l, P c) : ∀ c ∈ mapRuns f l, P c :=
  mapRunsAux_chars hf l [] (by simp) hl

theorem mapRunsAux_ne_nil {f : List Char → List Char}
    (hf : ∀ r, r ≠ [] → f r ≠ []) :
    ∀ l acc, (acc ≠ [] ∨ l ≠ []) → mapRunsAux f acc l ≠ [] := by
  intro l
  induction l with
  | nil =>
    intro acc h
    rcases h with h | h
    · unfold mapRunsAux
      rw [if_neg h]
      exact hf acc.reverse (by simpa using h)
    · exact absurd rfl h
  | cons a t ih =>
    intro acc h
    unfold mapRunsAux
    split
    · exact ih (a :: acc) (Or.inl (by simp))
    · intro hc
      rcases List.append_eq_nil.mp hc with ⟨_, h2⟩
      simp at h2

theorem acronym_reps_facts :
    ∀ pr ∈ acronym_fixes, pr.2.data ≠ [] ∧ ∀ c ∈ pr.2.data, pyIsSpace c = false := by
  decide

theorem fixAcronym_chars_space {l : List Char} (hl : ∀ c ∈ l, pyIsSpace c = false) :
    ∀ c ∈ fixAcronymPluralsL l, pyIsSpace c = false := by
  have key : ∀ (ps : List (String × String)),
      (∀ pr ∈ ps, ∀ c ∈ pr.2.data, pyIsSpace c = false) →
      ∀ (l : List Char), (∀ c ∈ l, pyIsSpace c = false) →
      ∀ c ∈ ps.foldl (fun t pr => mapRuns (fun run => if run = pr.1.data then pr.2.data else run) t) l,
        pyIsSpace c = false := by
    intro ps
    induction ps with
    | nil => intro _ l hl c hc; exact hl c hc
    | cons p ps ih =>
      intro hps l hl
      simp only [List.foldl_cons]
      refine ih (fun pr hpr => hps pr (by simp [hpr])) _ ?_
      refine mapRuns_chars ?_ hl
      intro r hrne hr c hc
      by_cases he : r = p.1.data
      · rw [if_pos he] at hc
        exact hps p (by simp) c hc
      · rw [if_neg he] at hc
        exact hr c hc
  refine key acronym_fixes ?_ l hl
  intro pr hpr
  exact (acronym_reps_facts pr hpr).2

theorem fixAcronym_ne_nil {l : List Char} (hl : l ≠ []) : fixAcronymPluralsL l ≠ [] := by
  have key : ∀ (ps : List (String × String)),
      (∀ pr ∈ ps, pr.2.data ≠ []) →
      ∀ (l : List Char), l ≠ [] →
      ps.foldl (fun t pr => mapRuns (fun run => if run = pr.1.data then pr.2.data else run) t) l ≠ [] := by
    intro ps
    induction ps with
    | nil => intro _ l hl; exact hl
    | cons p ps ih =>
      intro hps l hl
      simp only [List.foldl_cons]
      refine ih (fun pr hpr => hps pr (by simp [hpr])) _ ?_
      cases l with
      | nil => exact absurd rfl hl
      | cons a t =>
        refine mapRunsAux_ne_nil ?_ (a :: t) [] (Or.inr (by simp))
        intro r hrne
        by_cases he : r = p.1.data
        · rw [if_pos he]
          exact hps p (by simp)
        · rw [if_neg he]
          exact hrne
  refine key acronym_fixes ?_ l hl
  intro pr hpr
  exact (acronym_reps_facts pr hpr).1

theorem joinSpace_words_chars {ws : List (List Char)}
    (h : ∀ w ∈ ws, ∀ c ∈ w, pyIsSpace c = false) :
    ∀ c ∈ joinSpace ws, pyIsSpace c = false ∨ c = ' ' := by
  induction ws with
  | nil => simp [joinSpace]
  | cons w ws ih =>
    intro c hc
    cases ws with
    | nil => exact Or.inl (h w (by simp) c hc)
    | cons w2 ws2 =>
      have hj : joinSpace (w :: w2 :: ws2) = w ++ ' ' :: joinSpace (w2 :: ws2) := rfl
      rw [hj] at hc
      rcases List.mem_append.mp hc with h1 | h1
      · exact Or.inl (h w (by simp) c h1)
      · rcases List.mem_cons.mp h1 with h2 | h2
        · exact Or.inr h2
        · exact ih (fun x hx => h x (by simp [hx])) c h2

theorem joinSpace_head {w : List Char} {ws : List (List Char)} (hne : w ≠ []) :
    (joinSpace (w :: ws)).head? = w.head? := by
  cases ws with
  | nil => rfl
  | cons w2 ws2 =>
    show (w ++ ' ' :: joinSpace (w2 :: ws2)).head? = w.head?
    cases w with
    | nil => exact absurd rfl hne
    | cons a t => rfl

theorem joinSpace_ne_nil {w : List Char} {ws : List (List Char)} (hne : w ≠ []) :
    joinSpace (w :: ws) ≠ [] := by
  cases ws with
  | nil => exact hne
  | cons b t =>
    show w ++ ' ' :: joinSpace (b :: t) ≠ []
    simp

theorem joinSpace_getLast {ws : List (List Char)} {w : List Char}
    (hws : ∀ x ∈ ws, x ≠ []) (hlast : ws.getLast? = some w) :
    (joinSpace ws).getLast? = w.getLast? := by
  induction ws with
  | nil => simp at hlast
  | cons a t ih =>
    cases t with
    | nil =>
      simp only [List.getLast?_singleton] at hlast
      cases hlast
      rfl
    | cons b t2 =>
      have h2 : (b :: t2).getLast? = some w := by
        rw [← List.getLast?_cons_cons]
        exact hlast
      have hj : joinSpace (a :: b :: t2) = a ++ ' ' :: joinSpace (b :: t2) := rfl
      rw [hj, List.getLast?_append]
      have hr := ih (fun x hx => hws x (by simp [hx])) h2
      have hjne : joinSpace (b :: t2) ≠ [] :=
        joinSpace_ne_nil (hws b (by simp))
      have hwne : w ≠ [] := hws w (List.mem_of_getLast?_eq_some hlast)
      cases hJ : joinSpace (b :: t2) with
      | nil => exact absurd hJ hjne
      | cons j js =>
        rw [hJ] at hr
        rw [List.getLast?_cons_cons, hr, List.getLast?_eq_getLast w hwne]
        rfl

theorem hasDoubleSpace_cons_of_ne {c : Char} {l : List Char} (hc : c ≠ ' ') :
    hasDoubleSpace (c :: l) = hasDoubleSpace l := by
  cases l with
  | nil => rfl
  | cons b t =>
    show ((c = ' ' && b = ' ') || hasDoubleSpace (b :: t)) = hasDoubleSpace (b :: t)
    rw [decide_eq_false hc]
    simp

theorem hasDoubleSpace_append_word {w : List Char} (hw : ∀ c ∈ w, pyIsSpace c = false) :
    ∀ l, hasDoubleSpace (w ++ l) = hasDoubleSpace l := by
  induction w with
  | nil => intro l; rfl
  | cons c t ih =>
    intro l
    have hc : c ≠ ' ' := by
      intro h
      subst h
      have := hw ' ' (by simp)
      simp [pyIsSpace] at this
    rw [List.cons_append, hasDoubleSpace_cons_of_ne hc]
    exact ih (fun x hx => hw x (by simp [hx])) l

theorem hasDoubleSpace_joinSpace {ws : List (List Char)}
    (h : ∀ w ∈ ws, w ≠ [] ∧ ∀ c ∈ w, pyIsSpace c = false) :
    hasDoubleSpace (joinSpace ws) = false := by
  induction ws with
  | nil => rfl
  | cons w ws ih =>
    cases ws with
    | nil =>
      show hasDoubleSpace (joinSpace [w]) = false
      have : joinSpace [w] = w ++ [] := by simp [joinSpace]
      rw [this, hasDoubleSpace_append_word (h w (by simp)).2]
      rfl
    | cons b t =>
      show hasDoubleSpace (w ++ ' ' :: joinSpace (b :: t)) = false
      rw [hasDoubleSpace_append_word (h w (by simp)).2]
      have hbne : b ≠ [] := (h b (by simp)).1
      have hjh : (joinSpace (b :: t)).head? = b.head? := joinSpace_head hbne
      cases hJ : joinSpace (b :: t) with
      | nil =>
        exact absurd hJ (joinSpace_ne_nil hbne)
      | cons j js =>
        show ((' ' = ' ' && j = ' ') || hasDoubleSpace (j :: js)) = false
        have hjb : b.head? = some j := by rw [← hjh, hJ]; rfl
        have hjw : pyIsSpace j = false := by
          cases b with
          | nil => exact absurd rfl hbne
          | cons b0 bt =>
            have : b0 = j := by
              have := hjb
              simp only [List.head?] at this
              exact Option.some.inj this
            subst this
            exact (h (b0 :: bt) (by simp)).2 b0 (by simp)
        have hjs : j ≠ ' ' := by
          intro hje
          subst hje
          simp [pyIsSpace] at hjw
        rw [decide_eq_false hjs]
        simp only [Bool.and_false, Bool.false_or]
        rw [← hJ]
        exact ih (fun x hx => h x (by simp [hx]))

theorem artifact_ne_clean {t : List Char} {ws : List (List Char)}
    (hws : ∀ w ∈ ws, w ≠ [] ∧ ∀ c ∈ w, pyIsSpace c = false)
    (ht : t ≠ []) (ha : hasWsArtifact t = true) :
    t ≠ joinSpace ws := by
  intro he
  unfold hasWsArtifact at ha
  simp only [Bool.or_eq_true] at ha
  rcases ha with (hh | hl) | hd
  · cases th : t.head? with
    | none => rw [th] at hh; simp at hh
    | some c =>
      rw [th] at hh
      dsimp only at hh
      cases ws with
      | nil =>
        rw [he] at th
        exact Option.noConfusion th
      | cons w ws2 =>
        obtain ⟨hwne, hwsf⟩ := hws w (by simp)
        have hjh : (joinSpace (w :: ws2)).head? = w.head? := joinSpace_head hwne
        rw [he, hjh] at th
        cases w with
        | nil => exact absurd rfl hwne
        | cons w0 wt =>
          have hw0 : w0 = c := Option.some.inj th
          subst hw0
          have hns := hwsf w0 (by simp)
          rw [hns] at hh
          simp at hh
  · cases tl : t.getLast? with
    | none => rw [tl] at hl; simp at hl
    | some c =>
      rw [tl] at hl
      dsimp only at hl
      cases hwsl : ws.getLast? with
      | none =>
        have hnil : ws = [] := List.getLast?_eq_none_iff.mp hwsl
        subst hnil
        rw [he] at ht
        exact ht rfl
      | some wl =>
        obtain ⟨hwlne, hwlsf⟩ := hws wl (List.mem_of_getLast?_eq_some hwsl)
        have hjl := joinSpace_getLast (fun x hx => (hws x hx).1) hwsl
        rw [he, hjl] at tl
        have hcm : c ∈ wl := List.mem_of_getLast?_eq_some tl
        have hns := hwlsf c hcm
        rw [hns] at hl
        simp at hl
  · have hdj : hasDoubleSpace (joinSpace ws) = false := hasDoubleSpace_joinSpace hws
    rw [he] at hd
    rw [hd] at hdj
    simp at hdj

theorem shorthand_values_good :
    ∀ p ∈ FORTINET_SHORTHANDS, (∀ c ∈ p.1.data, (wch c || c = '-') = true) →
      p.2.data ≠ [] ∧ ∀ c ∈ p.2.data, pyIsSpace c = false := by
  decide

theorem lookup_entry {k v : List Char} (h : lookupShorthand k = some v) :
    ∃ p ∈ FORTINET_SHORTHANDS, p.1.data = k ∧ p.2.data = v := by
  unfold lookupShorthand at h
  cases hf : FORTINET_SHORTHANDS.find? (fun p => decide (p.1.data = k)) with
  | none => rw [hf] at h; simp at h
  | some p =>
    rw [hf] at h
    simp only [Option.map_some'] at h
    refine ⟨p, List.mem_of_find?_eq_some hf, ?_, Option.some.inj h⟩
    have hp := List.find?_some hf
    simpa using hp

theorem pyLower_keeps_wh {core : List Char}
    (h : ∀ c ∈ core, (wch c || c = '-') = true) :
    ∀ c ∈ pyLower core, (wch c || c = '-') = true := by
  intro c hc
  obtain ⟨y, hy, rfl⟩ := List.mem_map.mp hc
  have hyw := h y hy
  simp only [Bool.or_eq_true] at hyw
  rcases hyw with h1 | h1
  · rw [wch_toLower, h1]
    simp
  · have : y = '-' := by simpa using h1
    subst this
    have : Char.toLower '-' = '-' := by decide
    rw [this]
    simp

theorem lookup_value_good {core v : List Char}
    (hcore : ∀ c ∈ core, (wch c || c = '-') = true)
    (h : lookupShorthand (pyLower core) = some v) :
    v ≠ [] ∧ ∀ c ∈ v, pyIsSpace c = false := by
  obtain ⟨p, hp, hk, hv⟩ := lookup_entry h
  have := shorthand_values_good p hp (by rw [hk]; exact pyLower_keeps_wh hcore)
  rw [hv] at this
  exact this

theorem capitalizeWord_good {w : List Char} (hne : w ≠ [])
    (hsf : ∀ c ∈ w, pyIsSpace c = false) :
    capitalizeWord w ≠ [] ∧ ∀ c ∈ capitalizeWord w, pyIsSpace c = false := by
  unfold capitalizeWord
  split
  · cases w with
    | nil => exact absurd rfl hne
    | cons c t =>
      refine ⟨by simp, ?_⟩
      intro x hx
      rcases List.mem_cons.mp hx with h | h
      · subst h
        rw [pyIsSpace_toUpper]
        exact hsf c (by simp)
      · obtain ⟨y, hy, rfl⟩ := List.mem_map.mp h
        rw [pyIsSpace_toLower]
        exact hsf y (by simp [hy])
  · constructor
    · unfold pyUpper
      simpa using hne
    · intro x hx
      obtain ⟨y, hy, rfl⟩ := List.mem_map.mp hx
      rw [pyIsSpace_toUpper]
      exact hsf y hy

theorem capWord_good {w : List Char} (hne : w ≠ [])
    (hsf : ∀ c ∈ w, pyIsSpace c = false) :
    capWord w ≠ [] ∧ ∀ c ∈ capWord w, pyIsSpace c = false := by
  unfold capWord
  split
  · exact ⟨hne, hsf⟩
  · split
    · exact ⟨hne, hsf⟩
    · split
      · refine ⟨by decide, by decide⟩
      · split
        · refine ⟨by decide, by decide⟩
        · exact capitalizeWord_good hne hsf

theorem titleShMatch_spec {w g1 core sfx : List Char}
    (h : titleShMatch w = some (g1, core, sfx)) :
    core ≠ [] ∧ (∀ c ∈ core, (wch c || c = '-') = true) ∧
    (∀ c ∈ sfx, c = ')' ∨ c = ']' ∨ c = '?' ∨ c = ',') ∧
    (g1 = [] ∨ g1 = ['('] ∨ g1 = ['[']) := by
  unfold titleShMatch at h
  split at h <;>
  · dsimp only at h
    split at h
    · next hcond =>
      obtain ⟨hne, hall⟩ := hcond
      have h2 := Option.some.inj h
      rw [Prod.mk.injEq, Prod.mk.injEq] at h2
      obtain ⟨hg, hc, hs⟩ := h2
      subst hg
      subst hc
      subst hs
      refine ⟨hne, ?_, ?_, by simp⟩
      · intro x hx
        have hy := List.mem_takeWhile_imp hx
        exact hy
      · intro x hx
        have hy := List.all_eq_true.mp hall x hx
        simp at hy
        tauto
    · exact absurd h (by simp)

theorem lowercase_words_good :
    ∀ x ∈ lowercase_words, x.data ≠ [] ∧ ∀ c ∈ x.data, pyIsSpace c = false := by
  decide

theorem titleWord_good {first last : Bool} {w : List Char} (hne : w ≠ [])
    (hsf : ∀ c ∈ w, pyIsSpace c = false) :
    titleWord first last w ≠ [] ∧ ∀ c ∈ titleWord first last w, pyIsSpace c = false := by
  have hgen : ∀ (wl : List Char), (lowercase_words.any (fun x => decide (x.data = wl))) = true →
      wl ≠ [] ∧ ∀ c ∈ wl, pyIsSpace c = false := by
    intro wl hany
    obtain ⟨x, hx, he⟩ := List.any_eq_true.mp hany
    simp only [decide_eq_true_eq] at he
    subst he
    exact lowercase_words_good x hx
  unfold titleWord
  cases hm : titleShMatch w with
  | none =>
    dsimp only
    split
    · exact ⟨hne, hsf⟩
    · split
      · exact ⟨by decide, by decide⟩
      · split
        · split <;> exact ⟨by decide, by decide⟩
        · split
          · next hcond =>
            simp only [Bool.and_eq_true] at hcond
            exact hgen _ hcond.1.1
          · exact capitalizeWord_good hne hsf
  | some trip =>
    obtain ⟨g1, core, sfx⟩ := trip
    obtain ⟨hcne, hcore, hsfx, hg1⟩ := titleShMatch_spec hm
    dsimp only
    by_cases hf : lowersToForti core = true
    · rw [if_pos hf]
      exact ⟨hne, hsf⟩
    · rw [if_neg hf]
      cases hlk : lookupShorthand (pyLower core) with
      | none =>
        dsimp only
        split
        · exact ⟨hne, hsf⟩
        · split
          · exact ⟨by decide, by decide⟩
          · split
            · split <;> exact ⟨by decide, by decide⟩
            · split
              · next hcond =>
                simp only [Bool.and_eq_true] at hcond
                exact hgen _ hcond.1.1
              · exact capitalizeWord_good hne hsf
      | some v =>
        dsimp only
        obtain ⟨hvne, hvsf⟩ := lookup_value_good hcore hlk
        constructor
        · simp [hvne]
        · intro c hc
          rcases List.mem_append.mp hc with h1 | h1
          · rcases List.mem_append.mp h1 with h2 | h2
            · rcases hg1 with rfl | rfl | rfl
              · simp at h2
              · have : c = '(' := by simpa using h2
                subst this
                decide
              · have : c = '[' := by simpa using h2
                subst this
                decide
            · exact hvsf c h2
          · rcases hsfx c h1 with rfl | rfl | rfl | rfl <;> decide

theorem cleanWord_chars {w : List Char} : ∀ c ∈ cleanWord w, (wch c || c = '-') = true := by
  intro c hc
  exact (List.mem_filter.mp hc).2

theorem cleanWord_subset {w : List Char} : cleanWord w ⊆ w :=
  List.filter_subset' _

theorem sentStep_good {flag : Bool} {w o : List Char} {f2 : Bool} (hne : w ≠ [])
    (hsf : ∀ c ∈ w, pyIsSpace c = false)
    (hs : sentStep flag w = some (o, f2)) :
    o ≠ [] ∧ ∀ c ∈ o, pyIsSpace c = false := by
  simp only [sentStep] at hs
  by_cases hf : lowersToForti (cleanWord w) = true
  · rw [if_pos hf] at hs
    have h := Option.some.inj hs
    rw [Prod.mk.injEq] at h
    obtain ⟨h1, h2⟩ := h
    subst h1
    exact ⟨hne, hsf⟩
  · rw [if_neg hf] at hs
    cases hlk : lookupShorthand (pyLower (cleanWord w)) with
    | some v =>
      rw [hlk] at hs
      dsimp only at hs
      obtain ⟨hvne, hvsf⟩ := lookup_value_good cleanWord_chars hlk
      by_cases hwc : w ≠ cleanWord w
      · rw [if_pos hwc] at hs
        cases hh : (cleanWord w).head? with
        | none =>
          rw [hh] at hs
          dsimp only at hs
          exact absurd hs (by simp)
        | some c0 =>
          rw [hh] at hs
          cases hl : (cleanWord w).getLast? with
          | none =>
            rw [hl] at hs
            dsimp only at hs
            exact absurd hs (by simp)
          | some cl =>
            rw [hl] at hs
            dsimp only at hs
            have h := Option.some.inj hs
            rw [Prod.mk.injEq] at h
            obtain ⟨h1, h2⟩ := h
            subst h1
            constructor
            · simp [hvne]
            · intro c hc
              rcases List.mem_append.mp hc with h1 | h1
              · rcases List.mem_append.mp h1 with h2 | h2
                · by_cases hct : w.contains c0 = true
                  · rw [if_pos hct] at h2
                    exact hsf c (List.take_subset _ _ h2)
                  · rw [if_neg hct] at h2
                    simp at h2
                · exact hvsf c h2
              · by_cases hct : (w.contains cl && decide (List.findIdx (fun x => x == cl) w < w.length - 1)) = true
                · rw [if_pos hct] at h1
                  exact hsf c (List.drop_subset _ _ h1)
                · rw [if_neg hct] at h1
                  simp at h1
      · rw [if_neg hwc] at hs
        have h := Option.some.inj hs
        rw [Prod.mk.injEq] at h
        obtain ⟨h1, h2⟩ := h
        subst h1
        exact ⟨hvne, hvsf⟩
    | none =>
      rw [hlk] at hs
      dsimp only at hs
      by_cases hab : (pyIsUpper (cleanWord w) && decide (1 < (cleanWord w).length)) = true
      · rw [if_pos hab] at hs
        have h := Option.some.inj hs
        rw [Prod.mk.injEq] at h
        obtain ⟨h1, h2⟩ := h
        subst h1
        exact ⟨hne, hsf⟩
      · rw [if_neg hab] at hs
        by_cases hfl : flag = true
        · rw [if_pos hfl] at hs
          have h := Option.some.inj hs
          rw [Prod.mk.injEq] at h
          obtain ⟨h1, h2⟩ := h
          subst h1
          cases w with
          | nil => exact absurd rfl hne
          | cons a t =>
            split
            · refine ⟨by simp, ?_⟩
              intro c hc
              rcases List.mem_cons.mp hc with h3 | h3
              · subst h3
                rw [pyIsSpace_toUpper]
                exact hsf a (by simp)
              · exact hsf c (by simp [h3])
            · exact ⟨hne, hsf⟩
        · rw [if_neg hfl] at hs
          have h := Option.some.inj hs
          rw [Prod.mk.injEq] at h
          obtain ⟨h1, h2⟩ := h
          subst h1
          by_cases hcap : ((cleanWord w).any fun x => x.isUpper) = true
          · rw [if_pos hcap]
            have hcne : cleanWord w ≠ [] := by
              intro hc
              rw [hc] at hcap
              simp at hcap
            by_cases hwc : w ≠ cleanWord w
            · rw [if_pos hwc]
              cases hh : (cleanWord w).head? with
              | none =>
                rw [List.head?_eq_none_iff] at hh
                exact absurd hh hcne
              | some c0 =>
                cases hl : (cleanWord w).getLast? with
                | none =>
                  rw [List.getLast?_eq_none_iff] at hl
                  exact absurd hl hcne
                | some cl =>
                  dsimp only
                  constructor
                  · intro hnil
                    rcases List.append_eq_nil.mp hnil with ⟨hn1, hn4⟩
                    rcases List.append_eq_nil.mp hn1 with ⟨hn2, hn3⟩
                    unfold pyLower at hn3
                    rw [List.map_eq_nil_iff] at hn3
                    cases hsi : List.findIdx (fun x => x == c0) w with
                    | zero =>
                      rw [hsi, List.drop_zero, List.take_eq_nil_iff] at hn3
                      rcases hn3 with h4 | h4
                      · omega
                      · exact hne h4
                    | succ k =>
                      rw [hsi, List.take_eq_nil_iff] at hn2
                      rcases hn2 with h4 | h4
                      · omega
                      · exact hne h4
                  · intro c hc
                    rcases List.mem_append.mp hc with h3 | h3
                    · rcases List.mem_append.mp h3 with h4 | h4
                      · exact hsf c (List.take_subset _ _ h4)
                      · obtain ⟨y, hy, rfl⟩ := List.mem_map.mp h4
                        rw [pyIsSpace_toLower]
                        exact hsf y (List.drop_subset _ _ (List.take_subset _ _ hy))
                    · exact hsf c (List.drop_subset _ _ h3)
            · rw [if_neg hwc]
              dsimp only
              simp only [not_not] at hwc
              constructor
              · intro hnil
                rcases List.append_eq_nil.mp hnil with ⟨hn1, hn4⟩
                rcases List.append_eq_nil.mp hn1 with ⟨hn2, hn3⟩
                unfold pyLower at hn3
                rw [List.map_eq_nil_iff] at hn3
                exact hcne hn3
              · intro c hc
                rcases List.mem_append.mp hc with h3 | h3
                · rcases List.mem_append.mp h3 with h4 | h4
                  · simp at h4
                  · obtain ⟨y, hy, rfl⟩ := List.mem_map.mp h4
                    rw [pyIsSpace_toLower]
                    exact hsf y (cleanWord_subset hy)
                · simp at h3
          · rw [if_neg hcap]
            exact ⟨hne, hsf⟩

theorem processWords_good {flag : Bool} {ws os : List (List Char)}
    (hws : ∀ w ∈ ws, w ≠ [] ∧ ∀ c ∈ w, pyIsSpace c = false)
    (h : processWords flag ws = some os) :
    (∀ o ∈ os, o ≠ [] ∧ ∀ c ∈ o, pyIsSpace c = false) ∧ os.length = ws.length := by
  induction ws generalizing flag os with
  | nil =>
    cases h
    exact ⟨by simp, rfl⟩
  | cons w ws ih =>
    simp only [processWords] at h
    cases hs : sentStep flag w with
    | none => rw [hs] at h; simp at h
    | some p =>
      rw [hs] at h
      obtain ⟨o, f2⟩ := p
      dsimp only at h
      cases hp : processWords f2 ws with
      | none => rw [hp] at h; simp at h
      | some os2 =>
        rw [hp] at h
        have hh := Option.some.inj h
        subst hh
        obtain ⟨hwne, hwsf⟩ := hws w (by simp)
        have hog := sentStep_good hwne hwsf hs
        obtain ⟨hgood, hlen⟩ := ih (fun x hx => hws x (by simp [hx])) hp
        constructor
        · intro x hx
          rcases List.mem_cons.mp hx with h1 | h1
          · subst h1; exact hog
          · exact hgood x h1
        · simp [hlen]

theorem titleWords_length (ws : List (List Char)) : (titleWords ws).length = ws.length := by
  simp [titleWords]

theorem titleWords_good {ws : List (List Char)}
    (hws : ∀ w ∈ ws, w ≠ [] ∧ ∀ c ∈ w, pyIsSpace c = false) :
    ∀ o ∈ titleWords ws, o ≠ [] ∧ ∀ c ∈ o, pyIsSpace c = false := by
  intro o ho
  unfold titleWords at ho
  obtain ⟨p, hp, rfl⟩ := List.mem_map.mp ho
  have hm : p.2 ∈ (List.enum ws).map Prod.snd := List.mem_map_of_mem _ hp
  rw [List.enum_map_snd] at hm
  obtain ⟨h1, h2⟩ := hws p.2 hm
  exact titleWord_good h1 h2

theorem goodWords_map_fix {ws : List (List Char)}
    (h : ∀ w ∈ ws, w ≠ [] ∧ ∀ c ∈ w, pyIsSpace c = false) :
    ∀ w ∈ ws.map fixAcronymPluralsL, w ≠ [] ∧ ∀ c ∈ w, pyIsSpace c = false := by
  intro w hw
  obtain ⟨y, hy, rfl⟩ := List.mem_map.mp hw
  obtain ⟨h1, h2⟩ := h y hy
  exact ⟨fixAcronym_ne_nil h1, fixAcronym_chars_space h2⟩

theorem capWords_good {ws : List (List Char)}
    (h : ∀ w ∈ ws, w ≠ [] ∧ ∀ c ∈ w, pyIsSpace c = false) :
    ∀ w ∈ ws.map capWord, w ≠ [] ∧ ∀ c ∈ w, pyIsSpace c = false := by
  intro w hw
  obtain ⟨y, hy, rfl⟩ := List.mem_map.mp hw
  obtain ⟨h1, h2⟩ := h y hy
  exact capWord_good h1 h2

/-- C10: every case transformer's corrected output is the single-space join of
    exactly one output word per whitespace-separated input word, so word count
    is preserved; consequently, for any non-empty input with leading/trailing
    whitespace or consecutive internal spaces the transformer reports
    `passed = false` (the corrected join can never reproduce the whitespace
    artifact), regardless of the words' casing. -/
theorem C10_word_structure (s : String) :
    ((pySplitL (validate_capital_case s).2.data).length = (pySplitL s.data).length ∧
     (pySplitL (validate_title_case s).2.data).length = (pySplitL s.data).length ∧
     (∀ r, validate_sentence_case s = some r →
        (pySplitL r.2.data).length = (pySplitL s.data).length)) ∧
    (s ≠ "" → hasWsArtifact s.data = true →
      (validate_capital_case s).1 = false ∧ (validate_title_case s).1 = false ∧
      (∀ r, validate_sentence_case s = some r → r.1 = false)) := by
  by_cases hs : s = ""
  · subst hs
    refine ⟨⟨rfl, rfl, ?_⟩, ?_⟩
    · intro r hr
      have := Option.some.inj hr
      subst this
      rfl
    · intro h
      exact absurd rfl h
  · have hsd : s.data ≠ [] := by
      intro hc
      apply hs
      cases s
      simp at hc
      rw [hc]
    have hwords := @pySplit_words s.data
    -- capital case
    have hcap2 : (validate_capital_case s).2.data =
        joinSpace (((pySplitL s.data).map capWord).map fixAcronymPluralsL) := by
      unfold validate_capital_case
      rw [if_neg hs]
      dsimp only
      rw [fixAcronym_joinSpace]
    have hcapgood := goodWords_map_fix (capWords_good hwords)
    have hcap1 : ∀ b c, validate_capital_case s = (b, c) →
        b = decide (s.data = fixAcronymPluralsL (joinSpace ((pySplitL s.data).map capWord))) := by
      intro b c hbc
      unfold validate_capital_case at hbc
      rw [if_neg hs] at hbc
      dsimp only at hbc
      rw [Prod.mk.injEq] at hbc
      exact hbc.1.symm
    -- title case
    have htit2 : (validate_title_case s).2.data =
        joinSpace ((titleWords (pySplitL s.data)).map fixAcronymPluralsL) := by
      unfold validate_title_case
      rw [if_neg hs]
      dsimp only
      rw [fixAcronym_joinSpace]
    have htitgood := goodWords_map_fix (titleWords_good hwords)
    refine ⟨⟨?_, ?_, ?_⟩, ?_⟩
    · rw [hcap2, pySplit_joinSpace _ hcapgood]
      simp
    · rw [htit2, pySplit_joinSpace _ htitgood]
      simp [titleWords_length]
    · intro r hr
      unfold validate_sentence_case at hr
      rw [if_neg hs] at hr
      cases hp : processWords true (pySplitL s.data) with
      | none => rw [hp] at hr; exact absurd hr (by simp)
      | some os =>
        rw [hp] at hr
        dsimp only at hr
        have hh := Option.some.inj hr
        subst hh
        dsimp only
        obtain ⟨hosgood, hoslen⟩ := processWords_good hwords hp
        rw [fixAcronym_joinSpace, pySplit_joinSpace _ (goodWords_map_fix hosgood)]
        simp [hoslen]
    · intro _ hart
      refine ⟨?_, ?_, ?_⟩
      · cases hbc : validate_capital_case s with
        | mk b c =>
          have hb := hcap1 b c hbc
          dsimp only
          rw [hb]
          apply decide_eq_false
          rw [fixAcronym_joinSpace]
          exact artifact_ne_clean hcapgood hsd hart
      · unfold validate_title_case
        rw [if_neg hs]
        dsimp only
        apply decide_eq_false
        rw [fixAcronym_joinSpace]
        exact artifact_ne_clean htitgood hsd hart
      · intro r hr
        unfold validate_sentence_case at hr
        rw [if_neg hs] at hr
        cases hp : processWords true (pySplitL s.data) with
        | none => rw [hp] at hr; exact absurd hr (by simp)
        | some os =>
          rw [hp] at hr
          dsimp only at hr
          have hh := Option.some.inj hr
          subst hh
          dsimp only
          obtain ⟨hosgood, hoslen⟩ := processWords_good hwords hp
          apply decide_eq_false
          rw [fixAcronym_joinSpace]
          exact artifact_ne_clean (goodWords_map_fix hosgood) hsd hart

/-- C10 witness: on `" hello"` (leading space) all three transformers fail. -/
theorem C10_word_structure_witness :
    (validate_capital_case " hello").1 = false ∧ (validate_title_case " hello").1 = false ∧
    (∀ r, validate_sentence_case " hello" = some r → r.1 = false) :=
  (C10_word_structure " hello").2 (by decide) (by decide)

/-! ## C4: idempotence of the case transformers

`_validate_capital_case` is idempotent (proved below); title and sentence case
are not (`C4_counterexample`).  The proof decomposes
`_fix_acronym_plurals_rule_based` into a single `mapRuns` pass (`fix_eq_mapRuns`)
and shows each per-word composite `fix ∘ capWord` is stable on its own output. -/

theorem mapRuns_nil (f : List Char → List Char) : mapRuns f [] = [] := rfl

theorem mapRuns_cons_nonword {f : List Char → List Char} {c : Char} (hc : wch c = false)
    (t : List Char) : mapRuns f (c :: t) = c :: mapRuns f t := by
  show mapRunsAux f [] (c :: t) = c :: mapRunsAux f [] t
  simp only [mapRunsAux, hc]
  simp

theorem mapRunsAux_run (f : List Char → List Char) :
    ∀ (r acc s : List Char), (∀ c ∈ r, wch c = true) →
      mapRunsAux f acc (r ++ s) = mapRunsAux f (r.reverse ++ acc) s := by
  intro r
  induction r with
  | nil => intro acc s _; simp
  | cons c t ih =>
    intro acc s hr
    have hc : wch c = true := hr c (by simp)
    show mapRunsAux f acc (c :: (t ++ s)) = mapRunsAux f ((c :: t).reverse ++ acc) s
    simp only [mapRunsAux, hc, if_true]
    rw [ih (c :: acc) s (fun x hx => hr x (by simp [hx]))]
    simp

theorem headNW_mapRuns {f : List Char → List Char} {s : List Char}
    (hs : ∀ x, s.head? = some x → wch x = false) :
    ∀ x, (mapRuns f s).head? = some x → wch x = false := by
  cases s with
  | nil => intro x hx; simp [mapRuns, mapRunsAux] at hx
  | cons c t =>
    have hc : wch c = false := hs c rfl
    rw [mapRuns_cons_nonword hc]
    intro x hx
    have : c = x := Option.some.inj hx
    subst this
    exact hc

theorem mapRuns_run_append {f : List Char → List Char} {r s : List Char}
    (hrne : r ≠ []) (hr : ∀ c ∈ r, wch c = true)
    (hs : ∀ x, s.head? = some x → wch x = false) :
    mapRuns f (r ++ s) = f r ++ mapRuns f s := by
  show mapRunsAux f [] (r ++ s) = _
  rw [mapRunsAux_run f r [] s hr]
  cases s with
  | nil =>
    simp only [mapRunsAux]
    rw [if_neg (by simp [hrne])]
    simp [mapRuns, mapRunsAux]
  | cons c t =>
    have hc : wch c = false := hs c rfl
    rw [mapRuns_cons_nonword hc]
    simp only [mapRunsAux, hc]
    rw [if_neg (by simp)]
    rw [if_neg (by simp [hrne])]
    simp [mapRuns]

theorem mapRuns_comp_aux {f g : List Char → List Char}
    (hf : ∀ r, r ≠ [] → (∀ c ∈ r, wch c = true) → f r ≠ [] ∧ ∀ c ∈ f r, wch c = true) :
    ∀ n (l : List Char), l.length ≤ n →
      mapRuns g (mapRuns f l) = mapRuns (fun r => g (f r)) l := by
  intro n
  induction n with
  | zero =>
    intro l hl
    have : l = [] := List.length_eq_zero.mp (Nat.le_zero.mp hl)
    subst this
    rfl
  | succ n ih =>
    intro l hl
    cases l with
    | nil => rfl
    | cons c t =>
      by_cases hc : wch c = true
      · have hrun : c :: t = (c :: t).takeWhile wch ++ (c :: t).dropWhile wch :=
          (List.takeWhile_append_dropWhile ..).symm
        have hrne : (c :: t).takeWhile wch ≠ [] := by
          simp [List.takeWhile, hc]
        have hrw : ∀ x ∈ (c :: t).takeWhile wch, wch x = true := by
          intro x hx
          have hy := List.mem_takeWhile_imp hx
          exact hy
        have hsnw : ∀ x, ((c :: t).dropWhile wch).head? = some x → wch x = false := by
          intro x hx
          have hall := List.head?_dropWhile_not wch (c :: t)
          rw [hx] at hall
          simpa using hall
        have hlen : ((c :: t).dropWhile wch).length ≤ n := by
          have h1 : ((c :: t).takeWhile wch).length + ((c :: t).dropWhile wch).length
              = (c :: t).length := by
            rw [← List.length_append, ← hrun]
          have h2 : 1 ≤ ((c :: t).takeWhile wch).length := by
            cases hr2 : (c :: t).takeWhile wch with
            | nil => exact absurd hr2 hrne
            | cons a b => simp
          have h3 : (c :: t).length = t.length + 1 := by simp
          omega
        rw [hrun]
        rw [mapRuns_run_append hrne hrw hsnw]
        obtain ⟨hfne, hfw⟩ := hf _ hrne hrw
        rw [mapRuns_run_append hfne hfw (headNW_mapRuns hsnw)]
        rw [mapRuns_run_append hrne hrw hsnw]
        rw [ih _ hlen]
      · have hc2 : wch c = false := by simpa using hc
        rw [mapRuns_cons_nonword hc2, mapRuns_cons_nonword hc2, mapRuns_cons_nonword hc2]
        rw [ih t (by simpa using Nat.le_of_succ_le_succ hl)]

theorem mapRuns_comp {f g : List Char → List Char}
    (hf : ∀ r, r ≠ [] → (∀ c ∈ r, wch c = true) → f r ≠ [] ∧ ∀ c ∈ f r, wch c = true)
    (l : List Char) :
    mapRuns g (mapRuns f l) = mapRuns (fun r => g (f r)) l :=
  mapRuns_comp_aux hf l.length l le_rfl

set_option maxHeartbeats 2000000 in
theorem acr_pairs_facts : ∀ pr ∈ acronym_fixes,
    pr.2.data ≠ [] ∧ (∀ c ∈ pr.2.data, wch c = true) ∧ pr.2.data.head? = pr.1.data.head? ∧
    pr.2.data.length = pr.1.data.length ∧ pyLower pr.2.data = pyLower pr.1.data ∧
    acrRun pr.2.data = pr.2.data ∧ pr.1.data.any (fun c => c.isAlpha && !c.isUpper) = true := by
  decide

set_option maxHeartbeats 2000000 in
theorem acrRun_cases (r : List Char) :
    acrRun r = r ∨ ∃ pr ∈ acronym_fixes, r = pr.1.data ∧ acrRun r = pr.2.data := by
  by_cases h1 : r = "Vpns".data
  · exact Or.inr ⟨("Vpns", "VPNs"), by decide, h1, by rw [h1]; decide⟩
  by_cases h2 : r = "Apis".data
  · exact Or.inr ⟨("Apis", "APIs"), by decide, h2, by rw [h2]; decide⟩
  by_cases h3 : r = "Urls".data
  · exact Or.inr ⟨("Urls", "URLs"), by decide, h3, by rw [h3]; decide⟩
  by_cases h4 : r = "Sdks".data
  · exact Or.inr ⟨("Sdks", "SDKs"), by decide, h4, by rw [h4]; decide⟩
  by_cases h5 : r = "Vms".data
  · exact Or.inr ⟨("Vms", "VMs"), by decide, h5, by rw [h5]; decide⟩
  by_cases h6 : r = "Ips".data
  · exact Or.inr ⟨("Ips", "IPs"), by decide, h6, by rw [h6]; decide⟩
  by_cases h7 : r = "Ids".data
  · exact Or.inr ⟨("Ids", "IDs"), by decide, h7, by rw [h7]; decide⟩
  by_cases h8 : r = "Faqs".data
  · exact Or.inr ⟨("Faqs", "FAQs"), by decide, h8, by rw [h8]; decide⟩
  by_cases h9 : r = "Pdfs".data
  · exact Or.inr ⟨("Pdfs", "PDFs"), by decide, h9, by rw [h9]; decide⟩
  by_cases h10 : r = "Csvs".data
  · exact Or.inr ⟨("Csvs", "CSVs"), by decide, h10, by rw [h10]; decide⟩
  by_cases h11 : r = "Slas".data
  · exact Or.inr ⟨("Slas", "SLAs"), by decide, h11, by rw [h11]; decide⟩
  by_cases h12 : r = "Kpis".data
  · exact Or.inr ⟨("Kpis", "KPIs"), by decide, h12, by rw [h12]; decide⟩
  left
  simp only [acrRun, acronym_fixes, List.foldl_cons, List.foldl_nil]
  rw [if_neg h1, if_neg h2, if_neg h3, if_neg h4, if_neg h5, if_neg h6, if_neg h7,
     if_neg h8, if_neg h9, if_neg h10, if_neg h11, if_neg h12]

theorem mapRunsAux_id : ∀ (l acc : List Char), mapRunsAux (fun r => r) acc l = acc.reverse ++ l := by
  intro l
  induction l with
  | nil =>
    intro acc
    simp only [mapRunsAux]
    split
    · next h => simp [h]
    · simp
  | cons c t ih =>
    intro acc
    simp only [mapRunsAux]
    split
    · rw [ih (c :: acc)]
      simp
    · split
      · next h =>
        rw [ih []]
        simp [h]
      · rw [ih []]
        simp

theorem mapRuns_id (l : List Char) : mapRuns (fun r => r) l = l := by
  unfold mapRuns
  rw [mapRunsAux_id]
  simp

theorem foldl_subs_eq_mapRuns :
    ∀ (ps : List (String × String)),
      (∀ pr ∈ ps, pr.2.data ≠ [] ∧ ∀ c ∈ pr.2.data, wch c = true) →
      ∀ l, ps.foldl (fun t pr => mapRuns (fun run => if run = pr.1.data then pr.2.data else run) t) l
          = mapRuns (fun r => ps.foldl (fun t pr => if t = pr.1.data then pr.2.data else t) r) l := by
  intro ps
  induction ps with
  | nil =>
    intro _ l
    simp only [List.foldl_nil]
    rw [mapRuns_id]
  | cons p ps ih =>
    intro hps l
    simp only [List.foldl_cons]
    rw [ih (fun pr hpr => hps pr (by simp [hpr]))]
    rw [mapRuns_comp]
    intro r hrne hrw
    by_cases he : r = p.1.data
    · rw [if_pos he]
      exact ⟨(hps p (by simp)).1, (hps p (by simp)).2⟩
    · rw [if_neg he]
      exact ⟨hrne, hrw⟩

theorem fix_eq_mapRuns (l : List Char) : fixAcronymPluralsL l = mapRuns acrRun l := by
  unfold fixAcronymPluralsL
  rw [foldl_subs_eq_mapRuns acronym_fixes]
  · rfl
  · intro pr hpr
    exact ⟨(acr_pairs_facts pr hpr).1, (acr_pairs_facts pr hpr).2.1⟩

theorem mapRuns_congr_aux {f g : List Char → List Char} :
    ∀ n (l : List Char), l.length ≤ n →
      (∀ r, r ≠ [] → (∀ c ∈ r, wch c = true) → (∀ c ∈ r, c ∈ l) → f r = g r) →
      mapRuns f l = mapRuns g l := by
  intro n
  induction n with
  | zero =>
    intro l hl _
    have : l = [] := List.length_eq_zero.mp (Nat.le_zero.mp hl)
    subst this
    rfl
  | succ n ih =>
    intro l hl hfg
    cases l with
    | nil => rfl
    | cons c t =>
      by_cases hc : wch c = true
      · have hrun : c :: t = (c :: t).takeWhile wch ++ (c :: t).dropWhile wch :=
          (List.takeWhile_append_dropWhile ..).symm
        have hrne : (c :: t).takeWhile wch ≠ [] := by
          simp [List.takeWhile, hc]
        have hrw : ∀ x ∈ (c :: t).takeWhile wch, wch x = true := by
          intro x hx
          have hy := List.mem_takeWhile_imp hx
          exact hy
        have hsnw : ∀ x, ((c :: t).dropWhile wch).head? = some x → wch x = false := by
          intro x hx
          have hall := List.head?_dropWhile_not wch (c :: t)
          rw [hx] at hall
          simpa using hall
        have hlen : ((c :: t).dropWhile wch).length ≤ n := by
          have h1 : ((c :: t).takeWhile wch).length + ((c :: t).dropWhile wch).length
              = (c :: t).length := by
            rw [← List.length_append, ← hrun]
          have h2 : 1 ≤ ((c :: t).takeWhile wch).length := by
            cases hr2 : (c :: t).takeWhile wch with
            | nil => exact absurd hr2 hrne
            | cons a b => simp
          have h3 : (c :: t).length = t.length + 1 := by simp
          omega
        rw [hrun]
        rw [mapRuns_run_append hrne hrw hsnw, mapRuns_run_append hrne hrw hsnw]
        rw [hfg _ hrne hrw (fun x hx => by rw [hrun]; exact List.mem_append_left _ hx)]
        rw [ih _ hlen]
        intro r hrne2 hrw2 hsub
        refine hfg r hrne2 hrw2 ?_
        intro x hx
        rw [hrun]
        exact List.mem_append_right _ (hsub x hx)
      · have hc2 : wch c = false := by simpa using hc
        rw [mapRuns_cons_nonword hc2, mapRuns_cons_nonword hc2]
        rw [ih t (by simpa using Nat.le_of_succ_le_succ hl)]
        intro r hrne2 hrw2 hsub
        refine hfg r hrne2 hrw2 ?_
        intro x hx
        exact List.mem_cons_of_mem _ (hsub x hx)

theorem mapRuns_congr_on {f g : List Char → List Char} {l : List Char}
    (hfg : ∀ r, r ≠ [] → (∀ c ∈ r, wch c = true) → (∀ c ∈ r, c ∈ l) → f r = g r) :
    mapRuns f l = mapRuns g l :=
  mapRuns_congr_aux l.length l le_rfl hfg

theorem mapRuns_head {f : List Char → List Char}
    (hf : ∀ r, r ≠ [] → (∀ c ∈ r, wch c = true) → (f r).head? = r.head? ∧ f r ≠ []) :
    ∀ l : List Char, (mapRuns f l).head? = l.head? := by
  intro l
  cases l with
  | nil => rfl
  | cons c t =>
    by_cases hc : wch c = true
    · have hrun : c :: t = (c :: t).takeWhile wch ++ (c :: t).dropWhile wch :=
        (List.takeWhile_append_dropWhile ..).symm
      have hrne : (c :: t).takeWhile wch ≠ [] := by
        simp [List.takeWhile, hc]
      have hrw : ∀ x ∈ (c :: t).takeWhile wch, wch x = true := by
        intro x hx
        have hy := List.mem_takeWhile_imp hx
        exact hy
      have hsnw : ∀ x, ((c :: t).dropWhile wch).head? = some x → wch x = false := by
        intro x hx
        have hall := List.head?_dropWhile_not wch (c :: t)
        rw [hx] at hall
        simpa using hall
      conv_lhs => rw [hrun]
      rw [mapRuns_run_append hrne hrw hsnw]
      obtain ⟨hfh, hfne⟩ := hf _ hrne hrw
      cases hfr : f ((c :: t).takeWhile wch) with
      | nil => exact absurd hfr hfne
      | cons a b =>
        have hrh : ((c :: t).takeWhile wch).head? = some c := by
          rw [List.takeWhile_cons, if_pos hc]
          rfl
        have ha : some a = some c := by
          rw [← hrh, ← hfh, hfr]
          rfl
        have ha2 : a = c := Option.some.inj ha
        subst ha2
        rfl
    · have hc2 : wch c = false := by simpa using hc
      rw [mapRuns_cons_nonword hc2]
      rfl

theorem mapRuns_pyLower_aux {f : List Char → List Char}
    (hf : ∀ r, r ≠ [] → (∀ c ∈ r, wch c = true) → pyLower (f r) = pyLower r) :
    ∀ n (l : List Char), l.length ≤ n → pyLower (mapRuns f l) = pyLower l := by
  intro n
  induction n with
  | zero =>
    intro l hl
    have : l = [] := List.length_eq_zero.mp (Nat.le_zero.mp hl)
    subst this
    rfl
  | succ n ih =>
    intro l hl
    cases l with
    | nil => rfl
    | cons c t =>
      by_cases hc : wch c = true
      · have hrun : c :: t = (c :: t).takeWhile wch ++ (c :: t).dropWhile wch :=
          (List.takeWhile_append_dropWhile ..).symm
        have hrne : (c :: t).takeWhile wch ≠ [] := by
          simp [List.takeWhile, hc]
        have hrw : ∀ x ∈ (c :: t).takeWhile wch, wch x = true := by
          intro x hx
          have hy := List.mem_takeWhile_imp hx
          exact hy
        have hsnw : ∀ x, ((c :: t).dropWhile wch).head? = some x → wch x = false := by
          intro x hx
          have hall := List.head?_dropWhile_not wch (c :: t)
          rw [hx] at hall
          simpa using hall
        have hlen : ((c :: t).dropWhile wch).length ≤ n := by
          have h1 : ((c :: t).takeWhile wch).length + ((c :: t).dropWhile wch).length
              = (c :: t).length := by
            rw [← List.length_append, ← hrun]
          have h2 : 1 ≤ ((c :: t).takeWhile wch).length := by
            cases hr2 : (c :: t).takeWhile wch with
            | nil => exact absurd hr2 hrne
            | cons a b => simp
          have h3 : (c :: t).length = t.length + 1 := by simp
          omega
        conv_lhs => rw [hrun]
        conv_rhs => rw [hrun]
        rw [mapRuns_run_append hrne hrw hsnw]
        unfold pyLower
        rw [List.map_append, List.map_append]
        have h4 := hf _ hrne hrw
        unfold pyLower at h4
        rw [h4]
        have h5 := ih _ hlen
        unfold pyLower at h5
        rw [h5]
      · have hc2 : wch c = false := by simpa using hc
        rw [mapRuns_cons_nonword hc2]
        unfold pyLower
        rw [List.map_cons, List.map_cons]
        have h5 := ih t (by simpa using Nat.le_of_succ_le_succ hl)
        unfold pyLower at h5
        rw [h5]

theorem mapRuns_length_aux {f : List Char → List Char}
    (hf : ∀ r, r ≠ [] → (∀ c ∈ r, wch c = true) → (f r).length = r.length) :
    ∀ n (l : List Char), l.length ≤ n → (mapRuns f l).length = l.length := by
  intro n
  induction n with
  | zero =>
    intro l hl
    have : l = [] := List.length_eq_zero.mp (Nat.le_zero.mp hl)
    subst this
    rfl
  | succ n ih =>
    intro l hl
    cases l with
    | nil => rfl
    | cons c t =>
      by_cases hc : wch c = true
      · have hrun : c :: t = (c :: t).takeWhile wch ++ (c :: t).dropWhile wch :=
          (List.takeWhile_append_dropWhile ..).symm
        have hrne : (c :: t).takeWhile wch ≠ [] := by
          simp [List.takeWhile, hc]
        have hrw : ∀ x ∈ (c :: t).takeWhile wch, wch x = true := by
          intro x hx
          have hy := List.mem_takeWhile_imp hx
          exact hy
        have hsnw : ∀ x, ((c :: t).dropWhile wch).head? = some x → wch x = false := by
          intro x hx
          have hall := List.head?_dropWhile_not wch (c :: t)
          rw [hx] at hall
          simpa using hall
        have hlen : ((c :: t).dropWhile wch).length ≤ n := by
          have h1 : ((c :: t).takeWhile wch).length + ((c :: t).dropWhile wch).length
              = (c :: t).length := by
            rw [← List.length_append, ← hrun]
          have h2 : 1 ≤ ((c :: t).takeWhile wch).length := by
            cases hr2 : (c :: t).takeWhile wch with
            | nil => exact absurd hr2 hrne
            | cons a b => simp
          have h3 : (c :: t).length = t.length + 1 := by simp
          omega
        conv_lhs => rw [hrun]
        conv_rhs => rw [hrun]
        rw [mapRuns_run_append hrne hrw hsnw]
        rw [List.length_append, List.length_append]
        rw [hf _ hrne hrw, ih _ hlen]
      · have hc2 : wch c = false := by simpa using hc
        rw [mapRuns_cons_nonword hc2]
        simp only [List.length_cons]
        rw [ih t (by simpa using Nat.le_of_succ_le_succ hl)]

theorem acrRun_valid : ∀ r : List Char, r ≠ [] → (∀ c ∈ r, wch c = true) →
    acrRun r ≠ [] ∧ ∀ c ∈ acrRun r, wch c = true := by
  intro r hne hw
  rcases acrRun_cases r with h | ⟨pr, hpr, hrp, hrun⟩
  · rw [h]
    exact ⟨hne, hw⟩
  · rw [hrun]
    exact ⟨(acr_pairs_facts pr hpr).1, (acr_pairs_facts pr hpr).2.1⟩

theorem acrRun_idem (r : List Char) : acrRun (acrRun r) = acrRun r := by
  rcases acrRun_cases r with h | ⟨pr, hpr, hrp, hrun⟩
  · rw [h, h]
  · rw [hrun, (acr_pairs_facts pr hpr).2.2.2.2.2.1]

theorem acrRun_head (r : List Char) : (acrRun r).head? = r.head? := by
  rcases acrRun_cases r with h | ⟨pr, hpr, hrp, hrun⟩
  · rw [h]
  · rw [hrun, hrp, (acr_pairs_facts pr hpr).2.2.1]

theorem acrRun_lower (r : List Char) : pyLower (acrRun r) = pyLower r := by
  rcases acrRun_cases r with h | ⟨pr, hpr, hrp, hrun⟩
  · rw [h]
  · rw [hrun, hrp, (acr_pairs_facts pr hpr).2.2.2.2.1]

theorem acrRun_length (r : List Char) : (acrRun r).length = r.length := by
  rcases acrRun_cases r with h | ⟨pr, hpr, hrp, hrun⟩
  · rw [h]
  · rw [hrun, hrp, (acr_pairs_facts pr hpr).2.2.2.1]

theorem F_idem (l : List Char) :
    fixAcronymPluralsL (fixAcronymPluralsL l) = fixAcronymPluralsL l := by
  simp only [fix_eq_mapRuns]
  rw [mapRuns_comp acrRun_valid]
  exact mapRuns_congr_on (fun r _ _ _ => acrRun_idem r)

theorem F_lower (l : List Char) : pyLower (fixAcronymPluralsL l) = pyLower l := by
  rw [fix_eq_mapRuns]
  exact mapRuns_pyLower_aux (fun r _ _ => acrRun_lower r) l.length l le_rfl

theorem F_head (l : List Char) : (fixAcronymPluralsL l).head? = l.head? := by
  rw [fix_eq_mapRuns]
  refine mapRuns_head ?_ l
  intro r hne hw
  exact ⟨acrRun_head r, (acrRun_valid r hne hw).1⟩

theorem F_length (l : List Char) : (fixAcronymPluralsL l).length = l.length := by
  rw [fix_eq_mapRuns]
  exact mapRuns_length_aux (fun r _ _ => acrRun_length r) l.length l le_rfl

theorem acr_patterns_lower_char : ∀ pr ∈ acronym_fixes,
    (pr.1.data.any fun c => c.isAlpha && !c.isUpper) = true := by
  decide

theorem F_upper_noop {l : List Char} (h : pyIsUpper l = true) :
    fixAcronymPluralsL l = l := by
  rw [fix_eq_mapRuns]
  have hcongr : mapRuns acrRun l = mapRuns (fun r => r) l := by
    apply mapRuns_congr_on
    intro r hrne hrw hsub
    rcases acrRun_cases r with hx | ⟨pr, hpr, hrp, hrun⟩
    · rw [hx]
    · exfalso
      obtain ⟨c, hc, hprop⟩ := List.any_eq_true.mp (acr_patterns_lower_char pr hpr)
      rw [Bool.and_eq_true] at hprop
      have hcl : c ∈ l := hsub c (by rw [hrp]; exact hc)
      unfold pyIsUpper at h
      rw [Bool.and_eq_true] at h
      have hall := List.all_eq_true.mp h.2 c hcl
      rw [hprop.1] at hall
      simp at hall
      rw [hall] at hprop
      simp at hprop
  rw [hcongr, mapRuns_id]

theorem acr_patterns_length : ∀ pr ∈ acronym_fixes, 3 ≤ pr.1.data.length := by
  decide

theorem acrRun_singleton (c : Char) : acrRun [c] = [c] := by
  rcases acrRun_cases [c] with h | ⟨pr, hpr, hrp, hrun⟩
  · exact h
  · exfalso
    have h1 := acr_patterns_length pr hpr
    have h2 : pr.1.data.length = 1 := by rw [← hrp]; rfl
    omega

theorem F_short {l : List Char} (h : l.length ≤ 1) : fixAcronymPluralsL l = l := by
  rw [fix_eq_mapRuns]
  rcases l with _ | ⟨c, _ | ⟨d, t⟩⟩
  · rw [mapRuns_nil]
  · show mapRunsAux acrRun [] [c] = [c]
    by_cases hc : wch c = true
    · simp [mapRunsAux, hc, acrRun_singleton]
    · simp [mapRunsAux, hc]
  · simp at h

theorem pyLower_pyLower (l : List Char) : pyLower (pyLower l) = pyLower l := by
  unfold pyLower
  rw [List.map_map]
  exact List.map_congr_left (fun c _ => toLower_toLower c)

theorem pyUpper_pyUpper (l : List Char) : pyUpper (pyUpper l) = pyUpper l := by
  unfold pyUpper
  rw [List.map_map]
  exact List.map_congr_left (fun c _ => toUpper_toUpper c)

theorem pyLower_pyUpper (l : List Char) : pyLower (pyUpper l) = pyLower l := by
  unfold pyLower pyUpper
  rw [List.map_map]
  exact List.map_congr_left (fun c _ => toLower_toUpper c)

theorem capitalizeWord_lower (w : List Char) :
    pyLower (capitalizeWord w) = pyLower w := by
  unfold capitalizeWord
  split
  · cases w with
    | nil => rfl
    | cons c t =>
      show pyLower (Char.toUpper c :: pyLower t) = pyLower (c :: t)
      unfold pyLower
      simp only [List.map_cons, List.map_map]
      rw [toLower_toUpper]
      congr 1
      exact List.map_congr_left (fun a _ => toLower_toLower a)
  · exact pyLower_pyUpper w

theorem toLower_eq_dash (c : Char) : (c.toLower = '-') ↔ (c = '-') := by
  constructor
  · intro h
    have h2 := congrArg Char.toNat h
    rw [toNat_toLower] at h2
    have hd : ('-' : Char).toNat = 45 := by decide
    rw [hd] at h2
    rw [charEq_iff, hd]
    split at h2 <;> omega
  · intro h
    rw [h]
    decide

theorem pred_toLower (c : Char) :
    (wch c.toLower || decide (c.toLower = '-')) = (wch c || decide (c = '-')) := by
  rw [wch_toLower]
  have : decide (c.toLower = '-') = decide (c = '-') := by
    rcases Decidable.em (c = '-') with h | h
    · rw [decide_eq_true h, decide_eq_true ((toLower_eq_dash c).mpr h)]
    · rw [decide_eq_false h, decide_eq_false (fun hh => h ((toLower_eq_dash c).mp hh))]
  rw [this]

theorem pyLower_cleanWord (x : List Char) :
    pyLower (cleanWord x) = (pyLower x).filter (fun c => wch c || c = '-') := by
  unfold cleanWord pyLower
  rw [List.filter_map]
  congr 1
  exact (List.filter_congr (fun a _ => pred_toLower a)).symm

theorem cleanLower_transport {x y : List Char} (h : pyLower x = pyLower y) :
    pyLower (cleanWord x) = pyLower (cleanWord y) := by
  rw [pyLower_cleanWord, pyLower_cleanWord, h]

theorem forti_transport {x y : List Char} (h : pyLower x = pyLower y) :
    lowersToForti (cleanWord x) = lowersToForti (cleanWord y) := by
  unfold lowersToForti
  have h2 := cleanLower_transport h
  have h3 : pyLower (cleanWord x) = pyLower (pyLower (cleanWord x)) :=
    (pyLower_pyLower _).symm
  rw [← pyLower_pyLower (cleanWord x), h2, pyLower_pyLower]

theorem capitalizeWord_idem (w : List Char) :
    capitalizeWord (capitalizeWord w) = capitalizeWord w := by
  by_cases h : 1 < w.length
  · cases w with
    | nil => simp at h
    | cons c t =>
      have h1 : capitalizeWord (c :: t) = Char.toUpper c :: pyLower t := by
        unfold capitalizeWord
        rw [if_pos h]
      rw [h1]
      have h2 : 1 < (Char.toUpper c :: pyLower t).length := by
        simpa [pyLower] using h
      unfold capitalizeWord
      rw [if_pos h2]
      show Char.toUpper (Char.toUpper c) :: pyLower (pyLower t) =
        Char.toUpper c :: pyLower t
      rw [toUpper_toUpper, pyLower_pyLower]
  · have h1 : capitalizeWord w = pyUpper w := by
      unfold capitalizeWord
      rw [if_neg h]
    rw [h1]
    have h2 : ¬ 1 < (pyUpper w).length := by
      simpa [pyUpper] using h
    unfold capitalizeWord
    rw [if_neg h2]
    exact pyUpper_pyUpper w

theorem capWord_of_forti {v : List Char}
    (h : lowersToForti (cleanWord v) = true) : capWord v = v := by
  unfold capWord
  rw [if_pos h]

theorem capWord_of_upper {v : List Char}
    (hf : ¬ lowersToForti (cleanWord v) = true)
    (hup : (pyIsUpper v && decide (1 < v.length)) = true) : capWord v = v := by
  unfold capWord
  rw [if_neg hf, if_pos hup]

theorem capWord_of_faqs {v : List Char}
    (hf : ¬ lowersToForti (cleanWord v) = true)
    (hup : ¬ (pyIsUpper v && decide (1 < v.length)) = true)
    (hfaqs : pyLower v = "faqs".data) : capWord v = "FAQs".data := by
  unfold capWord
  rw [if_neg hf, if_neg hup, if_pos hfaqs]

theorem capWord_of_vs {v : List Char}
    (hf : ¬ lowersToForti (cleanWord v) = true)
    (hup : ¬ (pyIsUpper v && decide (1 < v.length)) = true)
    (hfaqs : ¬ pyLower v = "faqs".data)
    (hvs : pyLower v = "vs".data) : capWord v = "Vs".data := by
  unfold capWord
  rw [if_neg hf, if_neg hup, if_neg hfaqs, if_pos hvs]

theorem capWord_of_cap {v : List Char}
    (hf : ¬ lowersToForti (cleanWord v) = true)
    (hup : ¬ (pyIsUpper v && decide (1 < v.length)) = true)
    (hfaqs : ¬ pyLower v = "faqs".data)
    (hvs : ¬ pyLower v = "vs".data) : capWord v = capitalizeWord v := by
  unfold capWord
  rw [if_neg hf, if_neg hup, if_neg hfaqs, if_neg hvs]

theorem capWord_idem (w : List Char) : capWord (capWord w) = capWord w := by
  by_cases hf : lowersToForti (cleanWord w) = true
  · rw [capWord_of_forti hf, capWord_of_forti hf]
  · by_cases hup : (pyIsUpper w && decide (1 < w.length)) = true
    · rw [capWord_of_upper hf hup, capWord_of_upper hf hup]
    · by_cases hfaqs : pyLower w = "faqs".data
      · rw [capWord_of_faqs hf hup hfaqs]
        decide
      · by_cases hvs : pyLower w = "vs".data
        · rw [capWord_of_vs hf hup hfaqs hvs]
          decide
        · rw [capWord_of_cap hf hup hfaqs hvs]
          have hlow : pyLower (capitalizeWord w) = pyLower w := capitalizeWord_lower w
          have hf2 : ¬ lowersToForti (cleanWord (capitalizeWord w)) = true := by
            rw [forti_transport hlow]
            exact hf
          by_cases hup2 : (pyIsUpper (capitalizeWord w) &&
              decide (1 < (capitalizeWord w).length)) = true
          · exact capWord_of_upper hf2 hup2
          · rw [capWord_of_cap hf2 hup2
              (by rw [hlow]; exact hfaqs) (by rw [hlow]; exact hvs)]
            exact capitalizeWord_idem w

theorem capWord_fix_cycle (w : List Char) :
    fixAcronymPluralsL (capWord (fixAcronymPluralsL (capWord w))) =
      fixAcronymPluralsL (capWord w) := by
  by_cases hFu : fixAcronymPluralsL (capWord w) = capWord w
  · rw [hFu, capWord_idem]
    exact hFu
  · by_cases hf : lowersToForti (cleanWord w) = true
    · have h1 : capWord w = w := capWord_of_forti hf
      have hforti : lowersToForti (cleanWord (fixAcronymPluralsL (capWord w))) = true := by
        rw [forti_transport (F_lower (capWord w)), h1]
        exact hf
      rw [capWord_of_forti hforti, F_idem]
    · by_cases hup : (pyIsUpper w && decide (1 < w.length)) = true
      · have h1 : capWord w = w := capWord_of_upper hf hup
        have hup1 : pyIsUpper w = true := by
          rw [Bool.and_eq_true] at hup
          exact hup.1
        exact absurd (by rw [h1]; exact F_upper_noop hup1) hFu
      · by_cases hfaqs : pyLower w = "faqs".data
        · exact absurd (by rw [capWord_of_faqs hf hup hfaqs]; decide) hFu
        · by_cases hvs : pyLower w = "vs".data
          · exact absurd (by rw [capWord_of_vs hf hup hfaqs hvs]; decide) hFu
          · have h1 : capWord w = capitalizeWord w := capWord_of_cap hf hup hfaqs hvs
            by_cases hwl : 1 < w.length
            · cases w with
              | nil => simp at hwl
              | cons w0 wt =>
                have hu2 : capWord (w0 :: wt) = Char.toUpper w0 :: pyLower wt := by
                  rw [h1]
                  unfold capitalizeWord
                  rw [if_pos hwl]
                have hlowu : pyLower (fixAcronymPluralsL (capWord (w0 :: wt))) =
                    pyLower (w0 :: wt) := by
                  rw [F_lower, h1, capitalizeWord_lower]
                have hfv : ¬ lowersToForti (cleanWord
                    (fixAcronymPluralsL (capWord (w0 :: wt)))) = true := by
                  rw [forti_transport hlowu]
                  exact hf
                by_cases hupv : (pyIsUpper (fixAcronymPluralsL (capWord (w0 :: wt))) &&
                    decide (1 < (fixAcronymPluralsL (capWord (w0 :: wt))).length)) = true
                · rw [capWord_of_upper hfv hupv, F_idem]
                · rw [capWord_of_cap hfv hupv
                    (by rw [hlowu]; exact hfaqs) (by rw [hlowu]; exact hvs)]
                  have hcap : capitalizeWord (fixAcronymPluralsL (capWord (w0 :: wt))) =
                      capWord (w0 :: wt) := by
                    have hlen : (fixAcronymPluralsL (capWord (w0 :: wt))).length =
                        (capWord (w0 :: wt)).length := F_length _
                    have hvlen : 1 < (fixAcronymPluralsL (capWord (w0 :: wt))).length := by
                      rw [hlen, hu2]
                      simpa [pyLower] using hwl
                    cases hv2 : fixAcronymPluralsL (capWord (w0 :: wt)) with
                    | nil =>
                      rw [hv2] at hvlen
                      simp at hvlen
                    | cons v0 vt =>
                      have hhead : (fixAcronymPluralsL (capWord (w0 :: wt))).head? =
                          (capWord (w0 :: wt)).head? := F_head _
                      rw [hv2, hu2] at hhead
                      have hv0 : v0 = Char.toUpper w0 := Option.some.inj hhead
                      have hlv := hlowu
                      rw [hv2] at hlv
                      have hu3 : pyLower (w0 :: wt) =
                          Char.toLower w0 :: pyLower wt := rfl
                      rw [hu3] at hlv
                      have hlv2 : Char.toLower v0 :: pyLower vt =
                          Char.toLower w0 :: pyLower wt := hlv
                      have htail : pyLower vt = pyLower wt := by
                        have h5 := (List.cons.injEq _ _ _ _).mp hlv2
                        exact h5.2
                      unfold capitalizeWord
                      rw [if_pos (by rw [← hv2]; exact hvlen)]
                      show Char.toUpper v0 :: pyLower vt = capWord (w0 :: wt)
                      rw [hv0, toUpper_toUpper, htail, hu2]
                  rw [hcap]
            · have hFu2 : fixAcronymPluralsL (capWord w) = capWord w := by
                apply F_short
                rw [h1]
                unfold capitalizeWord
                rw [if_neg hwl]
                simpa [pyUpper] using Nat.le_of_not_lt hwl
              exact absurd hFu2 hFu

theorem joinmap_cycle (ws : List (List Char)) :
    fixAcronymPluralsL (joinSpace
      (((ws.map capWord).map fixAcronymPluralsL).map capWord)) =
    fixAcronymPluralsL (joinSpace (ws.map capWord)) := by
  rw [fixAcronym_joinSpace, fixAcronym_joinSpace]
  refine congrArg joinSpace ?_
  simp only [List.map_map]
  refine List.map_congr_left ?_
  intro x hx
  simp only [Function.comp_apply]
  exact capWord_fix_cycle x

set_option maxHeartbeats 2000000 in
/-- C4 (amended): the capital-case transformer is idempotent: if it returns
    `(v, c)` on `t`, then on `c` it returns `(true, c)`.  (The title-case and
    sentence-case transformers are NOT idempotent, see `C4_counterexample`.) -/
theorem C4_capital_idempotent (t : String) (v : Bool) (c : String)
    (h : validate_capital_case t = (v, c)) :
    validate_capital_case c = (true, c) := by
  by_cases ht : t = ""
  · subst ht
    unfold validate_capital_case at h
    rw [if_pos rfl] at h
    have hc : c = "" := ((Prod.mk.injEq _ _ _ _).mp h).2.symm
    subst hc
    unfold validate_capital_case
    rw [if_pos rfl]
  · have h2 : (decide (t.data =
        fixAcronymPluralsL (joinSpace ((pySplitL t.data).map capWord))),
        String.mk (fixAcronymPluralsL (joinSpace ((pySplitL t.data).map capWord))))
        = (v, c) := by
      rw [← h]
      unfold validate_capital_case
      rw [if_neg ht]
    have hc : String.mk
        (fixAcronymPluralsL (joinSpace ((pySplitL t.data).map capWord))) = c :=
      ((Prod.mk.injEq _ _ _ _).mp h2).2
    cases hws : pySplitL t.data with
    | nil =>
      rw [hws] at hc
      have hnil : fixAcronymPluralsL (joinSpace (List.map capWord
          ([] : List (List Char)))) = [] := by decide
      rw [hnil] at hc
      rw [← hc]
      have hmk : String.mk [] = "" := by decide
      rw [hmk]
      unfold validate_capital_case
      rw [if_pos rfl]
    | cons w ws2 =>
      rw [hws] at hc
      have hgood : ∀ x ∈ (w :: ws2), x ≠ [] ∧ ∀ ch ∈ x, pyIsSpace ch = false := by
        rw [← hws]
        exact pySplit_words
      have hfixgood : ∀ x ∈ ((w :: ws2).map capWord).map fixAcronymPluralsL,
          x ≠ [] ∧ ∀ ch ∈ x, pyIsSpace ch = false :=
        goodWords_map_fix (capWords_good hgood)
      have hcdata0 : c.data =
          fixAcronymPluralsL (joinSpace ((w :: ws2).map capWord)) := by
        rw [← hc]
      have hcdata : c.data = joinSpace (((w :: ws2).map capWord).map
          fixAcronymPluralsL) := by
        rw [hcdata0, fixAcronym_joinSpace]
      have hne : joinSpace (((w :: ws2).map capWord).map fixAcronymPluralsL) ≠ [] := by
        simp only [List.map_cons]
        apply joinSpace_ne_nil
        obtain ⟨hw1, hw2⟩ := hgood w (by simp)
        exact fixAcronym_ne_nil (capWord_good hw1 hw2).1
      have hcne : ¬ c = "" := by
        intro hcc
        rw [hcc] at hcdata
        exact hne hcdata.symm
      have hsplit : pySplitL c.data = ((w :: ws2).map capWord).map
          fixAcronymPluralsL := by
        rw [hcdata]
        exact pySplit_joinSpace _ hfixgood
      have hkey := joinmap_cycle (w :: ws2)
      unfold validate_capital_case
      rw [if_neg hcne]
      show (decide (c.data = fixAcronymPluralsL (joinSpace
          ((pySplitL c.data).map capWord))),
        String.mk (fixAcronymPluralsL (joinSpace ((pySplitL c.data).map capWord))))
        = (true, c)
      rw [hsplit, hkey]
      rw [Prod.mk.injEq]
      constructor
      · rw [hcdata0]
        simp
      · exact hc

/-- C4 witness: `validate_capital_case "hello world" = (false, "Hello World")`
    and a second application returns `(true, "Hello World")`. -/
theorem C4_capital_idempotent_witness :
    validate_capital_case "Hello World" = (true, "Hello World") :=
  C4_capital_idempotent "hello world" false "Hello World" (by decide)

/-! ## C5: idempotence of the shorthand normalizer

The scan of `_normalize_fortinet_shorthands` is proved idempotent by a
step-by-step replay: a failed position still fails on the rescan (the
boundary-free letter prefix after it is copied verbatim by `subScan_runCopy`),
and a match is re-matched with the same groups, with `tokenMap` fixed on its
own output. -/

theorem lowersToForti_key {core k : List Char} (h : pyLower core = k) :
    lowersToForti core = "forti".data.isPrefixOf k := by
  unfold lowersToForti
  rw [h]

set_option maxHeartbeats 1000000 in
theorem shorthand_value_stable : ∀ p ∈ FORTINET_SHORTHANDS,
    "forti".data.isPrefixOf p.1.data = false →
    (lowersToForti p.2.data = false ∧
      (lookupShorthand (pyLower p.2.data) = some p.2.data ∨
       lookupShorthand (pyLower p.2.data) = none)) := by
  decide

theorem tokenMap_idem2 (core : List Char) : tokenMap (tokenMap core) = tokenMap core := by
  by_cases hf : lowersToForti core = true
  · have h1 : tokenMap core = core := by
      unfold tokenMap
      rw [if_pos hf]
    rw [h1, h1]
  · cases hlk : lookupShorthand (pyLower core) with
    | none =>
      have h1 : tokenMap core = core := by
        unfold tokenMap
        rw [if_neg hf, hlk]
      rw [h1, h1]
    | some v =>
      have h1 : tokenMap core = v := by
        unfold tokenMap
        rw [if_neg hf, hlk]
      rw [h1]
      obtain ⟨p, hp, hk, hv⟩ := lookup_entry hlk
      have hnf : "forti".data.isPrefixOf p.1.data = false := by
        rw [hk, ← lowersToForti_key rfl]
        simpa using hf
      obtain ⟨hfv, hlv⟩ := shorthand_value_stable p hp hnf
      rw [hv] at hfv hlv
      unfold tokenMap
      rw [if_neg (by simp [hfv])]
      rcases hlv with h2 | h2 <;> rw [h2]

set_option maxHeartbeats 1000000 in
theorem shorthand_value_lhch : ∀ p ∈ FORTINET_SHORTHANDS,
    p.1.data.all lhch = true →
    (p.2.data ≠ [] ∧ p.2.data.all lhch = true ∧
     p.1.data.head?.map Char.isAlpha = some true ∧
     p.1.data.getLast?.map Char.isAlpha = some true ∧
     p.2.data.head?.map Char.isAlpha = some true ∧
     p.2.data.getLast?.map Char.isAlpha = some true) := by
  decide

theorem wch_of_alpha {c : Char} (h : c.isAlpha = true) : wch c = true := by
  simp [wch, Char.isAlphanum, h]

theorem head?_append_left {a b : List Char} (h : a ≠ []) : (a ++ b).head? = a.head? := by
  cases a with
  | nil => exact absurd rfl h
  | cons x t => rfl

theorem getLast?_append_left {a b : List Char} (h : b ≠ []) :
    (a ++ b).getLast? = b.getLast? := by
  rw [List.getLast?_eq_head?_reverse, List.getLast?_eq_head?_reverse, List.reverse_append]
  exact head?_append_left (by simpa using h)

theorem pyLower_head (l : List Char) : (pyLower l).head? = l.head?.map Char.toLower := by
  unfold pyLower
  rw [List.head?_map]

theorem pyLower_getLast (l : List Char) :
    (pyLower l).getLast? = l.getLast?.map Char.toLower := by
  unfold pyLower
  rw [List.getLast?_eq_head?_reverse, ← List.map_reverse, List.head?_map,
    List.getLast?_eq_head?_reverse]

theorem tokenMap_facts {core : List Char} (hne : core ≠ []) (hl : ∀ c ∈ core, lhch c = true) :
    tokenMap core ≠ [] ∧ (∀ c ∈ tokenMap core, lhch c = true) ∧
    wchOpt (tokenMap core).head? = wchOpt core.head? ∧
    wchOpt (tokenMap core).getLast? = wchOpt core.getLast? ∧
    ((tokenMap core).head? = core.head? ∨
      ((tokenMap core).head?.map Char.isAlpha = some true ∧
       core.head?.map Char.isAlpha = some true)) := by
  by_cases hf : lowersToForti core = true
  · have h1 : tokenMap core = core := by
      unfold tokenMap
      rw [if_pos hf]
    rw [h1]
    exact ⟨hne, hl, rfl, rfl, Or.inl rfl⟩
  · cases hlk : lookupShorthand (pyLower core) with
    | none =>
      have h1 : tokenMap core = core := by
        unfold tokenMap
        rw [if_neg hf, hlk]
      rw [h1]
      exact ⟨hne, hl, rfl, rfl, Or.inl rfl⟩
    | some v =>
      have h1 : tokenMap core = v := by
        unfold tokenMap
        rw [if_neg hf, hlk]
      rw [h1]
      obtain ⟨p, hp, hk, hv⟩ := lookup_entry hlk
      have hkey : p.1.data.all lhch = true := by
        rw [hk]
        rw [List.all_eq_true]
        intro c hc
        obtain ⟨y, hy, rfl⟩ := List.mem_map.mp hc
        rw [lhch_toLower]
        exact hl y hy
      obtain ⟨hv1, hv2, hk3, hk4, hv5, hv6⟩ := shorthand_value_lhch p hp hkey
      rw [hv] at hv1 hv2 hv5 hv6
      rw [hk, pyLower_head] at hk3
      rw [hk, pyLower_getLast] at hk4
      obtain ⟨c0, hc0⟩ : ∃ c0, core.head? = some c0 := by
        cases core with
        | nil => exact absurd rfl hne
        | cons x t => exact ⟨x, rfl⟩
      rw [hc0] at hk3
      simp only [Option.map_some'] at hk3
      have hc0a : c0.isAlpha = true := by
        have := Option.some.inj hk3
        rwa [isAlpha_toLower] at this
      obtain ⟨cl, hcl⟩ : ∃ cl, core.getLast? = some cl := by
        cases hcg : core.getLast? with
        | none => exact absurd (List.getLast?_eq_none_iff.mp hcg) hne
        | some x => exact ⟨x, rfl⟩
      rw [hcl] at hk4
      simp only [Option.map_some'] at hk4
      have hcla : cl.isAlpha = true := by
        have := Option.some.inj hk4
        rwa [isAlpha_toLower] at this
      obtain ⟨v0, hv0⟩ : ∃ v0, v.head? = some v0 := by
        cases v with
        | nil => exact absurd rfl hv1
        | cons x t => exact ⟨x, rfl⟩
      obtain ⟨vl, hvl⟩ : ∃ vl, v.getLast? = some vl := by
        cases hvg : v.getLast? with
        | none => exact absurd (List.getLast?_eq_none_iff.mp hvg) hv1
        | some x => exact ⟨x, rfl⟩
      rw [hv0] at hv5
      rw [hvl] at hv6
      simp only [Option.map_some'] at hv5 hv6
      have hv0a : v0.isAlpha = true := Option.some.inj hv5
      have hvla : vl.isAlpha = true := Option.some.inj hv6
      refine ⟨hv1, ?_, ?_, ?_, ?_⟩
      · intro c hc
        exact List.all_eq_true.mp hv2 c hc
      · rw [hv0, hc0]
        show wch v0 = wch c0
        rw [wch_of_alpha hv0a, wch_of_alpha hc0a]
      · rw [hvl, hcl]
        show wch vl = wch cl
        rw [wch_of_alpha hvla, wch_of_alpha hcla]
      · right
        rw [hv0, hc0]
        simp only [Option.map_some']
        exact ⟨by rw [hv0a], by rw [hc0a]⟩

theorem findLen_none_iff {l : List Char} : ∀ {n : Nat},
    findLen l n = none ↔ ∀ j, 1 ≤ j → j ≤ n → bAtPos l j = false := by
  intro n
  induction n with
  | zero =>
    constructor
    · intro _ j h1 h2
      omega
    · intro _
      rfl
  | succ n ih =>
    constructor
    · intro h j h1 h2
      unfold findLen at h
      by_cases hb : bAtPos l (n + 1) = true
      · rw [if_pos hb] at h
        simp at h
      · rw [if_neg hb] at h
        rcases Nat.lt_or_ge j (n + 1) with hj | hj
        · exact ih.mp h j h1 (by omega)
        · have : j = n + 1 := by omega
          rw [this]
          simpa using hb
    · intro h
      unfold findLen
      rw [if_neg (by simpa using h (n + 1) (by omega) le_rfl)]
      exact ih.mpr (fun j h1 h2 => h j h1 (by omega))

theorem findLen_some_facts {l : List Char} : ∀ {n m : Nat}, findLen l n = some m →
    1 ≤ m ∧ m ≤ n ∧ bAtPos l m = true ∧ ∀ j, m < j → j ≤ n → bAtPos l j = false := by
  intro n
  induction n with
  | zero => intro m h; exact absurd h (by simp [findLen])
  | succ n ih =>
    intro m h
    unfold findLen at h
    by_cases hb : bAtPos l (n + 1) = true
    · rw [if_pos hb] at h
      obtain rfl := Option.some.inj h
      exact ⟨by omega, le_rfl, hb, fun j h1 h2 => by omega⟩
    · rw [if_neg hb] at h
      obtain ⟨h1, h2, h3, h4⟩ := ih h
      refine ⟨h1, by omega, h3, fun j hj1 hj2 => ?_⟩
      rcases Nat.lt_or_ge j (n + 1) with hj | hj
      · exact h4 j hj1 (by omega)
      · have : j = n + 1 := by omega
        rw [this]
        simpa using hb

theorem findLen_intro {l : List Char} : ∀ {n m : Nat}, 1 ≤ m → m ≤ n →
    bAtPos l m = true → (∀ j, m < j → j ≤ n → bAtPos l j = false) →
    findLen l n = some m := by
  intro n
  induction n with
  | zero => intro m h1 h2; omega
  | succ n ih =>
    intro m h1 h2 h3 h4
    unfold findLen
    rcases Nat.lt_or_ge m (n + 1) with hm | hm
    · rw [if_neg (by simpa using h4 (n + 1) (by omega) le_rfl)]
      exact ih h1 (by omega) h3 (fun j hj1 hj2 => h4 j hj1 (by omega))
    · have : m = n + 1 := by omega
      subst this
      rw [if_pos h3]

theorem get?_cons_succ {c : Char} {t : List Char} (j : Nat) :
    (c :: t).get? (j + 1) = t.get? j := rfl

theorem bAtPos_cons {c : Char} {t : List Char} {j : Nat} (hj : 1 ≤ j) :
    bAtPos (c :: t) (j + 1) = bAtPos t j := by
  unfold bAtPos
  obtain ⟨i, rfl⟩ : ∃ i, j = i + 1 := ⟨j - 1, by omega⟩
  rfl

theorem bAtPos_append {a b : List Char} {j : Nat} (hj : 1 ≤ j) :
    bAtPos (a ++ b) (a.length + j) = bAtPos b j := by
  unfold bAtPos
  have h1 : (a ++ b).get? (a.length + j - 1) = b.get? (j - 1) := by
    rw [List.get?_append_right (by omega)]
    congr 1
    omega
  have h2 : (a ++ b).get? (a.length + j) = b.get? j := by
    rw [List.get?_append_right (by omega)]
    congr 1
    omega
  rw [h1, h2]

theorem get?_last {a : List Char} (h : a ≠ []) : a.get? (a.length - 1) = a.getLast? := by
  induction a with
  | nil => exact absurd rfl h
  | cons x t ih =>
    cases t with
    | nil => rfl
    | cons y s =>
      have h2 := ih (by simp)
      simp only [List.length_cons] at h2 ⊢
      have h3 : (x :: y :: s).get? (s.length + 1 + 1 - 1) = (y :: s).get? (s.length + 1 - 1) := by
        show (x :: y :: s).get? (s.length + 1) = (y :: s).get? s.length
        rfl
      rw [h3, h2]
      rw [List.getLast?_cons_cons]

theorem bAtPos_append_at {a b : List Char} (h : a ≠ []) :
    bAtPos (a ++ b) a.length = (wchOpt a.getLast? != wchOpt b.head?) := by
  unfold bAtPos
  have h1 : (a ++ b).get? (a.length - 1) = a.getLast? := by
    rw [List.get?_append (by have := List.length_pos.mpr h; omega)]
    exact get?_last h
  have h2 : (a ++ b).get? a.length = b.head? := by
    rw [List.get?_append_right le_rfl]
    simp only [Nat.sub_self]
    cases b with
    | nil => rfl
    | cons x t => rfl
  rw [h1, h2]

theorem takeWhile_append_all {p : Char → Bool} {a b : List Char}
    (h : ∀ c ∈ a, p c = true) : (a ++ b).takeWhile p = a ++ b.takeWhile p := by
  induction a with
  | nil => rfl
  | cons x t ih =>
    simp only [List.cons_append, List.takeWhile]
    rw [h x (by simp)]
    simp only [List.cons.injEq, true_and]
    exact ih (fun c hc => h c (by simp [hc]))

theorem takeWhile_nil_of_head {p : Char → Bool} {b : List Char} {d : Char}
    (hd : b.head? = some d) (hp : p d = false) : b.takeWhile p = [] := by
  cases b with
  | nil => simp at hd
  | cons x t =>
    obtain rfl := Option.some.inj hd
    simp only [List.takeWhile]
    rw [hp]

theorem g3At_inv {r g rest : List Char} (h : g3At r = (g, rest)) :
    r = g ++ rest ∧
    (g = [')', '?'] ∨
     (g = [')'] ∧ ∀ c, rest.head? = some c → c ≠ '?') ∨
     g = ['?'] ∨
     (g = [] ∧ ∀ c, rest.head? = some c → c ≠ ')' ∧ c ≠ '?')) := by
  unfold g3At at h
  split at h
  · obtain ⟨h1, h2⟩ := (Prod.mk.injEq _ _ _ _).mp h
    subst h1
    subst h2
    exact ⟨rfl, Or.inl rfl⟩
  · rename_i t hnq
    obtain ⟨h1, h2⟩ := (Prod.mk.injEq _ _ _ _).mp h
    subst h1
    subst h2
    refine ⟨rfl, Or.inr (Or.inl ⟨rfl, ?_⟩)⟩
    intro c hc hq
    subst hq
    cases t with
    | nil => simp at hc
    | cons a t2 =>
      have := Option.some.inj hc
      exact hnq t2 (by rw [← this])
  · obtain ⟨h1, h2⟩ := (Prod.mk.injEq _ _ _ _).mp h
    subst h1
    subst h2
    exact ⟨rfl, Or.inr (Or.inr (Or.inl rfl))⟩
  · rename_i hn1 hn2 hn3
    obtain ⟨h1, h2⟩ := (Prod.mk.injEq _ _ _ _).mp h
    subst h1
    subst h2
    refine ⟨(List.nil_append _).symm, Or.inr (Or.inr (Or.inr ⟨rfl, ?_⟩))⟩
    intro c hc
    cases hr : r with
    | nil => rw [hr] at hc; simp at hc
    | cons a t =>
      rw [hr] at hc
      have hca := Option.some.inj hc
      subst hca
      constructor
      · intro hcp
        subst hcp
        cases t with
        | nil => exact hn2 [] (by rw [hr])
        | cons b t2 =>
          by_cases hb : b = '?'
          · subst hb
            exact hn1 t2 (by rw [hr])
          · exact hn2 (b :: t2) (by rw [hr])
      · intro hcq
        subst hcq
        exact hn3 t (by rw [hr])

theorem g3At_rp_qm (t : List Char) : g3At (')' :: '?' :: t) = ([')', '?'], t) := rfl

theorem g3At_qm (t : List Char) : g3At ('?' :: t) = (['?'], t) := rfl

theorem g3At_rp {t : List Char} (h : ∀ c, t.head? = some c → c ≠ '?') :
    g3At (')' :: t) = ([')'], t) := by
  cases t with
  | nil => rfl
  | cons a t2 =>
    have ha : a ≠ '?' := h a rfl
    unfold g3At
    split
    · rename_i t3 heq
      have := (List.cons.injEq _ _ _ _).mp heq
      have h2 := (List.cons.injEq _ _ _ _).mp this.2
      exact absurd h2.1 ha
    · rename_i t3 heq
      have := (List.cons.injEq _ _ _ _).mp heq
      rw [this.2]
    · rename_i t3 heq
      have := (List.cons.injEq _ _ _ _).mp heq
      exact absurd this.1 (by decide)
    · rename_i h1 h2 h3
      exact absurd rfl (h2 (a :: t2))

theorem g3At_none {r : List Char} (h : ∀ c, r.head? = some c → c ≠ ')' ∧ c ≠ '?') :
    g3At r = ([], r) := by
  cases r with
  | nil => rfl
  | cons a t =>
    have ha := h a rfl
    unfold g3At
    split
    · rename_i t3 heq
      have := (List.cons.injEq _ _ _ _).mp heq
      exact absurd this.1 ha.1
    · rename_i t3 heq
      have := (List.cons.injEq _ _ _ _).mp heq
      exact absurd this.1 ha.1
    · rename_i t3 heq
      have := (List.cons.injEq _ _ _ _).mp heq
      exact absurd this.1 ha.2
    · rfl

theorem g3At_rebuild {r g rest rest' : List Char} (h : g3At r = (g, rest))
    (hhead : rest'.head? = rest.head? ∨
      (∃ d, rest'.head? = some d ∧ d.isAlpha = true)) :
    g3At (g ++ rest') = (g, rest') := by
  obtain ⟨hr, hcases⟩ := g3At_inv h
  rcases hcases with h1 | ⟨h1, h2⟩ | h1 | ⟨h1, h2⟩
  · subst h1
    show g3At (')' :: '?' :: rest') = ([')', '?'], rest')
    exact g3At_rp_qm rest'
  · subst h1
    show g3At (')' :: rest') = ([')'], rest')
    apply g3At_rp
    intro c hc hq
    subst hq
    rcases hhead with hh | ⟨d, hd, hda⟩
    · rw [hc] at hh
      exact h2 '?' hh.symm rfl
    · rw [hc] at hd
      have := Option.some.inj hd
      rw [← this] at hda
      exact absurd hda (by decide)
  · subst h1
    show g3At ('?' :: rest') = (['?'], rest')
    exact g3At_qm rest'
  · subst h1
    show g3At ([] ++ rest') = ([], [] ++ rest')
    rw [List.nil_append]
    apply g3At_none
    intro c hc
    rcases hhead with hh | ⟨d, hd, hda⟩
    · rw [hc] at hh
      exact h2 c hh.symm
    · rw [hc] at hd
      have := Option.some.inj hd
      subst this
      exact ⟨by intro h3; rw [h3] at hda; exact absurd hda (by decide),
             by intro h3; rw [h3] at hda; exact absurd hda (by decide)⟩

theorem coreAt_inv {pw : Bool} {l c r : List Char} (h : coreAt pw l = some (c, r)) :
    bAt pw l = true ∧ ∃ n, findLen l (l.takeWhile lhch).length = some n ∧
      c = l.take n ∧ r = l.drop n := by
  unfold coreAt at h
  by_cases hb : bAt pw l = true
  · rw [if_pos hb] at h
    cases hfl : findLen l (l.takeWhile lhch).length with
    | none => rw [hfl] at h; simp at h
    | some n =>
      rw [hfl] at h
      dsimp only at h
      obtain ⟨h1, h2⟩ := (Prod.mk.injEq _ _ _ _).mp (Option.some.inj h)
      exact ⟨hb, n, rfl, h1.symm, h2.symm⟩
  · rw [if_neg hb] at h
    simp at h

theorem coreAt_none_inv {pw : Bool} {l : List Char} (h : coreAt pw l = none) :
    bAt pw l = false ∨ findLen l (l.takeWhile lhch).length = none := by
  unfold coreAt at h
  by_cases hb : bAt pw l = true
  · rw [if_pos hb] at h
    cases hfl : findLen l (l.takeWhile lhch).length with
    | none => exact Or.inr rfl
    | some n => rw [hfl] at h; simp at h
  · exact Or.inl (by simpa using hb)

theorem coreAt_facts {pw : Bool} {x c r : List Char} (h : coreAt pw x = some (c, r)) :
    x = c ++ r ∧ c ≠ [] ∧ (∀ ch ∈ c, lhch ch = true) ∧ bAt pw x = true ∧
    bAtPos x c.length = true ∧ c.length ≤ (x.takeWhile lhch).length ∧
    (∀ j, c.length < j → j ≤ (x.takeWhile lhch).length → bAtPos x j = false) := by
  obtain ⟨hb, n, hfl, hc, hr⟩ := coreAt_inv h
  obtain ⟨hn1, hn2, hn3, hn4⟩ := findLen_some_facts hfl
  have hbd : (x.takeWhile lhch).length ≤ x.length := (List.takeWhile_prefix lhch).length_le
  have hlen : c.length = n := by
    rw [hc, List.length_take]
    omega
  refine ⟨?_, ?_, ?_, hb, ?_, ?_, ?_⟩
  · rw [hc, hr, List.take_append_drop]
  · rw [hc]
    intro hnil
    have hns := congrArg List.length hnil
    rw [List.length_take] at hns
    simp only [List.length_nil] at hns
    omega
  · intro ch hch
    rw [hc] at hch
    have hx : x.take n = (x.takeWhile lhch).take n := by
      conv_lhs => rw [← List.takeWhile_append_dropWhile (p := lhch) (l := x)]
      rw [List.take_append_eq_append_take]
      rw [Nat.sub_eq_zero_of_le hn2, List.take_zero, List.append_nil]
    rw [hx] at hch
    exact List.mem_takeWhile_imp (List.mem_of_mem_take hch)
  · rw [hlen]
    exact hn3
  · omega
  · intro j hj1 hj2
    rw [hlen] at hj1
    exact hn4 j hj1 hj2

theorem coreAt_rebuild {pw : Bool} {y z : List Char}
    (hyne : y ≠ []) (hylh : ∀ c ∈ y, lhch c = true)
    (hbAt : (pw != wchOpt y.head?) = true)
    (hend : bAtPos (y ++ z) y.length = true)
    (hmax : ∀ j, y.length < j → j ≤ y.length + (z.takeWhile lhch).length →
      bAtPos (y ++ z) j = false) :
    coreAt pw (y ++ z) = some (y, z) := by
  have hbound : ((y ++ z).takeWhile lhch).length = y.length + (z.takeWhile lhch).length := by
    rw [takeWhile_append_all hylh, List.length_append]
  unfold coreAt
  rw [if_pos (by unfold bAt; rw [head?_append_left hyne]; exact hbAt)]
  rw [hbound]
  rw [findLen_intro (by have := List.length_pos.mpr hyne; omega) (by omega) hend hmax]
  dsimp only
  rw [List.take_left, List.drop_left]

theorem matchAt_inv {pw : Bool} {l : List Char} {m : TokenMatch} (h : matchAt pw l = some m) :
    g3At (m.g3 ++ m.rest) = (m.g3, m.rest) ∧
    ((∃ t, l = '(' :: t ∧ m.g1 = ['('] ∧ coreAt false t = some (m.core, m.g3 ++ m.rest)) ∨
     (m.g1 = [] ∧ (∀ c, l.head? = some c → c ≠ '(') ∧
       coreAt pw l = some (m.core, m.g3 ++ m.rest))) := by
  unfold matchAt at h
  split at h
  · rename_i t
    cases hc : coreAt false t with
    | none => rw [hc] at h; simp at h
    | some p =>
      obtain ⟨core, r⟩ := p
      rw [hc] at h
      dsimp only at h
      obtain ⟨⟨g3v, restv⟩, hg⟩ : ∃ p, g3At r = p := ⟨_, rfl⟩
      rw [hg] at h
      obtain rfl := (Option.some.inj h)
      obtain ⟨hr, _⟩ := g3At_inv hg
      constructor
      · show g3At (g3v ++ restv) = (g3v, restv)
        rw [← hr]
        exact hg
      · refine Or.inl ⟨t, rfl, rfl, ?_⟩
        rw [hc]
        show some (core, r) = some (core, g3v ++ restv)
        rw [hr]
  · rename_i hnp
    cases hc : coreAt pw l with
    | none => rw [hc] at h; simp at h
    | some p =>
      obtain ⟨core, r⟩ := p
      rw [hc] at h
      dsimp only at h
      obtain ⟨⟨g3v, restv⟩, hg⟩ : ∃ p, g3At r = p := ⟨_, rfl⟩
      rw [hg] at h
      obtain rfl := (Option.some.inj h)
      obtain ⟨hr, _⟩ := g3At_inv hg
      constructor
      · show g3At (g3v ++ restv) = (g3v, restv)
        rw [← hr]
        exact hg
      · refine Or.inr ⟨rfl, ?_, by show some (core, r) = some (core, g3v ++ restv); rw [hr]⟩
        intro c hcc hcp
        subst hcp
        cases l with
        | nil => simp at hcc
        | cons a t =>
          have := Option.some.inj hcc
          exact hnp t (by rw [this])

theorem matchAt_lparen_some {pw : Bool} {t core r : List Char}
    (hc : coreAt false t = some (core, r)) :
    matchAt pw ('(' :: t) = some ⟨['('], core, (g3At r).1, (g3At r).2⟩ := by
  unfold matchAt
  split
  · rename_i l2 t2 heq
    obtain ⟨-, ht⟩ := (List.cons.injEq _ _ _ _).mp heq
    rw [← ht, hc]
  · rename_i l2 hnp
    exact absurd rfl (hnp t)

theorem matchAt_lparen_none {pw : Bool} {t : List Char} (hc : coreAt false t = none) :
    matchAt pw ('(' :: t) = none := by
  unfold matchAt
  split
  · rename_i l2 t2 heq
    obtain ⟨-, ht⟩ := (List.cons.injEq _ _ _ _).mp heq
    rw [← ht, hc]
  · rename_i l2 hnp
    exact absurd rfl (hnp t)

theorem matchAt_plain_some {pw : Bool} {l core r : List Char}
    (hne : ∀ c, l.head? = some c → c ≠ '(')
    (hc : coreAt pw l = some (core, r)) :
    matchAt pw l = some ⟨[], core, (g3At r).1, (g3At r).2⟩ := by
  unfold matchAt
  split
  · rename_i t2
    exact absurd rfl (hne '(' rfl)
  · rw [hc]

theorem matchAt_plain_none {pw : Bool} {l : List Char}
    (hne : ∀ c, l.head? = some c → c ≠ '(')
    (hc : coreAt pw l = none) :
    matchAt pw l = none := by
  unfold matchAt
  split
  · rename_i t2
    exact absurd rfl (hne '(' rfl)
  · rw [hc]

theorem subScanF_nil : ∀ (f : Nat) (pw : Bool), subScanF f pw [] = [] := by
  intro f pw
  cases f <;> rfl

theorem subScanF_match {f : Nat} {pw : Bool} {c : Char} {t : List Char} {m : TokenMatch}
    (hm : matchAt pw (c :: t) = some m) :
    subScanF (f + 1) pw (c :: t) = replTok m ++ subScanF f (spanEndW m) m.rest := by
  simp only [subScanF]
  rw [hm]

theorem subScanF_nomatch {f : Nat} {pw : Bool} {c : Char} {t : List Char}
    (hm : matchAt pw (c :: t) = none) :
    subScanF (f + 1) pw (c :: t) = c :: subScanF f (wch c) t := by
  simp only [subScanF]
  rw [hm]

theorem matchAt_decomp {pw : Bool} {l : List Char} {m : TokenMatch}
    (h : matchAt pw l = some m) :
    l = m.g1 ++ (m.core ++ (m.g3 ++ m.rest)) ∧ m.core ≠ [] ∧
      ∀ c ∈ m.core, lhch c = true := by
  obtain ⟨hg3, hcases⟩ := matchAt_inv h
  rcases hcases with ⟨t, hl, hg1, hcore⟩ | ⟨hg1, hne, hcore⟩
  · obtain ⟨hdec, hne2, hlh, _⟩ := coreAt_facts hcore
    refine ⟨?_, hne2, hlh⟩
    rw [hl, hg1, hdec]
    rfl
  · obtain ⟨hdec, hne2, hlh, _⟩ := coreAt_facts hcore
    refine ⟨?_, hne2, hlh⟩
    rw [hg1, hdec]
    rfl

theorem matchAt_rest_len {pw : Bool} {l : List Char} {m : TokenMatch}
    (h : matchAt pw l = some m) : m.rest.length < l.length := by
  obtain ⟨hdec, hne, _⟩ := matchAt_decomp h
  have h1 := congrArg List.length hdec
  simp only [List.length_append] at h1
  have h2 : 0 < m.core.length := List.length_pos.mpr hne
  omega

theorem subScanF_fuel : ∀ (n : Nat) (l : List Char) (f f' : Nat) (pw : Bool),
    l.length ≤ n → l.length ≤ f → l.length ≤ f' →
    subScanF f pw l = subScanF f' pw l := by
  intro n
  induction n with
  | zero =>
    intro l f f' pw hn _ _
    have : l = [] := List.length_eq_zero.mp (by omega)
    subst this
    rw [subScanF_nil, subScanF_nil]
  | succ n ih =>
    intro l f f' pw hn hf hf'
    cases l with
    | nil => rw [subScanF_nil, subScanF_nil]
    | cons c t =>
      have hlen : (c :: t).length = t.length + 1 := by simp
      obtain ⟨fa, rfl⟩ : ∃ fa, f = fa + 1 := ⟨f - 1, by omega⟩
      obtain ⟨fb, rfl⟩ : ∃ fb, f' = fb + 1 := ⟨f' - 1, by omega⟩
      cases hm : matchAt pw (c :: t) with
      | some m =>
        rw [subScanF_match hm, subScanF_match hm]
        have hr := matchAt_rest_len hm
        rw [hlen] at hr
        exact congrArg _ (ih m.rest fa fb (spanEndW m) (by omega) (by omega) (by omega))
      | none =>
        rw [subScanF_nomatch hm, subScanF_nomatch hm]
        exact congrArg _ (ih t fa fb (wch c) (by omega) (by omega) (by omega))

theorem subScanF_eq_subScan {f : Nat} {pw : Bool} {l : List Char} (hf : l.length ≤ f) :
    subScanF f pw l = subScan pw l :=
  subScanF_fuel l.length l f l.length pw le_rfl hf le_rfl

theorem replTok_head_lparen {m : TokenMatch} (h : m.g1 = ['(']) {z : List Char} :
    (replTok m ++ z).head? = some '(' := by
  unfold replTok
  rw [h]
  rfl

theorem replTok_head_plain {m : TokenMatch} (h : m.g1 = []) {z : List Char}
    (hne : tokenMap m.core ≠ []) :
    (replTok m ++ z).head? = (tokenMap m.core).head? := by
  unfold replTok
  rw [h, List.nil_append, List.append_assoc]
  exact head?_append_left hne

theorem subScan_head : ∀ (pw : Bool) (l : List Char),
    (subScan pw l).head? = l.head? ∨
    ((subScan pw l).head?.map Char.isAlpha = some true ∧
     l.head?.map Char.isAlpha = some true) := by
  intro pw l
  cases l with
  | nil => left; rfl
  | cons c t =>
    rw [show subScan pw (c :: t) = subScanF (t.length + 1) pw (c :: t) from rfl]
    cases hm : matchAt pw (c :: t) with
    | none =>
      rw [subScanF_nomatch hm]
      left
      rfl
    | some m =>
      rw [subScanF_match hm]
      obtain ⟨hg3, hcases⟩ := matchAt_inv hm
      rcases hcases with ⟨t2, hl, hg1, hcore⟩ | ⟨hg1, hne, hcore⟩
      · left
        rw [replTok_head_lparen hg1]
        rw [hl]
        rfl
      · obtain ⟨hdec, hne2, hlh, _⟩ := coreAt_facts hcore
        obtain ⟨htne, htlh, hth, htl, hdisj⟩ := tokenMap_facts hne2 hlh
        have hhead : (c :: t).head? = m.core.head? := by
          have h9 : (c :: t) = m.core ++ (m.g3 ++ m.rest) := hdec
          rw [h9]
          exact head?_append_left hne2
        rcases hdisj with hd | ⟨hd1, hd2⟩
        · left
          rw [replTok_head_plain hg1 htne, hd, hhead]
        · right
          rw [replTok_head_plain hg1 htne, hhead]
          exact ⟨hd1, hd2⟩

theorem lhch_lparen : lhch '(' = false := by decide

theorem coreAt_none_of_findLen {pw : Bool} {l : List Char}
    (h : findLen l (l.takeWhile lhch).length = none) : coreAt pw l = none := by
  unfold coreAt
  by_cases hb : bAt pw l = true
  · rw [if_pos hb, h]
  · rw [if_neg hb]

theorem subScan_runCopy : ∀ (k : Nat) (l : List Char) (pw : Bool),
    k = (l.takeWhile lhch).length →
    (∀ j, 1 ≤ j → j ≤ k → bAtPos l j = false) →
    subScan pw l = l.take k ++
      subScan (if k = 0 then pw else wchOpt (l.get? (k - 1))) (l.drop k) := by
  intro k
  induction k with
  | zero =>
    intro l pw _ _
    simp
  | succ k ih =>
    intro l pw hk hnb
    cases l with
    | nil => simp at hk
    | cons c t =>
      cases hc : lhch c with
      | false =>
        simp [List.takeWhile_cons, hc] at hk
      | true =>
        have hk3 : (List.takeWhile lhch (c :: t)).length =
            (List.takeWhile lhch t).length + 1 := by
          simp [List.takeWhile_cons, hc]
        have hk2 : k = (t.takeWhile lhch).length := by omega
        have hcp : c ≠ '(' := by
          intro hcc
          rw [hcc, lhch_lparen] at hc
          simp at hc
        have hm : matchAt pw (c :: t) = none := by
          apply matchAt_plain_none
          · intro d hd hdp
            have := Option.some.inj hd
            rw [← this] at hdp
            exact hcp hdp
          · apply coreAt_none_of_findLen
            apply findLen_none_iff.mpr
            intro j h1 h2
            apply hnb j h1
            omega
        show subScanF (t.length + 1) pw (c :: t) = _
        rw [subScanF_nomatch hm]
        have ih2 := ih t (wch c) hk2 (by
          intro j h1 h2
          rw [← bAtPos_cons h1]
          exact hnb (j + 1) (by omega) (by omega))
        rw [show subScanF t.length (wch c) t = subScan (wch c) t from rfl, ih2]
        rw [List.take_succ_cons, List.drop_succ_cons]
        simp only [List.cons_append, List.cons.injEq, true_and]
        congr 1
        cases k with
        | zero => rfl
        | succ k2 =>
          simp only [Nat.succ_ne_zero, if_false]
          rfl

theorem lhch_of_alpha {c : Char} (h : c.isAlpha = true) : lhch c = true := by
  simp [lhch, h]

theorem head?_dropWhile {p : Char → Bool} {l : List Char} {d : Char}
    (h : (l.dropWhile p).head? = some d) : p d = false := by
  induction l with
  | nil => simp at h
  | cons c t ih =>
    rw [List.dropWhile_cons] at h
    by_cases hc : p c = true
    · rw [if_pos hc] at h
      exact ih h
    · rw [if_neg hc] at h
      have := Option.some.inj h
      rw [← this]
      simpa using hc

theorem get?_append_length {a b : List Char} : (a ++ b).get? a.length = b.head? := by
  rw [List.get?_append_right le_rfl]
  simp only [Nat.sub_self]
  cases b with
  | nil => rfl
  | cons x t => rfl

theorem scan_head_nonlhch {z : List Char} (pw : Bool)
    (hz : ∀ d, z.head? = some d → lhch d = false) :
    (subScan pw z).head? = z.head? := by
  rcases subScan_head pw z with h | ⟨h1, h2⟩
  · exact h
  · cases hz2 : z.head? with
    | none => rw [hz2] at h2; simp at h2
    | some e =>
      rw [hz2] at h2
      simp only [Option.map_some'] at h2
      have he : e.isAlpha = true := Option.some.inj h2
      have h4 := hz e hz2
      rw [lhch_of_alpha he] at h4
      simp at h4

theorem take_takeWhile {p : Char → Bool} {l : List Char} :
    l.take ((l.takeWhile p).length) = l.takeWhile p := by
  obtain ⟨P, D, hPD, hP⟩ : ∃ P D, l = P ++ D ∧ P = l.takeWhile p :=
    ⟨_, _, (List.takeWhile_append_dropWhile (p := p) (l := l)).symm, rfl⟩
  rw [← hP]
  conv_lhs => rw [hPD]
  exact List.take_left _ _

theorem drop_takeWhile {p : Char → Bool} {l : List Char} :
    l.drop ((l.takeWhile p).length) = l.dropWhile p := by
  obtain ⟨P, D, hPD, hP, hD⟩ : ∃ P D, l = P ++ D ∧ P = l.takeWhile p ∧ D = l.dropWhile p :=
    ⟨_, _, (List.takeWhile_append_dropWhile (p := p) (l := l)).symm, rfl, rfl⟩
  rw [← hP, ← hD]
  conv_lhs => rw [hPD]
  exact List.drop_left _ _

theorem get?_takeWhile_lt {p : Char → Bool} {l : List Char} {j : Nat}
    (hj : j < (l.takeWhile p).length) : l.get? j = (l.takeWhile p).get? j := by
  obtain ⟨P, D, hPD, hP⟩ : ∃ P D, l = P ++ D ∧ P = l.takeWhile p :=
    ⟨_, _, (List.takeWhile_append_dropWhile (p := p) (l := l)).symm, rfl⟩
  rw [← hP] at hj ⊢
  conv_lhs => rw [hPD]
  exact List.get?_append hj

theorem get?_takeWhile_at {p : Char → Bool} {l : List Char} :
    l.get? ((l.takeWhile p).length) = (l.dropWhile p).head? := by
  obtain ⟨P, D, hPD, hP, hD⟩ : ∃ P D, l = P ++ D ∧ P = l.takeWhile p ∧ D = l.dropWhile p :=
    ⟨_, _, (List.takeWhile_append_dropWhile (p := p) (l := l)).symm, rfl, rfl⟩
  rw [← hP, ← hD]
  conv_lhs => rw [hPD]
  exact get?_append_length

theorem get?_append_length2 {a b : List Char} : (a ++ b).get? a.length = b.head? :=
  get?_append_length

theorem scan_prefix_stable {t : List Char} (pw2 : Bool)
    (hnb : ∀ j, 1 ≤ j → j ≤ (t.takeWhile lhch).length → bAtPos t j = false) :
    (∀ j, j ≤ (t.takeWhile lhch).length → (subScan pw2 t).get? j = t.get? j) ∧
    (subScan pw2 t).takeWhile lhch = t.takeWhile lhch := by
  have hrc := subScan_runCopy ((t.takeWhile lhch).length) t pw2 rfl hnb
  rw [take_takeWhile, drop_takeWhile] at hrc
  have hdw : ∀ d, (t.dropWhile lhch).head? = some d → lhch d = false :=
    fun d hd => head?_dropWhile hd
  have hhead2 : (subScan (if (t.takeWhile lhch).length = 0 then pw2
      else wchOpt (t.get? ((t.takeWhile lhch).length - 1))) (t.dropWhile lhch)).head? =
      (t.dropWhile lhch).head? := scan_head_nonlhch _ hdw
  have htw0 : (subScan (if (t.takeWhile lhch).length = 0 then pw2
      else wchOpt (t.get? ((t.takeWhile lhch).length - 1)))
      (t.dropWhile lhch)).takeWhile lhch = [] := by
    cases hh : (subScan (if (t.takeWhile lhch).length = 0 then pw2
        else wchOpt (t.get? ((t.takeWhile lhch).length - 1)))
        (t.dropWhile lhch)).head? with
    | none =>
      have h0 : (subScan _ (t.dropWhile lhch)) = [] := List.head?_eq_none_iff.mp hh
      rw [h0]
      rfl
    | some d =>
      apply takeWhile_nil_of_head hh
      rw [hhead2] at hh
      exact hdw d hh
  constructor
  · intro j hj
    rw [hrc]
    rcases Nat.lt_or_ge j (t.takeWhile lhch).length with hlt | hge
    · rw [List.get?_append hlt]
      exact (get?_takeWhile_lt hlt).symm
    · have hje : j = (t.takeWhile lhch).length := by omega
      subst hje
      rw [get?_append_length2, hhead2]
      exact get?_takeWhile_at.symm
  · rw [hrc]
    rw [takeWhile_append_all (fun c hc => List.mem_takeWhile_imp hc)]
    rw [htw0, List.append_nil]

theorem get?_zero {l : List Char} : l.get? 0 = l.head? := by
  cases l <;> rfl

theorem scan_bAtPos_stable {t : List Char} (pw2 : Bool)
    (hnb : ∀ j, 1 ≤ j → j ≤ (t.takeWhile lhch).length → bAtPos t j = false) :
    ∀ j, 1 ≤ j → j ≤ (t.takeWhile lhch).length →
      bAtPos (subScan pw2 t) j = bAtPos t j := by
  intro j h1 h2
  obtain ⟨hget, _⟩ := scan_prefix_stable pw2 hnb
  unfold bAtPos
  rw [hget (j - 1) (by omega), hget j h2]

theorem scan_head_stable {t : List Char} (pw2 : Bool)
    (hnb : ∀ j, 1 ≤ j → j ≤ (t.takeWhile lhch).length → bAtPos t j = false) :
    (subScan pw2 t).head? = t.head? := by
  obtain ⟨hget, _⟩ := scan_prefix_stable pw2 hnb
  have h0 := hget 0 (by omega)
  rwa [get?_zero, get?_zero] at h0

theorem coreAt_none_of_bAt {pw : Bool} {l : List Char} (h : bAt pw l = false) :
    coreAt pw l = none := by
  unfold coreAt
  rw [if_neg (by simp [h])]

theorem matchAt_none_stable {pw : Bool} {c : Char} {t : List Char}
    (hm : matchAt pw (c :: t) = none) :
    matchAt pw (c :: subScan (wch c) t) = none := by
  by_cases hcp : c = '('
  · subst hcp
    have hco : coreAt false t = none := by
      cases hco : coreAt false t with
      | none => rfl
      | some p =>
        obtain ⟨core, r⟩ := p
        have h3 : matchAt pw ('(' :: t) =
            some ⟨['('], core, (g3At r).1, (g3At r).2⟩ := matchAt_lparen_some hco
        rw [hm] at h3
        simp at h3
    apply matchAt_lparen_none
    have hwc : wch '(' = false := by decide
    rw [hwc]
    rcases coreAt_none_inv hco with hb | hfl
    · apply coreAt_none_of_bAt
      unfold bAt at hb ⊢
      rcases subScan_head false t with hh | ⟨h1, h2⟩
      · rw [hh]
        exact hb
      · exfalso
        cases ht2 : t.head? with
        | none => rw [ht2] at h2; simp at h2
        | some e =>
          rw [ht2] at h2
          simp only [Option.map_some'] at h2
          have he : e.isAlpha = true := Option.some.inj h2
          rw [ht2] at hb
          have hw : wchOpt (some e) = true := by
            show wch e = true
            exact wch_of_alpha he
          rw [hw] at hb
          simp at hb
    · have hnb := findLen_none_iff.mp hfl
      apply coreAt_none_of_findLen
      obtain ⟨hget, htw⟩ := scan_prefix_stable false hnb
      rw [htw]
      apply findLen_none_iff.mpr
      intro j h1 h2
      rw [scan_bAtPos_stable false hnb j h1 h2]
      exact hnb j h1 h2
  · have hne : ∀ d, (c :: t).head? = some d → d ≠ '(' := by
      intro d hd heq
      have h4 := Option.some.inj hd
      rw [heq] at h4
      exact hcp h4
    have hco : coreAt pw (c :: t) = none := by
      cases hco : coreAt pw (c :: t) with
      | none => rfl
      | some p =>
        obtain ⟨core, r⟩ := p
        have h3 := matchAt_plain_some hne hco
        rw [hm] at h3
        simp at h3
    have hne2 : ∀ d, (c :: subScan (wch c) t).head? = some d → d ≠ '(' := by
      intro d hd heq
      have h4 := Option.some.inj hd
      rw [heq] at h4
      exact hcp h4
    apply matchAt_plain_none hne2
    rcases coreAt_none_inv hco with hb | hfl
    · exact coreAt_none_of_bAt hb
    · apply coreAt_none_of_findLen
      cases hc : lhch c with
      | false =>
        have h5 : (List.takeWhile lhch (c :: subScan (wch c) t)) = [] := by
          simp [List.takeWhile_cons, hc]
        rw [h5]
        rfl
      | true =>
        have hnb0 := findLen_none_iff.mp hfl
        have hbound : (List.takeWhile lhch (c :: t)).length =
            (List.takeWhile lhch t).length + 1 := by
          simp [List.takeWhile_cons, hc]
        have hnbt : ∀ j, 1 ≤ j → j ≤ (t.takeWhile lhch).length → bAtPos t j = false := by
          intro j h1 h2
          rw [← bAtPos_cons h1]
          exact hnb0 (j + 1) (by omega) (by omega)
        have htw := (scan_prefix_stable (wch c) hnbt).2
        have hbound' : (List.takeWhile lhch (c :: subScan (wch c) t)).length =
            (List.takeWhile lhch t).length + 1 := by
          simp [List.takeWhile_cons, hc, htw]
        rw [hbound']
        apply findLen_none_iff.mpr
        intro j h1 h2
        rcases Nat.lt_or_ge j 2 with hj | hj
        · have hj1 : j = 1 := by omega
      
          subst hj1
          have hh : (subScan (wch c) t).head? = t.head? := scan_head_stable (wch c) hnbt
          have horig : bAtPos (c :: t) 1 = false := hnb0 1 (by omega) (by omega)
          unfold bAtPos at horig ⊢
          rw [show (1 : Nat) - 1 = 0 from rfl] at horig ⊢
          rw [get?_zero] at horig ⊢
          rw [show ((c :: subScan (wch c) t).get? 1) = (subScan (wch c) t).head? from get?_zero]
          rw [show ((c :: t).get? 1) = t.head? from get?_zero] at horig
          rw [hh]
          exact horig
        · obtain ⟨j2, rfl⟩ : ∃ j2, j = j2 + 1 := ⟨j - 1, by omega⟩
          rw [bAtPos_cons (by omega)]
          rw [scan_bAtPos_stable (wch c) hnbt j2 (by omega) (by omega)]
          rw [← bAtPos_cons (by omega : 1 ≤ j2)]
          exact hnb0 (j2 + 1) (by omega) (by omega)

theorem scan_wch_head (pw : Bool) (z : List Char) :
    wchOpt (subScan pw z).head? = wchOpt z.head? := by
  rcases subScan_head pw z with h | ⟨h1, h2⟩
  · rw [h]
  · cases hz : z.head? with
    | none => rw [hz] at h2; simp at h2
    | some e =>
      rw [hz] at h2
      simp only [Option.map_some'] at h2
      cases ho : (subScan pw z).head? with
      | none => rw [ho] at h1; simp at h1
      | some d =>
        rw [ho] at h1
        simp only [Option.map_some'] at h1
        show wch d = wch e
        rw [wch_of_alpha (Option.some.inj h1), wch_of_alpha (Option.some.inj h2)]

theorem lhch_rparen : lhch ')' = false := by decide

theorem lhch_qmark : lhch '?' = false := by decide

theorem g3_head_not_lhch {r g rest : List Char} (h : g3At r = (g, rest)) :
    ∀ d, g.head? = some d → lhch d = false := by
  obtain ⟨-, hcases⟩ := g3At_inv h
  intro d hd
  rcases hcases with h1 | ⟨h1, -⟩ | h1 | ⟨h1, -⟩ <;> rw [h1] at hd
  · rw [← Option.some.inj hd]
    exact lhch_rparen
  · rw [← Option.some.inj hd]
    exact lhch_rparen
  · rw [← Option.some.inj hd]
    exact lhch_qmark
  · simp at hd

theorem takeWhile_lhch_g3 {r g rest z : List Char} (h : g3At r = (g, rest))
    (hgne : g ≠ []) : (g ++ z).takeWhile lhch = [] := by
  cases g with
  | nil => exact absurd rfl hgne
  | cons a g2 =>
    have hh : ((a :: g2) ++ z).head? = some a := rfl
    apply takeWhile_nil_of_head hh
    exact g3_head_not_lhch h a rfl

theorem matchAt_some_stable {pw : Bool} {l : List Char} {m : TokenMatch}
    (hm : matchAt pw l = some m) :
    matchAt pw (m.g1 ++ (tokenMap m.core ++ (m.g3 ++ subScan (spanEndW m) m.rest))) =
      some ⟨m.g1, tokenMap m.core, m.g3, subScan (spanEndW m) m.rest⟩ := by
  obtain ⟨hg3, hcases⟩ := matchAt_inv hm
  have hrebuild : ∀ (pwx : Bool),
      coreAt pwx (m.core ++ (m.g3 ++ m.rest)) = some (m.core, m.g3 ++ m.rest) →
      coreAt pwx (tokenMap m.core ++ (m.g3 ++ subScan (spanEndW m) m.rest)) =
        some (tokenMap m.core, m.g3 ++ subScan (spanEndW m) m.rest) := by
    intro pwx hcore
    obtain ⟨hdec, hne2, hlh, hbat, hbnd, hble, hmax⟩ := coreAt_facts hcore
    obtain ⟨htne, htlh, hth, htl, hdisj⟩ := tokenMap_facts hne2 hlh
    apply coreAt_rebuild htne htlh
    · unfold bAt at hbat
      rw [head?_append_left hne2] at hbat
      rw [hth]
      exact hbat
    · rw [bAtPos_append_at htne]
      rw [bAtPos_append_at hne2] at hbnd
      rw [htl]
      cases hg : m.g3 with
      | cons a g2 =>
        rw [hg] at hbnd
        have h1 : ((a :: g2) ++ subScan (spanEndW m) m.rest).head? = some a := rfl
        have h2 : ((a :: g2) ++ m.rest).head? = some a := rfl
        rw [h1]
        rw [h2] at hbnd
        exact hbnd
      | nil =>
        rw [hg] at hbnd
        rw [List.nil_append] at hbnd ⊢
        have h3 : wchOpt (subScan (spanEndW m) m.rest).head? = wchOpt m.rest.head? :=
          scan_wch_head _ _
        rw [h3]
        exact hbnd
    · cases hg : m.g3 with
      | cons a g2 =>
        rw [takeWhile_lhch_g3 (hg ▸ hg3) (by simp)]
        intro j hj1 hj2
        simp only [List.length_nil] at hj2
        omega
      | nil =>
        rw [hg] at hdec hmax hble
        rw [List.nil_append] at hdec hmax hble ⊢
        have haw : (m.core ++ m.rest).takeWhile lhch = m.core ++ m.rest.takeWhile lhch :=
          takeWhile_append_all hlh
        rw [haw, List.length_append] at hmax hble
        have hnbr : ∀ j, 1 ≤ j → j ≤ (m.rest.takeWhile lhch).length →
            bAtPos m.rest j = false := by
          intro j h1 h2
          rw [← bAtPos_append (a := m.core) h1]
          exact hmax (m.core.length + j) (by omega) (by omega)
        obtain ⟨-, htw⟩ := scan_prefix_stable (spanEndW m) hnbr
        intro j hj1 hj2
        rw [htw] at hj2
        obtain ⟨j2, rfl⟩ : ∃ j2, j = (tokenMap m.core).length + j2 :=
          ⟨j - (tokenMap m.core).length, by omega⟩
        rw [bAtPos_append (by omega)]
        rw [scan_bAtPos_stable (spanEndW m) hnbr j2 (by omega) (by omega)]
        exact hnbr j2 (by omega) (by omega)
  have hg3head : (subScan (spanEndW m) m.rest).head? = m.rest.head? ∨
      ∃ d, (subScan (spanEndW m) m.rest).head? = some d ∧ d.isAlpha = true := by
    rcases subScan_head (spanEndW m) m.rest with h | ⟨h1, h2⟩
    · exact Or.inl h
    · cases ho : (subScan (spanEndW m) m.rest).head? with
      | none => rw [ho] at h1; simp at h1
      | some d =>
        rw [ho] at h1
        simp only [Option.map_some'] at h1
        exact Or.inr ⟨d, rfl, Option.some.inj h1⟩
  have hg3new : g3At (m.g3 ++ subScan (spanEndW m) m.rest) =
      (m.g3, subScan (spanEndW m) m.rest) := g3At_rebuild hg3 hg3head
  rcases hcases with ⟨t2, hl, hg1, hcore⟩ | ⟨hg1, hne, hcore⟩
  · have ht2 : t2 = m.core ++ (m.g3 ++ m.rest) := (coreAt_facts hcore).1
    rw [ht2] at hcore
    rw [hg1]
    show matchAt pw ('(' :: (tokenMap m.core ++ (m.g3 ++ subScan (spanEndW m) m.rest))) = _
    rw [matchAt_lparen_some (hrebuild false hcore)]
    rw [hg3new]
  · have hl2 : l = m.core ++ (m.g3 ++ m.rest) := by
      obtain ⟨hdec2, -, -⟩ := matchAt_decomp hm
      rw [hg1] at hdec2
      rw [hdec2, List.nil_append]
    rw [hl2] at hcore
    obtain ⟨-, hne2, hlh, -, -, -, -⟩ := coreAt_facts hcore
    obtain ⟨htne, htlh, -, -, -⟩ := tokenMap_facts hne2 hlh
    have hcore2 := hrebuild pw hcore
    rw [hg1, List.nil_append]
    rw [matchAt_plain_some ?_ hcore2]
    · rw [hg3new]
    · intro d hd heq
      rw [head?_append_left htne] at hd
      have hdm : d ∈ tokenMap m.core := by
        cases hy : tokenMap m.core with
        | nil => exact absurd hy htne
        | cons a y2 =>
          rw [hy] at hd
          rw [List.mem_cons]
          exact Or.inl (Option.some.inj hd).symm
      have h9 := htlh d hdm
      rw [heq, lhch_lparen] at h9
      simp at h9

theorem spanEndW_stable {pw : Bool} {l : List Char} {m : TokenMatch}
    (hm : matchAt pw l = some m) :
    spanEndW ⟨m.g1, tokenMap m.core, m.g3, subScan (spanEndW m) m.rest⟩ = spanEndW m := by
  have hfacts : m.core ≠ [] ∧ ∀ c ∈ m.core, lhch c = true := by
    obtain ⟨-, h2, h3⟩ := matchAt_decomp hm
    exact ⟨h2, h3⟩
  obtain ⟨htne, -, -, htl, -⟩ := tokenMap_facts hfacts.1 hfacts.2
  show wchOpt (m.g1 ++ tokenMap m.core ++ m.g3).getLast? =
    wchOpt (m.g1 ++ m.core ++ m.g3).getLast?
  cases hg : m.g3 with
  | cons a g2 =>
    rw [getLast?_append_left (by simp), getLast?_append_left (by simp)]
  | nil =>
    rw [List.append_nil, List.append_nil]
    rw [getLast?_append_left htne, getLast?_append_left hfacts.1]
    exact htl

theorem subScan_of_match {pw : Bool} {l2 : List Char} {m2 : TokenMatch}
    (hm2 : matchAt pw l2 = some m2) (hne : l2 ≠ []) :
    subScan pw l2 = replTok m2 ++ subScan (spanEndW m2) m2.rest := by
  cases l2 with
  | nil => exact absurd rfl hne
  | cons c t =>
    show subScanF (t.length + 1) pw (c :: t) = _
    rw [subScanF_match hm2]
    congr 1
    have := matchAt_rest_len hm2
    simp only [List.length_cons] at this
    exact subScanF_eq_subScan (by omega)

theorem subScan_idem : ∀ (n : Nat) (pw : Bool) (l : List Char), l.length ≤ n →
    subScan pw (subScan pw l) = subScan pw l := by
  intro n
  induction n with
  | zero =>
    intro pw l hl
    have h0 : l = [] := List.length_eq_zero.mp (by omega)
    subst h0
    rfl
  | succ n ih =>
    intro pw l hl
    cases l with
    | nil => rfl
    | cons c t =>
      simp only [List.length_cons] at hl
      cases hm : matchAt pw (c :: t) with
      | none =>
        have h1 : subScan pw (c :: t) = c :: subScan (wch c) t := by
          rw [show subScan pw (c :: t) = subScanF (t.length + 1) pw (c :: t) from rfl]
          rw [subScanF_nomatch hm]
          rfl
        rw [h1]
        have hm2 := matchAt_none_stable hm
        have h2 : subScan pw (c :: subScan (wch c) t) =
            c :: subScan (wch c) (subScan (wch c) t) := by
          rw [show subScan pw (c :: subScan (wch c) t) =
            subScanF ((subScan (wch c) t).length + 1) pw
              (c :: subScan (wch c) t) from rfl]
          rw [subScanF_nomatch hm2]
          rfl
        rw [h2, ih (wch c) t (by omega)]
      | some m =>
        have hrl := matchAt_rest_len hm
        simp only [List.length_cons] at hrl
        have h1 : subScan pw (c :: t) = replTok m ++ subScan (spanEndW m) m.rest := by
          rw [show subScan pw (c :: t) = subScanF (t.length + 1) pw (c :: t) from rfl]
          rw [subScanF_match hm]
          congr 1
          exact subScanF_eq_subScan (by omega)
        have hfacts : m.core ≠ [] ∧ ∀ ch ∈ m.core, lhch ch = true := by
          obtain ⟨-, h2, h3⟩ := matchAt_decomp hm
          exact ⟨h2, h3⟩
        obtain ⟨htne, -, -, -, -⟩ := tokenMap_facts hfacts.1 hfacts.2
        have hform : replTok m ++ subScan (spanEndW m) m.rest =
            m.g1 ++ (tokenMap m.core ++ (m.g3 ++ subScan (spanEndW m) m.rest)) := by
          unfold replTok
          simp [List.append_assoc]
        have hm2 := matchAt_some_stable hm
        have hne2 : m.g1 ++ (tokenMap m.core ++ (m.g3 ++ subScan (spanEndW m) m.rest)) ≠ [] := by
          intro hcontra
          rcases List.append_eq_nil.mp hcontra with ⟨-, h5⟩
          rcases List.append_eq_nil.mp h5 with ⟨h6, -⟩
          exact htne h6
        have h2 := subScan_of_match hm2 hne2
        have hrepl : replTok ⟨m.g1, tokenMap m.core, m.g3, subScan (spanEndW m) m.rest⟩ =
            replTok m := by
          show m.g1 ++ tokenMap (tokenMap m.core) ++ m.g3 = replTok m
          rw [tokenMap_idem2]
          rfl
        rw [h1, hform, h2, hrepl, spanEndW_stable hm]
        show replTok m ++ subScan (spanEndW m) (subScan (spanEndW m) m.rest) =
          m.g1 ++ (tokenMap m.core ++ (m.g3 ++ subScan (spanEndW m) m.rest))
        rw [ih (spanEndW m) m.rest (by omega)]
        exact hform

/-- C5: the shorthand normalizer is idempotent: for every input string,
    renormalizing the normalized output is a no-op.  Matched cores are replaced
    by vocabulary values that preserve word-run shape (nonempty, all
    letter/hyphen, letter-edged), unmatched word runs are copied verbatim
    (their lack of an interior word boundary blocks any new match), so a second
    scan makes the same decisions and `tokenMap` is idempotent on values. -/
theorem C5_normalize_idempotent (s : String) :
    normalize_fortinet_shorthands (normalize_fortinet_shorthands s) =
      normalize_fortinet_shorthands s := by
  unfold normalize_fortinet_shorthands
  by_cases hs : s = ""
  · rw [if_pos hs, if_pos hs]
  · rw [if_neg hs]
    by_cases h2 : String.mk (subScan false s.data) = ""
    · rw [if_pos h2]
    · rw [if_neg h2]
      show String.mk (subScan false (subScan false s.data)) = String.mk (subScan false s.data)
      rw [subScan_idem (s.data.length) false s.data le_rfl]

/-! ## C1: brand-prefix invariance for single Forti*-tokens

For a token shaped `p1 ++ w ++ p2` with `p1 ∈ {"", "(", "["}`, `w` nonempty
all-letters with `w.lower()` starting `"forti"`, and `p2` drawn from
`)]?,`, every transformer preserves the token: the cleaned word is exactly
`w`, the brand check fires in each word routine, and the acronym-plural pass
cannot touch a `forti`-lowered run. -/

theorem acr_patterns_not_forti : ∀ pr ∈ acronym_fixes,
    "forti".data.isPrefixOf (pyLower pr.1.data) = false := by
  decide

theorem pyIsSpace_of_alpha {c : Char} (h : c.isAlpha = true) : pyIsSpace c = false := by
  cases hps : pyIsSpace c with
  | false => rfl
  | true =>
    exfalso
    have h1 := isAlpha_iff.mp h
    have h2 := pyIsSpace_iff.mp hps
    omega

theorem mapRuns_nonword_list {f : List Char → List Char} {p2 : List Char}
    (h : ∀ c ∈ p2, wch c = false) : mapRuns f p2 = p2 := by
  induction p2 with
  | nil => exact mapRuns_nil f
  | cons c t ih =>
    rw [mapRuns_cons_nonword (h c (by simp)) t]
    rw [ih (fun c2 hc2 => h c2 (by simp [hc2]))]

theorem acrRun_forti_id {w : List Char} (hforti : lowersToForti w = true) :
    acrRun w = w := by
  rcases acrRun_cases w with h | ⟨pr, hpr, hrp, hrun⟩
  · exact h
  · exfalso
    unfold lowersToForti at hforti
    rw [hrp] at hforti
    rw [acr_patterns_not_forti pr hpr] at hforti
    simp at hforti

theorem token_fix_id {p1 w p2 : List Char}
    (hp1 : p1 = [] ∨ p1 = ['('] ∨ p1 = ['['])
    (hwne : w ≠ []) (hwa : ∀ c ∈ w, c.isAlpha = true)
    (hforti : lowersToForti w = true)
    (hp2 : ∀ c ∈ p2, c = ')' ∨ c = ']' ∨ c = '?' ∨ c = ',') :
    fixAcronymPluralsL (p1 ++ w ++ p2) = p1 ++ w ++ p2 := by
  have hww : ∀ c ∈ w, wch c = true := fun c hc => wch_of_alpha (hwa c hc)
  have hp2w : ∀ c ∈ p2, wch c = false := by
    intro c hc
    rcases hp2 c hc with h | h | h | h <;> rw [h] <;> decide
  have hhd : ∀ x, (p2 : List Char).head? = some x → wch x = false := by
    intro x hx
    cases p2 with
    | nil => simp at hx
    | cons a t =>
      have := Option.some.inj hx
      rw [← this]
      exact hp2w a (by simp)
  have hmid : mapRuns acrRun (w ++ p2) = w ++ p2 := by
    rw [mapRuns_run_append hwne hww hhd]
    rw [acrRun_forti_id hforti, mapRuns_nonword_list hp2w]
  rw [fix_eq_mapRuns]
  rcases hp1 with h | h | h <;> subst h
  · rw [List.nil_append]
    exact hmid
  · show mapRuns acrRun ('(' :: (w ++ p2)) = '(' :: (w ++ p2)
    rw [mapRuns_cons_nonword (by decide) _, hmid]
  · show mapRuns acrRun ('[' :: (w ++ p2)) = '[' :: (w ++ p2)
    rw [mapRuns_cons_nonword (by decide) _, hmid]

theorem token_clean {p1 w p2 : List Char}
    (hp1 : p1 = [] ∨ p1 = ['('] ∨ p1 = ['['])
    (hwa : ∀ c ∈ w, c.isAlpha = true)
    (hp2 : ∀ c ∈ p2, c = ')' ∨ c = ']' ∨ c = '?' ∨ c = ',') :
    cleanWord (p1 ++ w ++ p2) = w := by
  unfold cleanWord
  rw [List.filter_append, List.filter_append]
  have h1 : p1.filter (fun c => wch c || c = '-') = [] := by
    rcases hp1 with h | h | h <;> subst h <;> decide
  have h2 : w.filter (fun c => wch c || c = '-') = w := by
    rw [List.filter_eq_self]
    intro c hc
    simp [wch_of_alpha (hwa c hc)]
  have h3 : p2.filter (fun c => wch c || c = '-') = [] := by
    rw [List.filter_eq_nil]
    intro c hc
    rcases hp2 c hc with h | h | h | h <;> subst h <;> decide
  rw [h1, h2, h3, List.append_nil, List.nil_append]

theorem token_split {p1 w p2 : List Char}
    (hp1 : p1 = [] ∨ p1 = ['('] ∨ p1 = ['['])
    (hwne : w ≠ []) (hwa : ∀ c ∈ w, c.isAlpha = true)
    (hp2 : ∀ c ∈ p2, c = ')' ∨ c = ']' ∨ c = '?' ∨ c = ',') :
    pySplitL (p1 ++ w ++ p2) = [p1 ++ w ++ p2] := by
  have hgood : ∀ x ∈ [p1 ++ w ++ p2], x ≠ [] ∧ ∀ c ∈ x, pyIsSpace c = false := by
    intro x hx
    rw [List.mem_singleton] at hx
    subst hx
    constructor
    · intro hc
      rcases List.append_eq_nil.mp hc with ⟨h5, -⟩
      rcases List.append_eq_nil.mp h5 with ⟨-, h6⟩
      exact hwne h6
    · intro c hc
      rw [List.append_assoc, List.mem_append, List.mem_append] at hc
      rcases hc with h | h | h
      · rcases hp1 with hh | hh | hh <;> subst hh
        · simp at h
        · rw [List.mem_singleton] at h; rw [h]; decide
        · rw [List.mem_singleton] at h; rw [h]; decide
      · exact pyIsSpace_of_alpha (hwa c h)
      · rcases hp2 c h with hh | hh | hh | hh <;> rw [hh] <;> decide
  have := pySplit_joinSpace [p1 ++ w ++ p2] hgood
  rw [show joinSpace [p1 ++ w ++ p2] = p1 ++ w ++ p2 from rfl] at this
  exact this

theorem token_sfx_all {p2 : List Char}
    (hp2 : ∀ c ∈ p2, c = ')' ∨ c = ']' ∨ c = '?' ∨ c = ',') :
    (p2.all fun c => decide (c = ')') || decide (c = ']') || decide (c = '?') ||
      decide (c = ',')) = true := by
  rw [List.all_eq_true]
  intro c hc
  rcases hp2 c hc with h | h | h | h <;> subst h <;> decide

theorem token_core_takeWhile {w p2 : List Char}
    (hwa : ∀ c ∈ w, c.isAlpha = true)
    (hp2 : ∀ c ∈ p2, c = ')' ∨ c = ']' ∨ c = '?' ∨ c = ',') :
    (w ++ p2).takeWhile (fun c => wch c || decide (c = '-')) = w := by
  rw [takeWhile_append_all (fun c hc => by simp [wch_of_alpha (hwa c hc)])]
  have h2 : p2.takeWhile (fun c => wch c || decide (c = '-')) = [] := by
    cases p2 with
    | nil => rfl
    | cons a t =>
      apply takeWhile_nil_of_head (show (a :: t).head? = some a from rfl)
      rcases hp2 a (by simp) with h | h | h | h <;> subst h <;> decide
  rw [h2, List.append_nil]

theorem token_titleShMatch {p1 w p2 : List Char}
    (hp1 : p1 = [] ∨ p1 = ['('] ∨ p1 = ['['])
    (hwne : w ≠ []) (hwa : ∀ c ∈ w, c.isAlpha = true)
    (hp2 : ∀ c ∈ p2, c = ')' ∨ c = ']' ∨ c = '?' ∨ c = ',') :
    titleShMatch (p1 ++ w ++ p2) = some (p1, w, p2) := by
  have hcore := token_core_takeWhile hwa hp2
  have hcond : w ≠ [] ∧ (p2.all fun c => decide (c = ')') || decide (c = ']') ||
      decide (c = '?') || decide (c = ',')) = true := ⟨hwne, token_sfx_all hp2⟩
  rcases hp1 with h | h | h <;> subst h
  · cases w with
    | nil => exact absurd rfl hwne
    | cons c wt =>
      have hca := hwa c (by simp)
      have hc1 : c ≠ '(' := by
        intro hcc
        subst hcc
        exact absurd hca (by decide)
      have hc2 : c ≠ '[' := by
        intro hcc
        subst hcc
        exact absurd hca (by decide)
      have hmatch : (match ([] : List Char) ++ (c :: wt) ++ p2 with
          | '(' :: t => (['('], t)
          | '[' :: t => (['['], t)
          | t => ([], t)) = (([] : List Char), (c :: wt) ++ p2) := by
        rw [List.nil_append]
        split
        · rename_i t heq
          obtain ⟨h5, -⟩ := (List.cons.injEq _ _ _ _).mp heq
          exact absurd h5 hc1
        · rename_i t heq
          obtain ⟨h5, -⟩ := (List.cons.injEq _ _ _ _).mp heq
          exact absurd h5 hc2
        · rfl
      unfold titleShMatch
      dsimp only
      rw [hmatch]
      dsimp only
      rw [hcore, List.drop_left, if_pos hcond]
  · have hmatch : (match ['('] ++ w ++ p2 with
        | '(' :: t => (['('], t)
        | '[' :: t => (['['], t)
        | t => ([], t)) = ((['('] : List Char), w ++ p2) := rfl
    unfold titleShMatch
    dsimp only
    rw [hmatch]
    dsimp only
    rw [hcore, List.drop_left, if_pos hcond]
  · have hmatch : (match ['['] ++ w ++ p2 with
        | '(' :: t => (['('], t)
        | '[' :: t => (['['], t)
        | t => ([], t)) = ((['['] : List Char), w ++ p2) := rfl
    unfold titleShMatch
    dsimp only
    rw [hmatch]
    dsimp only
    rw [hcore, List.drop_left, if_pos hcond]

theorem token_titleWord {p1 w p2 : List Char}
    (hp1 : p1 = [] ∨ p1 = ['('] ∨ p1 = ['['])
    (hwne : w ≠ []) (hwa : ∀ c ∈ w, c.isAlpha = true)
    (hforti : lowersToForti w = true)
    (hp2 : ∀ c ∈ p2, c = ')' ∨ c = ']' ∨ c = '?' ∨ c = ',') (fi la : Bool) :
    titleWord fi la (p1 ++ w ++ p2) = p1 ++ w ++ p2 := by
  unfold titleWord
  rw [token_titleShMatch hp1 hwne hwa hp2]
  dsimp only
  rw [if_pos hforti]

theorem token_sentStep {p1 w p2 : List Char}
    (hp1 : p1 = [] ∨ p1 = ['('] ∨ p1 = ['['])
    (hwa : ∀ c ∈ w, c.isAlpha = true)
    (hforti : lowersToForti w = true)
    (hp2 : ∀ c ∈ p2, c = ')' ∨ c = ']' ∨ c = '?' ∨ c = ',') (flag : Bool) :
    sentStep flag (p1 ++ w ++ p2) =
      some (p1 ++ w ++ p2, endsSentencePunct (p1 ++ w ++ p2)) := by
  unfold sentStep
  dsimp only
  rw [token_clean hp1 hwa hp2, if_pos hforti]

theorem token_capWord {p1 w p2 : List Char}
    (hp1 : p1 = [] ∨ p1 = ['('] ∨ p1 = ['['])
    (hwa : ∀ c ∈ w, c.isAlpha = true)
    (hforti : lowersToForti w = true)
    (hp2 : ∀ c ∈ p2, c = ')' ∨ c = ']' ∨ c = '?' ∨ c = ',') :
    capWord (p1 ++ w ++ p2) = p1 ++ w ++ p2 := by
  unfold capWord
  rw [token_clean hp1 hwa hp2, if_pos hforti]

/-- C1 (amended): for a single token `p1 ++ w ++ p2` whose letters-only core `w`
    lowercases to a `forti`-prefixed word, with leading punctuation limited to
    `(` or `[` and trailing punctuation drawn from `)`, `]`, `?`, `,`, all
    three case transformers return `(true, token unchanged)`, and in the
    normalizer's callback the brand check takes precedence over the vocabulary
    lookup (`tokenMap w = w` even when `w.lower()` is a dictionary key).
    Tokens with other punctuation, e.g. a leading `?`, are NOT preserved
    (`C1_counterexample`). -/
theorem C1_brand_token_invariance (p1 w p2 : List Char)
    (hp1 : p1 = [] ∨ p1 = ['('] ∨ p1 = ['['])
    (hwne : w ≠ []) (hwa : ∀ c ∈ w, c.isAlpha = true)
    (hforti : lowersToForti w = true)
    (hp2 : ∀ c ∈ p2, c = ')' ∨ c = ']' ∨ c = '?' ∨ c = ',') :
    validate_capital_case (String.mk (p1 ++ w ++ p2)) =
      (true, String.mk (p1 ++ w ++ p2)) ∧
    validate_title_case (String.mk (p1 ++ w ++ p2)) =
      (true, String.mk (p1 ++ w ++ p2)) ∧
    validate_sentence_case (String.mk (p1 ++ w ++ p2)) =
      some (true, String.mk (p1 ++ w ++ p2)) ∧
    tokenMap w = w := by
  have htokne : p1 ++ w ++ p2 ≠ [] := by
    intro hc
    rcases List.append_eq_nil.mp hc with ⟨h5, -⟩
    rcases List.append_eq_nil.mp h5 with ⟨-, h6⟩
    exact hwne h6
  have hsne : ¬ (String.mk (p1 ++ w ++ p2) = "") := by
    intro h
    exact htokne (congrArg String.data h)
  have hsplit := token_split hp1 hwne hwa hp2
  have hfix := token_fix_id hp1 hwne hwa hforti hp2
  have hjoin : joinSpace [p1 ++ w ++ p2] = p1 ++ w ++ p2 := rfl
  refine ⟨?_, ?_, ?_, ?_⟩
  · unfold validate_capital_case
    rw [if_neg hsne]
    show (decide ((p1 ++ w ++ p2) = fixAcronymPluralsL (joinSpace
        ((pySplitL (p1 ++ w ++ p2)).map capWord))),
      String.mk (fixAcronymPluralsL (joinSpace
        ((pySplitL (p1 ++ w ++ p2)).map capWord)))) =
      (true, String.mk (p1 ++ w ++ p2))
    rw [hsplit]
    rw [show ([p1 ++ w ++ p2].map capWord) = [capWord (p1 ++ w ++ p2)] from rfl]
    rw [token_capWord hp1 hwa hforti hp2, hjoin, hfix]
    rw [Prod.mk.injEq]
    exact ⟨by simp, rfl⟩
  · unfold validate_title_case
    rw [if_neg hsne]
    show (decide ((p1 ++ w ++ p2) = fixAcronymPluralsL (joinSpace
        (titleWords (pySplitL (p1 ++ w ++ p2))))),
      String.mk (fixAcronymPluralsL (joinSpace
        (titleWords (pySplitL (p1 ++ w ++ p2)))))) =
      (true, String.mk (p1 ++ w ++ p2))
    rw [hsplit]
    have htw : titleWords [p1 ++ w ++ p2] =
        [titleWord true true (p1 ++ w ++ p2)] := rfl
    rw [htw, token_titleWord hp1 hwne hwa hforti hp2 true true, hjoin, hfix]
    rw [Prod.mk.injEq]
    exact ⟨by simp, rfl⟩
  · unfold validate_sentence_case
    rw [if_neg hsne]
    show (match processWords true (pySplitL (p1 ++ w ++ p2)) with
      | some os => some (decide ((p1 ++ w ++ p2) = fixAcronymPluralsL (joinSpace os)),
          String.mk (fixAcronymPluralsL (joinSpace os)))
      | none => none) = some (true, String.mk (p1 ++ w ++ p2))
    rw [hsplit]
    have hpw : processWords true [p1 ++ w ++ p2] = some [p1 ++ w ++ p2] := by
      unfold processWords
      rw [token_sentStep hp1 hwa hforti hp2 true]
      rfl
    rw [hpw]
    dsimp only
    rw [hjoin, hfix]
    simp
  · unfold tokenMap
    rw [if_pos hforti]


/-- C1 witness: `"(FortiGate)"` — the lowercased core `"fortigate"` is a
    vocabulary key, yet the brand check fires first and every transformer
    returns the token unchanged. -/
theorem C1_brand_token_invariance_witness :
    lookupShorthand (pyLower "FortiGate".data) = some "FortiGate".data ∧
    (validate_capital_case (String.mk (['('] ++ "FortiGate".data ++ [')'])) =
      (true, String.mk (['('] ++ "FortiGate".data ++ [')'])) ∧
    validate_title_case (String.mk (['('] ++ "FortiGate".data ++ [')'])) =
      (true, String.mk (['('] ++ "FortiGate".data ++ [')'])) ∧
    validate_sentence_case (String.mk (['('] ++ "FortiGate".data ++ [')'])) =
      some (true, String.mk (['('] ++ "FortiGate".data ++ [')'])) ∧
    tokenMap "FortiGate".data = "FortiGate".data) :=
  ⟨by decide, C1_brand_token_invariance ['('] "FortiGate".data [')']
    (by decide) (by decide) (by decide) (by decide) (by decide)⟩
